import Mathlib

/-!
# qi-bribes: tally, threshold gate, bribe allocation and whale claw-back

A shallow embedding of `src/index.js`.

Numbers in the script are `bignumber.js` values.  The library is not part of
the repository; it is modelled here from its documented behaviour with the
default configuration the script runs under (`DECIMAL_PLACES = 20`,
`ROUNDING_MODE = ROUND_HALF_UP`):

* `plus`, `minus` and `times` are exact;
* `div` rounds the quotient to 20 decimal places, ties away from zero;
* `NaN` and `±Infinity` are values, produced by division by zero and by
  `BigNumber(undefined)`; no arithmetic operation throws;
* `BigNumber.sum()` without arguments is `BigNumber(undefined)`, that is `NaN`.

Two simplifications, neither reachable from non-negative voting powers and
positive weights: the sign the library keeps on a zero is dropped (it is only
observable as the sign of an infinity obtained by dividing by a zero of negative
sign), and the exponent range limit `1e±1000000000` is not modelled.

The rounding function of `div` is a parameter `rnd` of the embedding; the
script is the instance `rnd = BigNumber.rnd20`.

The objects `voteTotals`, `percentagesByChain` and `bribes` are lists of their
own properties in enumeration order.  `percentagesByChain` and `bribes` are
indexed by strings taken from the input, and a read or an assignment under a
name inherited from `Object.prototype` does not behave like one under a fresh
name: `chainStep` and `bribeEntry` follow the script there.  The script is a
CommonJS module without a strict-mode directive.
-/

namespace QiBribes

/-! ## bignumber.js values -/

/-- A `bignumber.js` value: a finite decimal (kept as a rational), `±Infinity`
or `NaN`. -/
inductive BigNumber
  | fin (q : ℚ)
  | inf (neg : Bool)
  | nan
  deriving DecidableEq

namespace BigNumber

/-- The library default `DECIMAL_PLACES`. -/
def DECIMAL_PLACES : ℕ := 20

/-- Rounding to `dp` decimal places, nearest neighbour, ties away from zero
(`ROUND_HALF_UP`). -/
def roundHalfUp (dp : ℕ) (q : ℚ) : ℚ :=
  let n : ℕ := (2 * (q.num.natAbs * 10 ^ dp) + q.den) / (2 * q.den)
  if q < 0 then -((n : ℚ) / 10 ^ dp) else (n : ℚ) / 10 ^ dp

/-- The rounding `div` applies under the default configuration. -/
def rnd20 : ℚ → ℚ := roundHalfUp DECIMAL_PLACES

/-- Value of `BigNumber(undefined)`, and of a defined value unchanged. -/
def ofUndefinable : Option BigNumber → BigNumber
  | none => nan
  | some x => x

/-- Whether the value is a finite number. -/
def isFinite : BigNumber → Bool
  | fin _ => true
  | _ => false

/-- The library's `x.plus(y)`. -/
def plus : BigNumber → BigNumber → BigNumber
  | nan, _ => nan
  | _, nan => nan
  | inf a, inf b => if a = b then inf a else nan
  | inf a, fin _ => inf a
  | fin _, inf b => inf b
  | fin a, fin b => fin (a + b)

/-- The library's `x.negated()`. -/
def negated : BigNumber → BigNumber
  | nan => nan
  | inf a => inf (!a)
  | fin a => fin (-a)

/-- The library's `x.minus(y)`. -/
def minus (x y : BigNumber) : BigNumber := plus x (negated y)

/-- The library's `x.times(y)`. -/
def times : BigNumber → BigNumber → BigNumber
  | nan, _ => nan
  | _, nan => nan
  | inf a, inf b => inf (xor a b)
  | inf a, fin q => if q = 0 then nan else inf (xor a (decide (q < 0)))
  | fin q, inf b => if q = 0 then nan else inf (xor (decide (q < 0)) b)
  | fin a, fin b => fin (a * b)

/-- The library's `x.div(y)`, the finite quotient rounded by `rnd`. -/
def div (rnd : ℚ → ℚ) : BigNumber → BigNumber → BigNumber
  | nan, _ => nan
  | _, nan => nan
  | inf _, inf _ => nan
  | inf a, fin q => inf (xor a (decide (q < 0)))
  | fin _, inf _ => fin 0
  | fin a, fin b =>
    if b = 0 then (if a = 0 then nan else inf (decide (a < 0)))
    else fin (rnd (a / b))

/-- The library's `x.lt(y)`; false when either side is `NaN`. -/
def lt : BigNumber → BigNumber → Bool
  | nan, _ => false
  | _, nan => false
  | inf a, inf b => a && !b
  | inf a, fin _ => a
  | fin _, inf b => !b
  | fin a, fin b => decide (a < b)

/-- The library's `x.gt(y)`; false when either side is `NaN`. -/
def gt (x y : BigNumber) : Bool := lt y x

/-- The library's `BigNumber.sum(...args)`: `BigNumber(args[0])` with the
remaining arguments added in turn; `NaN` for no argument. -/
def sum : List BigNumber → BigNumber
  | [] => nan
  | x :: xs => xs.foldl plus x

end BigNumber

open BigNumber

/-! ## JavaScript strings, objects and exceptions -/

/-- The two ways the script stops: a `TypeError` from reading a property of
`undefined`, or the `Error` thrown on line 214. -/
inductive JsError
  | typeError
  | error (msg : String)
  deriving DecidableEq

/-- The parts of `s.split(sep)` for a one-character separator; never empty. -/
def splitChar (sep : Char) : List Char → List (List Char)
  | [] => [[]]
  | c :: cs =>
    if c = sep then [] :: splitChar sep cs
    else
      match splitChar sep cs with
      | [] => [[c]]
      | p :: ps => (c :: p) :: ps

/-- The `s.split(sep)` of a string by a one-character separator. -/
def jsSplit (sep : Char) (s : String) : List String :=
  (splitChar sep s.data).map String.mk

/-- The `s.toLowerCase()` of a string, on the ASCII letters.  Outside ASCII the
JavaScript mapping yields non-ASCII characters except for U+212A (to `k`) and
U+0130 (to `i` and U+0307); line 18 compares the result with `TETU_ADDRESS`,
which is ASCII and has neither `k` nor `i`, so the comparison is unaffected. -/
def toLowerCase (s : String) : String := String.mk (s.data.map Char.toLower)

/-- Own-property read `obj[k]`; `none` is `undefined`. -/
def getProp {κ α : Type} [DecidableEq κ] (k : κ) : List (κ × α) → Option α
  | [] => none
  | (k', v) :: t => if k = k' then some v else getProp k t

/-- Assignment `obj[k] = v` for a non-index string key: an existing property
keeps its place, a new one is appended (property order is insertion order). -/
def setProp {κ α : Type} [DecidableEq κ] (k : κ) (v : α) : List (κ × α) → List (κ × α)
  | [] => [(k, v)]
  | (k', v') :: t => if k = k' then (k, v) :: t else (k', v') :: setProp k v t

/-- Assignment `obj[k] = v` for an integer key: integer keys are enumerated in
ascending order whatever the order of insertion. -/
def setIndex {α : Type} (k : ℕ) (v : α) : List (ℕ × α) → List (ℕ × α)
  | [] => [(k, v)]
  | (k', v') :: t =>
    if k < k' then (k, v) :: (k', v') :: t
    else if k = k' then (k, v) :: t
    else (k', v') :: setIndex k v t

/-- The property names an object literal inherits from `Object.prototype`.  A
read `obj[k]` of a name `obj` does not own finds the inherited value: a function
for eleven of them, the prototype of `obj` for `__proto__`.  An assignment
`obj[k] = v` gives `obj` an own property for the eleven; for `__proto__` it runs
the inherited setter, which makes an object `v` the prototype of `obj` and adds
no own property. -/
def objectPrototypeKeys : List String :=
  ["constructor", "__defineGetter__", "__defineSetter__", "hasOwnProperty",
    "__lookupGetter__", "__lookupSetter__", "isPrototypeOf", "propertyIsEnumerable",
    "toString", "valueOf", "__proto__", "toLocaleString"]

/-- The property names an object inherits from a bignumber.js value that has
become its prototype, `Object.prototype` apart: the methods of the library's
documented interface and `_isBigNumber`, found on `BigNumber.prototype` with a
function or `true` as value.  The fields `c`, `e` and `s` of the value itself
are `null` for `NaN`, the one value line 194 can install, and read like a
missing property. -/
def bigNumberPrototypeKeys : List String :=
  ["absoluteValue", "abs", "comparedTo", "decimalPlaces", "dp", "dividedBy", "div",
    "dividedToIntegerBy", "idiv", "exponentiatedBy", "pow", "integerValue", "isEqualTo", "eq",
    "isFinite", "isGreaterThan", "gt", "isGreaterThanOrEqualTo", "gte", "isInteger",
    "isLessThan", "lt", "isLessThanOrEqualTo", "lte", "isNaN", "isNegative", "isPositive",
    "isZero", "minus", "modulo", "mod", "multipliedBy", "times", "negated", "plus",
    "precision", "sd", "shiftedBy", "squareRoot", "sqrt", "toExponential", "toFixed",
    "toFormat", "toFraction", "toJSON", "toNumber", "toPrecision", "_isBigNumber"]

/-- The names an object literal inherits with a truthy value: those of
`Object.prototype`, and those of `BigNumber.prototype` once an assignment to
`__proto__` has replaced its prototype by a bignumber.js value. -/
def inheritedKeys (protoReplaced : Bool) : List String :=
  if protoReplaced then objectPrototypeKeys ++ bigNumberPrototypeKeys else objectPrototypeKeys

/-! ## Constants of `src/index.js` (lines 10-14) -/

def OUR_BRIBED_CHOICE : String := "WBTC (Arbitrum)"

def QI_BRIBE_PER_ONE_PERCENT : BigNumber := fin 1000

def WHALE_THRESHOLD : ℚ := 250000

def WHALE_REDISTRIBUTION : ℚ := 20

def TETU_ADDRESS : String := "0x0644141dd9c2c34802d28d334217bd2034206bf7"

/-! ## `shouldClawBackWhale` and `choiceToChain` (lines 17-24) -/

/-- Lines 17-20.  `voterVp` is the decimal `BigNumber(voterVp)` denotes. -/
def shouldClawBackWhale (address : String) (voterVp : ℚ) : Bool :=
  if toLowerCase address = TETU_ADDRESS then false
  else (fin voterVp).gt (fin WHALE_THRESHOLD)

/-- Lines 22-24: `choice.split('(')[1].split(')')[0]`.  The argument is
`undefined` (`none`) when the caller indexes `choicesDict` out of range; calling
`.split` on `undefined`, here or on a missing second part, is a `TypeError`.
The last index `[0]` always exists. -/
def choiceToChain : Option String → Except JsError String
  | none => .error .typeError
  | some choice =>
    match (jsSplit '(' choice)[1]? with
    | none => .error .typeError
    | some part => .ok ((jsSplit ')' part).headD "")

/-! ## Input (lines 150-156) -/

/-- One record of `getAllVotes`: the voter address, the voting power `vp` (the
decimal `BigNumber(vote.vp)` denotes) and `choice`, the entries of the weight
object as `Object.entries` lists them. -/
structure Vote where
  voter : String
  vp : ℚ
  choice : List (ℕ × ℚ)

/-- Line 150: the proposal's choice labels behind an empty label, so that
choice ids index the array from 1. -/
def getProposalChoices (choices : List String) : List String := "" :: choices

/-! ## Vote totals (lines 163-173) -/

/-- Lines 165 and 225: `BigNumber.sum(...Object.values(vote.choice))`. -/
def totalWeight (vote : Vote) : BigNumber :=
  BigNumber.sum (vote.choice.map fun e => fin e.2)

/-- Lines 169 and 229: `BigNumber(vote.vp).times(BigNumber(weight)).div(totalWeight)`. -/
def choiceVote (rnd : ℚ → ℚ) (vote : Vote) (weight : ℚ) : BigNumber :=
  ((fin vote.vp).times (fin weight)).div rnd (totalWeight vote)

/-- Lines 168-169, the body of the inner loop.  A stored `BigNumber` is an
object, hence truthy: line 168 fires exactly when the entry is missing. -/
def tallyEntry (rnd : ℚ → ℚ) (vote : Vote) (voteTotals : List (ℕ × BigNumber))
    (e : ℕ × ℚ) : List (ℕ × BigNumber) :=
  let voteTotals1 :=
    if (getProp e.1 voteTotals).isNone then setIndex e.1 (fin 0) voteTotals else voteTotals
  setIndex e.1
    (BigNumber.sum [ofUndefinable (getProp e.1 voteTotals1), choiceVote rnd vote e.2])
    voteTotals1

/-- Lines 164-171, the body of the outer loop. -/
def tallyVote (rnd : ℚ → ℚ) (voteTotals : List (ℕ × BigNumber)) (vote : Vote) :
    List (ℕ × BigNumber) :=
  vote.choice.foldl (tallyEntry rnd vote) voteTotals

/-- Lines 163-171: `voteTotals` after the loop over the votes. -/
def tally (rnd : ℚ → ℚ) (votes : List Vote) : List (ℕ × BigNumber) :=
  votes.foldl (tallyVote rnd) []

/-- Line 173: `BigNumber.sum(...Object.values(voteTotals))`. -/
def totalVoteOf (voteTotals : List (ℕ × BigNumber)) : BigNumber :=
  BigNumber.sum (voteTotals.map Prod.snd)

/-! ## Percentages per choice and per chain (lines 175-195) -/

/-- One row pushed on `totalsArr` (lines 182-186). -/
structure TotalsRow where
  choice : Option String
  votes : BigNumber
  percentage : BigNumber
  deriving DecidableEq

/-- The variables the loop of lines 178-195 writes.  `percentagesByChain` holds
the own properties of the object; `protoReplaced` tells whether line 194 has
assigned to its `__proto__`, which replaces its prototype and adds no own
property. -/
structure ChainState where
  totalsArr : List TotalsRow
  percentagesByChain : List (String × BigNumber)
  ourChoiceVotes : Option BigNumber
  ourChoicePercentage : Option BigNumber
  protoReplaced : Bool
  deriving DecidableEq

/-- Line 179: `sumVotes.div(totalVote).times(100)`. -/
def percentageOf (rnd : ℚ → ℚ) (totalVote sumVotes : BigNumber) : BigNumber :=
  (sumVotes.div rnd totalVote).times (fin 100)

/-- Lines 179-194, the body of the loop; `choiceToChain` may throw.

The reads `percentagesByChain[chain]` of lines 193 and 194 follow the prototype
chain.  An inherited value is a function, an object or `true`: it is truthy, so
line 193 does not initialise the entry, and `BigNumber` converts it to `NaN` as
it does `undefined`, so line 194 computes `NaN`.  The assignment of line 194
writes an own property, except under the name `__proto__`, where it replaces the
prototype instead. -/
def chainStep (rnd : ℚ → ℚ) (choicesDict : List String) (totalVote : BigNumber)
    (st : ChainState) (e : ℕ × BigNumber) : Except JsError ChainState :=
  let percentage := percentageOf rnd totalVote e.2
  match choiceToChain choicesDict[e.1]? with
  | .error err => .error err
  | .ok chain =>
    let totalsArr := st.totalsArr ++ [TotalsRow.mk choicesDict[e.1]? e.2 percentage]
    let ours : Bool := decide (choicesDict[e.1]? = some OUR_BRIBED_CHOICE)
    let ourChoiceVotes := if ours then some e.2 else st.ourChoiceVotes
    let ourChoicePercentage := if ours then some percentage else st.ourChoicePercentage
    let found : Bool :=
      (getProp chain st.percentagesByChain).isSome ||
        decide (chain ∈ inheritedKeys st.protoReplaced)
    let pbc1 :=
      if found then st.percentagesByChain else setProp chain (fin 0) st.percentagesByChain
    let total := BigNumber.sum [ofUndefinable (getProp chain pbc1), percentage]
    let pbc2 := if chain = "__proto__" then pbc1 else setProp chain total pbc1
    .ok (ChainState.mk totalsArr pbc2 ourChoiceVotes ourChoicePercentage
      (st.protoReplaced || decide (chain = "__proto__")))

/-- Lines 178-195: the loop over `Object.entries(voteTotals)`. -/
def chainLoop (rnd : ℚ → ℚ) (choicesDict : List String) (totalVote : BigNumber) :
    List (ℕ × BigNumber) → ChainState → Except JsError ChainState
  | [], st => .ok st
  | e :: es, st =>
    match chainStep rnd choicesDict totalVote st e with
    | .error err => .error err
    | .ok st1 => chainLoop rnd choicesDict totalVote es st1

/-- What lines 163-195 have computed when they complete. -/
structure Aggregated where
  voteTotals : List (ℕ × BigNumber)
  totalVote : BigNumber
  chains : ChainState
  deriving DecidableEq

/-- Lines 163-195: the tally and the aggregation by chain. -/
def aggregate (rnd : ℚ → ℚ) (choicesDict : List String) (votes : List Vote) :
    Except JsError Aggregated :=
  let voteTotals := tally rnd votes
  let totalVote := totalVoteOf voteTotals
  match chainLoop rnd choicesDict totalVote voteTotals (ChainState.mk [] [] none none false) with
  | .error err => .error err
  | .ok st => .ok (Aggregated.mk voteTotals totalVote st)

/-! ## The threshold check (lines 211-215) -/

/-- Lines 212-215.  Reading `.lt` of a missing entry is a `TypeError`.  The chain
of the bribed choice, `Arbitrum`, is none of the inherited names, so the read
finds the own property or nothing. -/
def gate (percentagesByChain : List (String × BigNumber)) : Except JsError Unit :=
  match choiceToChain (some OUR_BRIBED_CHOICE) with
  | .error err => .error err
  | .ok ourBribedChain =>
    match getProp ourBribedChain percentagesByChain with
    | none => .error .typeError
    | some p =>
      if p.lt (fin 8.333) then
        .error (.error ("no bribes, " ++ ourBribedChain ++ " did not cross threshold"))
      else .ok ()

/-! ## Bribes (lines 217-262) -/

/-- An entry of `bribes` as line 232 writes it. -/
structure Bribe where
  voterVp : ℚ
  choicePerc : BigNumber
  bribeAmount : BigNumber
  deriving DecidableEq

/-- An entry of `bribes` after lines 252-258 have added their fields. -/
structure BribeRecord where
  voterVp : ℚ
  choicePerc : BigNumber
  bribeAmount : BigNumber
  whaleAdjust : BigNumber
  totalBribe : BigNumber
  qiPerPercent : BigNumber
  deriving DecidableEq

/-- Line 218: `BigNumber(ourChoicePercentage).times(QI_BRIBE_PER_ONE_PERCENT)`. -/
def totalBribeOf (ourChoicePercentage : Option BigNumber) : BigNumber :=
  (ofUndefinable ourChoicePercentage).times QI_BRIBE_PER_ONE_PERCENT

/-- Lines 229-236: the entry written for a vote and its weight on our choice. -/
def bribeOf (rnd : ℚ → ℚ) (totalBribe : BigNumber) (ourChoiceVotes : Option BigNumber)
    (vote : Vote) (weight : ℚ) : Bribe :=
  let percentageOfChoiceVote :=
    ((choiceVote rnd vote weight).div rnd (ofUndefinable ourChoiceVotes)).times (fin 100)
  let bribe := (totalBribe.times percentageOfChoiceVote).div rnd (fin 100)
  Bribe.mk vote.vp percentageOfChoiceVote bribe

/-- Lines 228-237, the body of the inner loop.

The assignment `bribes[vote.voter] = ...` of line 232 writes an own property,
except for a voter named `__proto__`: there it runs the setter inherited from
`Object.prototype`, which makes the record the prototype of `bribes` and adds no
own property.  The loops of lines 242 and 250 then meet the three field names
of that record as further keys; the values under them have no `voterVp`, so
nothing is clawed back for them, and the fields lines 252-258 assign land on
those values (or nowhere, for the number under `voterVp`), not in `bribes`.
Line 262 reads own properties only. -/
def bribeEntry (rnd : ℚ → ℚ) (choicesDict : List String) (totalBribe : BigNumber)
    (ourChoiceVotes : Option BigNumber) (vote : Vote) (bribes : List (String × Bribe))
    (e : ℕ × ℚ) : List (String × Bribe) :=
  if choicesDict[e.1]? = some OUR_BRIBED_CHOICE then
    if vote.voter = "__proto__" then bribes
    else setProp vote.voter (bribeOf rnd totalBribe ourChoiceVotes vote e.2) bribes
  else bribes

/-- Lines 222-238, the body of the outer loop. -/
def bribeVote (rnd : ℚ → ℚ) (choicesDict : List String) (totalBribe : BigNumber)
    (ourChoiceVotes : Option BigNumber) (bribes : List (String × Bribe)) (vote : Vote) :
    List (String × Bribe) :=
  if vote.vp = 0 then bribes
  else vote.choice.foldl (bribeEntry rnd choicesDict totalBribe ourChoiceVotes vote) bribes

/-- Lines 219-239: `bribes` after the loop over the votes. -/
def allocate (rnd : ℚ → ℚ) (choicesDict : List String) (totalBribe : BigNumber)
    (ourChoiceVotes : Option BigNumber) (votes : List Vote) : List (String × Bribe) :=
  votes.foldl (bribeVote rnd choicesDict totalBribe ourChoiceVotes) []

/-- Lines 242-247: the sum of the bribes of the voters to claw back. -/
def clawBack (bribes : List (String × Bribe)) : BigNumber :=
  bribes.foldl
    (fun acc b =>
      if shouldClawBackWhale b.1 b.2.voterVp then BigNumber.sum [acc, b.2.bribeAmount] else acc)
    (fin 0)

/-- Lines 251-258, the body of the loop, for the entry under key `i`. -/
def adjust (rnd : ℚ → ℚ) (ourChoicePercentage : Option BigNumber)
    (clawedBackWhaleBribeAmount : BigNumber) (i : String) (b : Bribe) : BribeRecord :=
  let whaleAdjust :=
    if !shouldClawBackWhale i b.voterVp then
      (((b.choicePerc.times clawedBackWhaleBribeAmount).times (fin WHALE_REDISTRIBUTION)).div
        rnd (fin 100)).div rnd (fin 100)
    else (fin 0).minus b.bribeAmount
  let totalBribe := BigNumber.sum [b.bribeAmount, whaleAdjust]
  let qiPerPercent :=
    totalBribe.div rnd
      ((b.choicePerc.times (ofUndefinable ourChoicePercentage)).div rnd (fin 100))
  BribeRecord.mk b.voterVp b.choicePerc b.bribeAmount whaleAdjust totalBribe qiPerPercent

/-- Lines 250-259: every entry of `bribes` receives its three further fields. -/
def redistribute (rnd : ℚ → ℚ) (ourChoicePercentage : Option BigNumber)
    (clawedBackWhaleBribeAmount : BigNumber) (bribes : List (String × Bribe)) :
    List (String × BribeRecord) :=
  bribes.map fun b => (b.1, adjust rnd ourChoicePercentage clawedBackWhaleBribeAmount b.1 b.2)

/-- What `main` has computed when it completes. -/
structure Output where
  voteTotals : List (ℕ × BigNumber)
  totalVote : BigNumber
  totalsArr : List TotalsRow
  percentagesByChain : List (String × BigNumber)
  ourChoiceVotes : Option BigNumber
  ourChoicePercentage : Option BigNumber
  totalBribe : BigNumber
  clawedBackWhaleBribeAmount : BigNumber
  bribes : List (String × BribeRecord)
  sumBribes : BigNumber
  deriving DecidableEq

/-- Lines 217-262, which run once the threshold check has passed. -/
def distribute (rnd : ℚ → ℚ) (choicesDict : List String) (votes : List Vote)
    (agg : Aggregated) : Output :=
  let totalBribe := totalBribeOf agg.chains.ourChoicePercentage
  let bribes0 := allocate rnd choicesDict totalBribe agg.chains.ourChoiceVotes votes
  let clawed := clawBack bribes0
  let bribes := redistribute rnd agg.chains.ourChoicePercentage clawed bribes0
  let sumBribes := BigNumber.sum (bribes.map fun b => b.2.totalBribe)
  Output.mk agg.voteTotals agg.totalVote agg.chains.totalsArr agg.chains.percentagesByChain
    agg.chains.ourChoiceVotes agg.chains.ourChoicePercentage totalBribe clawed bribes sumBribes

/-- Lines 153-272 without the display: `choices` are the labels the proposal
query returns, `votes` the records the vote query returns.  The sorts of lines
197 and 207 reorder display copies only and do not throw. -/
def main (rnd : ℚ → ℚ) (choices : List String) (votes : List Vote) :
    Except JsError Output :=
  let choicesDict := getProposalChoices choices
  match aggregate rnd choicesDict votes with
  | .error err => .error err
  | .ok agg =>
    match gate agg.chains.percentagesByChain with
    | .error err => .error err
    | .ok _ => .ok (distribute rnd choicesDict votes agg)

/-! ## Equality of results, and the additive structure of the values -/

deriving instance DecidableEq for Except

/-- The zero of `bignumber.js` values is `BigNumber(0)`. -/
instance : Zero BigNumber := ⟨fin 0⟩

/-- Addition of `bignumber.js` values is `plus`. -/
instance : Add BigNumber := ⟨plus⟩

/-- Values of `bignumber.js` under `plus`, with `BigNumber(0)` as the zero. -/
instance : AddCommMonoid BigNumber where
  add_assoc := by
    intro a b c
    show plus (plus a b) c = plus a (plus b c)
    cases a <;> cases b <;> cases c <;> simp [plus, add_assoc] <;>
      (try split_ifs) <;> simp_all [plus]
  zero_add := by
    intro a
    show plus (fin 0) a = a
    cases a <;> simp [plus]
  add_zero := by
    intro a
    show plus a (fin 0) = a
    cases a <;> simp [plus]
  add_comm := by
    intro a b
    show plus a b = plus b a
    cases a <;> cases b <;> simp [plus, add_comm]
    split_ifs <;> simp_all
  nsmul := nsmulRec

/-! ## The category tag as the specification words it -/

/-- Modelled on the words of claim C10, for comparison with `choiceToChain`:
the text strictly between the first `(` of a label and the `)` that closes it,
parentheses opened in between being closed first.  `scanClose depth acc l`
reads `l` after an opening parenthesis at nesting `depth`, `acc` holding the
text read so far in reverse. -/
def scanClose : ℕ → List Char → List Char → Option (List Char)
  | _, _, [] => none
  | depth, acc, c :: cs =>
    if c = ')' then
      match depth with
      | 0 => some acc.reverse
      | d + 1 => scanClose d (c :: acc) cs
    else if c = '(' then scanClose (depth + 1) (c :: acc) cs
    else scanClose depth (c :: acc) cs

/-- Modelled on the words of claim C10: the category tag of a label as the text
between its first `(` and the matching `)`; `none` without such a pair. -/
def tagBetweenParens (label : String) : Option String :=
  (scanClose 0 [] ((label.data.dropWhile fun c => c != '(').drop 1)).map String.mk

/-! ## Auxiliary notions for the properties -/

/-- The decimal line 169 adds to the total of choice `c` for a vote that has a
weight on `c`: the voting power times the weight over the sum of the vote's
weights, rounded as `div` rounds. -/
def shareOf (rnd : ℚ → ℚ) (c : ℕ) (v : Vote) : Option ℚ :=
  (getProp c v.choice).map fun w => rnd (v.vp * w / (v.choice.map Prod.snd).sum)

/-- The values line 169 adds to the total of choice `c`, in the order of the
votes and of their entries. -/
def contributions (rnd : ℚ → ℚ) (c : ℕ) : List Vote → List BigNumber
  | [] => []
  | v :: vs =>
    ((v.choice.filter fun e => e.1 = c).map fun e => choiceVote rnd v e.2) ++
      contributions rnd c vs

/-- An entry that is created at zero by the first of the values added to it. -/
def accumulate (entry : Option BigNumber) (added : List BigNumber) : Option BigNumber :=
  if added = [] then entry else some (entry.getD 0 + added.sum)

/-- Value of a finite `bignumber.js` number, and 0 for `NaN` and the infinities. -/
def BigNumber.toRat : BigNumber → ℚ
  | fin q => q
  | _ => 0

/-- The entry of `bribes` a vote gives rise to when `t` is the one choice id that
carries the bribed label: none for a voting power of 0 or without a weight on
`t`, else the entry of lines 229-236 under the voter's address. -/
def recordOf (rnd : ℚ → ℚ) (totalBribe : BigNumber) (ourChoiceVotes : Option BigNumber)
    (t : ℕ) (v : Vote) : Option (String × Bribe) :=
  if v.vp = 0 then none
  else (getProp t v.choice).map fun w => (v.voter, bribeOf rnd totalBribe ourChoiceVotes v w)

/-! ## The scenario of section 8 of the specification -/

/-- The choice labels of the scenario. -/
def scenarioChoices : List String := ["A (Ethereum)", "WBTC (Arbitrum)", "C (Optimism)"]

/-- The votes V1, V2 and V3 of the scenario. -/
def scenarioVotes : List Vote :=
  [Vote.mk "0x01" 100000 [(2, 1)], Vote.mk "0x02" 300000 [(2, 1)],
    Vote.mk "0x03" 50000 [(1, 1)]]

/-- The entry of `bribes` the script computes for V1 in the scenario. -/
def scenarioRecord1 : BribeRecord :=
  BribeRecord.mk 100000 (fin 25) (fin (88888888888888888889 / 4000000000000000))
    (fin (266666666666666666667 / 80000000000000000))
    (fin (2044444444444444444447 / 80000000000000000)) (fin 1150)

/-- The entry of `bribes` the script computes for V2 in the scenario. -/
def scenarioRecord2 : BribeRecord :=
  BribeRecord.mk 300000 (fin 75) (fin (266666666666666666667 / 4000000000000000))
    (fin (-266666666666666666667 / 4000000000000000)) (fin 0) (fin 0)

/-- What the script computes in the scenario. -/
def scenarioOutput : Output :=
  Output.mk [(1, fin 50000), (2, fin 400000)] (fin 450000)
    [TotalsRow.mk (some "A (Ethereum)") (fin 50000)
        (fin (11111111111111111111 / 1000000000000000000)),
      TotalsRow.mk (some "WBTC (Arbitrum)") (fin 400000)
        (fin (88888888888888888889 / 1000000000000000000))]
    [("Ethereum", fin (11111111111111111111 / 1000000000000000000)),
      ("Arbitrum", fin (88888888888888888889 / 1000000000000000000))]
    (some (fin 400000)) (some (fin (88888888888888888889 / 1000000000000000000)))
    (fin (88888888888888888889 / 1000000000000000))
    (fin (266666666666666666667 / 4000000000000000))
    [("0x01", scenarioRecord1), ("0x02", scenarioRecord2)]
    (fin (2044444444444444444447 / 80000000000000000))


/-! ## The scenario with an earlier vote of V1 -/

/-- The votes of the scenario behind an earlier vote of V1's address, with a
voting power of 40000. -/
def repeatedVotes : List Vote := Vote.mk "0x01" 40000 [(2, 1)] :: scenarioVotes

/-- What the script computes for `repeatedVotes`. -/
def repeatedOutput : Output :=
  Output.mk [(1, fin 50000), (2, fin 440000)] (fin 490000)
    [TotalsRow.mk (some "A (Ethereum)") (fin 50000)
        (fin (1275510204081632653 / 125000000000000000)),
      TotalsRow.mk (some "WBTC (Arbitrum)") (fin 440000)
        (fin (11224489795918367347 / 125000000000000000))]
    [("Ethereum", fin (1275510204081632653 / 125000000000000000)),
      ("Arbitrum", fin (11224489795918367347 / 125000000000000000))]
    (some (fin 440000)) (some (fin (11224489795918367347 / 125000000000000000)))
    (fin (11224489795918367347 / 125000000000000))
    (fin (3061224489795918367355473 / 50000000000000000000))
    [("0x01", BribeRecord.mk 100000 (fin (22727272727272727273 / 1000000000000000000))
        (fin (2040816326530612244933581 / 100000000000000000000))
        (fin (278293135435992578853837 / 100000000000000000000))
        (fin (1159554730983302411893709 / 50000000000000000000))
        (fin (113636363636363636363577 / 100000000000000000000))),
      ("0x02", BribeRecord.mk 300000 (fin (34090909090909090909 / 500000000000000000))
        (fin (3061224489795918367355473 / 50000000000000000000))
        (fin (-(3061224489795918367355473 / 50000000000000000000)))
        (fin 0) (fin 0))]
    (fin (1159554730983302411893709 / 50000000000000000000))

/-! ## The display order of the totals (line 197) -/

/-- The comparator of line 197: `BigNumber(a.votes).gt(b.votes) ? -1 : 1`. -/
def compareVotes (a b : TotalsRow) : ℤ := if a.votes.gt b.votes then -1 else 1

/-- One insertion of `Array.prototype.sort`: `x` goes in front of the first
element it has to precede, `comparefn(x, y) < 0`, and so behind every element
placed before that one. -/
def sortInsert {α : Type} (comparefn : α → α → ℤ) (x : α) : List α → List α
  | [] => [x]
  | y :: ys => if comparefn x y < 0 then x :: y :: ys else y :: sortInsert comparefn x ys

/-- The method `Array.prototype.sort(comparefn)` as a stable insertion sort that
reads the comparator through the test `comparefn(x, y) < 0` alone, which is how
the engine of Node reads it.  Where that test is a strict weak order, every
stable sort returns this list; where it is not (a `NaN` among the amounts), the
engine may return another one. -/
def arraySort {α : Type} (comparefn : α → α → ℤ) (l : List α) : List α :=
  l.foldl (fun acc x => sortInsert comparefn x acc) []

/-- Line 197: `totalsArr.sort((a, b) => BigNumber(a.votes).gt(b.votes) ? -1 : 1)`. -/
def sortTotals (totalsArr : List TotalsRow) : List TotalsRow :=
  arraySort compareVotes totalsArr

/-! ## The scenario with exact divisions -/

/-- The entry of `bribes` for V1 in the scenario when no division rounds. -/
def exactRecord1 : BribeRecord :=
  BribeRecord.mk 100000 (fin 25) (fin (200000 / 9)) (fin (10000 / 3)) (fin (230000 / 9))
    (fin 1150)

/-- The entry of `bribes` for V2 in the scenario when no division rounds. -/
def exactRecord2 : BribeRecord :=
  BribeRecord.mk 300000 (fin 75) (fin (200000 / 3)) (fin (-(200000 / 3))) (fin 0) (fin 0)

/-- What the script computes for the scenario when no division rounds. -/
def exactOutput : Output :=
  Output.mk [(1, fin 50000), (2, fin 400000)] (fin 450000)
    [TotalsRow.mk (some "A (Ethereum)") (fin 50000) (fin (100 / 9)),
      TotalsRow.mk (some "WBTC (Arbitrum)") (fin 400000) (fin (800 / 9))]
    [("Ethereum", fin (100 / 9)), ("Arbitrum", fin (800 / 9))]
    (some (fin 400000)) (some (fin (800 / 9))) (fin (800000 / 9)) (fin (200000 / 3))
    [("0x01", exactRecord1), ("0x02", exactRecord2)] (fin (230000 / 9))

/-! ## The redistributed amount -/

/-- The sum of `whaleAdjust` over the entries of `bribes` that are not clawed
back. -/
def nonWhaleAdjustments (bribes : List (String × BribeRecord)) : ℚ :=
  ((bribes.filter fun r => !shouldClawBackWhale r.1 r.2.voterVp).map
    fun r => r.2.whaleAdjust.toRat).sum

/-- Two choices of the bribed chain. -/
def smallShareChoices : List String := ["ETH (Arbitrum)", "WBTC (Arbitrum)"]

/-- A voter with all of a voting power of 10 on the bribed choice, and a voter
of 300000 with one part in `3 * 10^24 + 1` on it. -/
def smallShareVotes : List Vote :=
  [Vote.mk "0x0a" 10 [(2, 1)],
    Vote.mk "0x0b" 300000 [(1, 3000000000000000000000000), (2, 1)]]

/-- What the script computes for `smallShareVotes`. -/
def smallShareOutput : Output :=
  Output.mk
    [(1, fin (2999999999999999999999999 / 10000000000000000000)),
      (2, fin (100000000000000000001 / 10000000000000000000))]
    (fin 300010)
    [TotalsRow.mk (some "ETH (Arbitrum)") (fin (2999999999999999999999999 / 10000000000000000000))
        (fin (49998333388887037099 / 500000000000000000)),
      TotalsRow.mk (some "WBTC (Arbitrum)") (fin (100000000000000000001 / 10000000000000000000))
        (fin (1666611112962901 / 500000000000000000))]
    [("Arbitrum", fin 100)]
    (some (fin (100000000000000000001 / 10000000000000000000)))
    (some (fin (1666611112962901 / 500000000000000000)))
    (fin (1666611112962901 / 500000000000000))
    (fin (3 / 100000000000000000000))
    [("0x0a", BribeRecord.mk 10 (fin (99999999999999999999 / 1000000000000000000))
        (fin (333322222592580199997 / 100000000000000000000))
        (fin (1 / 100000000000000000000))
        (fin (166661111296290099999 / 50000000000000000000))
        (fin (499999999999999999997 / 500000000000000000))),
      ("0x0b", BribeRecord.mk 300000 (fin (1 / 1000000000000000000))
        (fin (3 / 100000000000000000000))
        (fin (-(3 / 100000000000000000000)))
        (fin 0) nan)]
    (fin (166661111296290099999 / 50000000000000000000))

/-! ## The scenario with a vote of voting power 0 -/

/-- The votes of the scenario and a vote of voting power 0 on choice 3, which no
other vote names. -/
def zeroPowerVotes : List Vote := scenarioVotes ++ [Vote.mk "0x04" 0 [(3, 1)]]

/-- What the script computes for `zeroPowerVotes`. -/
def zeroPowerOutput : Output :=
  Output.mk [(1, fin 50000), (2, fin 400000), (3, fin 0)] (fin 450000)
    [TotalsRow.mk (some "A (Ethereum)") (fin 50000)
        (fin (11111111111111111111 / 1000000000000000000)),
      TotalsRow.mk (some "WBTC (Arbitrum)") (fin 400000)
        (fin (88888888888888888889 / 1000000000000000000)),
      TotalsRow.mk (some "C (Optimism)") (fin 0) (fin 0)]
    [("Ethereum", fin (11111111111111111111 / 1000000000000000000)),
      ("Arbitrum", fin (88888888888888888889 / 1000000000000000000)),
      ("Optimism", fin 0)]
    (some (fin 400000)) (some (fin (88888888888888888889 / 1000000000000000000)))
    (fin (88888888888888888889 / 1000000000000000))
    (fin (266666666666666666667 / 4000000000000000))
    [("0x01", scenarioRecord1), ("0x02", scenarioRecord2)]
    (fin (2044444444444444444447 / 80000000000000000))

/-! ## The scenario with a voter named `__proto__` -/

/-- The votes of the scenario with `__proto__` as the address of V1. -/
def protoVotes : List Vote :=
  [Vote.mk "__proto__" 100000 [(2, 1)], Vote.mk "0x02" 300000 [(2, 1)],
    Vote.mk "0x03" 50000 [(1, 1)]]

/-- What the script computes for `protoVotes`: the values of the scenario up to
the clawed-back amount, and one entry of `bribes`, that of V2. -/
def protoOutput : Output :=
  Output.mk scenarioOutput.voteTotals scenarioOutput.totalVote scenarioOutput.totalsArr
    scenarioOutput.percentagesByChain scenarioOutput.ourChoiceVotes
    scenarioOutput.ourChoicePercentage scenarioOutput.totalBribe
    scenarioOutput.clawedBackWhaleBribeAmount [("0x02", scenarioRecord2)] (fin 0)

/-- What the script computes for `protoVotes` when no division rounds. -/
def protoExactOutput : Output :=
  Output.mk exactOutput.voteTotals exactOutput.totalVote exactOutput.totalsArr
    exactOutput.percentagesByChain exactOutput.ourChoiceVotes exactOutput.ourChoicePercentage
    exactOutput.totalBribe exactOutput.clawedBackWhaleBribeAmount [("0x02", exactRecord2)]
    (fin 0)
/-! # Properties

## Arithmetic of the values -/

namespace BigNumber

theorem rnd20_def (q : ℚ) : rnd20 q = roundHalfUp 20 q := rfl

theorem plus_eq_add (x y : BigNumber) : plus x y = x + y := rfl

theorem zero_def : (0 : BigNumber) = fin 0 := rfl

@[simp] theorem fin_add_fin (a b : ℚ) : fin a + fin b = fin (a + b) := rfl

theorem sum_pair (x y : BigNumber) : BigNumber.sum [x, y] = x + y := rfl

theorem foldl_plus (l : List BigNumber) (x : BigNumber) : l.foldl plus x = x + l.sum := by
  induction l generalizing x with
  | nil => simp
  | cons y ys ih => simp [List.foldl_cons, ih, plus_eq_add, add_assoc]

theorem sum_cons (x : BigNumber) (l : List BigNumber) : BigNumber.sum (x :: l) = (x :: l).sum := by
  simp [BigNumber.sum, foldl_plus]

theorem sum_map_fin (l : List ℚ) : (l.map fin).sum = fin l.sum := by
  induction l with
  | nil => rfl
  | cons y ys ih => simp [ih]

theorem isFinite_add (x y : BigNumber) :
    (x + y).isFinite = (x.isFinite && y.isFinite) := by
  show (plus x y).isFinite = _
  cases x <;> cases y <;> simp [plus, isFinite]
  split_ifs <;> rfl

theorem isFinite_iff (x : BigNumber) : x.isFinite = true ↔ ∃ q, x = fin q := by
  cases x <;> simp [isFinite]

end BigNumber

/-! ### `split`, `choiceToChain`, `shouldClawBackWhale` -/

theorem splitChar_ne_nil (sep : Char) (l : List Char) : splitChar sep l ≠ [] := by
  induction l with
  | nil => simp [splitChar]
  | cons c cs ih =>
    unfold splitChar
    split_ifs
    · simp
    · split <;> simp

theorem splitChar_of_not_mem {sep : Char} {l : List Char} (h : sep ∉ l) :
    splitChar sep l = [l] := by
  induction l with
  | nil => rfl
  | cons c cs ih =>
    have hc : c ≠ sep := fun e => h (by simp [e])
    have hcs : sep ∉ cs := fun e => h (by simp [e])
    simp [splitChar, hc, ih hcs]

theorem splitChar_append_sep {sep : Char} {pre : List Char} (rest : List Char)
    (h : sep ∉ pre) : splitChar sep (pre ++ sep :: rest) = pre :: splitChar sep rest := by
  induction pre with
  | nil => simp [splitChar]
  | cons c cs ih =>
    have hc : c ≠ sep := fun e => h (by simp [e])
    have hcs : sep ∉ cs := fun e => h (by simp [e])
    simp [splitChar, hc, ih hcs]

theorem exists_first_sep {sep : Char} {l : List Char} (h : sep ∈ l) :
    ∃ pre rest, l = pre ++ sep :: rest ∧ sep ∉ pre := by
  induction l with
  | nil => simp at h
  | cons c cs ih =>
    by_cases hc : c = sep
    · exact ⟨[], cs, by simp [hc], by simp⟩
    · have hcs : sep ∈ cs := by
        rcases List.mem_cons.1 h with e | e
        · exact absurd e.symm hc
        · exact e
      obtain ⟨pre, rest, e, hp⟩ := ih hcs
      refine ⟨c :: pre, rest, by simp [e], ?_⟩
      intro hm
      rcases List.mem_cons.1 hm with e | e
      · exact hc e.symm
      · exact hp e

theorem head_splitChar (sep : Char) (l : List Char) :
    (splitChar sep l).headD [] = l.takeWhile (fun c => c != sep) := by
  induction l with
  | nil => rfl
  | cons c cs ih =>
    by_cases hc : c = sep
    · simp [splitChar, hc]
    · have hne := splitChar_ne_nil sep cs
      cases hs : splitChar sep cs with
      | nil => exact absurd hs hne
      | cons p ps =>
        rw [hs] at ih
        simp only [List.headD_cons] at ih
        simp [splitChar, hc, hs, ih]

theorem choiceToChain_of_not_mem {label : String} (h : '(' ∉ label.data) :
    choiceToChain (some label) = .error .typeError := by
  simp [choiceToChain, jsSplit, splitChar_of_not_mem h]

theorem choiceToChain_of_first {pre : List Char} (rest : List Char) (h : '(' ∉ pre) :
    choiceToChain (some (String.mk (pre ++ '(' :: rest))) =
      .ok (String.mk (rest.takeWhile fun c => c != '(' && c != ')')) := by
  have hne := splitChar_ne_nil '(' rest
  have h1 := head_splitChar '(' rest
  cases hs : splitChar '(' rest with
  | nil => exact absurd hs hne
  | cons p ps =>
    rw [hs] at h1
    simp only [List.headD_cons] at h1
    have hne2 := splitChar_ne_nil ')' p
    have h2 := head_splitChar ')' p
    cases hs2 : splitChar ')' p with
    | nil => exact absurd hs2 hne2
    | cons p2 ps2 =>
      rw [hs2] at h2
      simp only [List.headD_cons] at h2
      simp only [choiceToChain, jsSplit, splitChar_append_sep rest h, hs, List.map_cons,
        List.getElem?_cons_succ, List.getElem?_cons_zero, hs2, List.headD_cons]
      rw [h2, h1]
      congr 2
      induction rest with
      | nil => rfl
      | cons c cs _ =>
        clear hs h1 hne
        induction (c :: cs) with
        | nil => rfl
        | cons d ds ih =>
          by_cases hd : d = '(' <;> by_cases hd2 : d = ')' <;> simp [hd, hd2, ih]

/-! ## Claims on `shouldClawBackWhale` and `choiceToChain` -/

/-- C5: `shouldClawBackWhale` is true exactly when the voting power exceeds
250000 and the lower-cased address is not the exempt one; a voting power of
exactly 250000 is not a whale, and an address that lower-cases to the exempt one
(such as its upper-case spelling) is never a whale. -/
theorem shouldClawBackWhale_iff (address : String) (voterVp : ℚ) :
    (shouldClawBackWhale address voterVp = true ↔
      250000 < voterVp ∧
        toLowerCase address ≠ "0x0644141dd9c2c34802d28d334217bd2034206bf7") ∧
    shouldClawBackWhale address 250000 = false ∧
    (toLowerCase address = "0x0644141dd9c2c34802d28d334217bd2034206bf7" →
      shouldClawBackWhale address voterVp = false) ∧
    shouldClawBackWhale "0X0644141DD9C2C34802D28D334217BD2034206BF7" voterVp = false := by
  refine ⟨?_, ?_, ?_, ?_⟩
  · unfold shouldClawBackWhale
    split_ifs with h
    · simp only [TETU_ADDRESS] at h
      simp [h]
    · simp only [BigNumber.gt, BigNumber.lt, WHALE_THRESHOLD, decide_eq_true_eq]
      constructor
      · intro hv
        exact ⟨hv, h⟩
      · exact fun hv => hv.1
  · unfold shouldClawBackWhale
    split_ifs
    · rfl
    · simp [BigNumber.gt, BigNumber.lt, WHALE_THRESHOLD]
  · intro h
    simp [shouldClawBackWhale, TETU_ADDRESS, h]
  · have h : toLowerCase "0X0644141DD9C2C34802D28D334217BD2034206BF7" = TETU_ADDRESS := by
      decide
    simp [shouldClawBackWhale, h]

/-- C5, at the mixed-case spelling of the exempt address with a voting power of
one million. -/
theorem shouldClawBackWhale_iff_witness :
    toLowerCase "0x0644141DD9c2c34802d28D334217bd2034206BF7" =
        "0x0644141dd9c2c34802d28d334217bd2034206bf7" ∧
      shouldClawBackWhale "0x0644141DD9c2c34802d28D334217bd2034206BF7" 1000000 = false :=
  ⟨by decide,
    (shouldClawBackWhale_iff "0x0644141DD9c2c34802d28D334217bd2034206BF7" 1000000).2.2.1
      (by decide)⟩

/-- C9 as stated fails: the label `A (Ethereum` has an opening parenthesis and no
closing one, so it holds no parenthesis pair, yet `choiceToChain` returns
`Ethereum` for it instead of failing. -/
theorem choiceToChain_unclosed_returns :
    (¬ ∃ a b c : List Char, "A (Ethereum".data = a ++ '(' :: (b ++ ')' :: c)) ∧
      choiceToChain (some "A (Ethereum") = .ok "Ethereum" := by
  refine ⟨?_, by decide⟩
  rintro ⟨a, b, c, h⟩
  have hmem : ')' ∈ "A (Ethereum".data := by
    rw [h]
    simp
  revert hmem
  decide

/-- C9, amended: `choiceToChain` fails, with a `TypeError`, exactly for the
labels that contain no `(`; the closing parenthesis plays no part. -/
theorem choiceToChain_fails_iff (label : String) :
    ((∃ e, choiceToChain (some label) = .error e) ↔ '(' ∉ label.data) ∧
      ((∃ e, choiceToChain (some label) = .error e) ↔
        choiceToChain (some label) = .error .typeError) := by
  by_cases h : '(' ∈ label.data
  · obtain ⟨pre, rest, e, hp⟩ := exists_first_sep h
    have hl : label = String.mk (pre ++ '(' :: rest) := by
      rw [← e]
    have hok := choiceToChain_of_first rest hp
    rw [← hl] at hok
    simp [hok, h]
  · simp [choiceToChain_of_not_mem h, h]

/-- C10 as stated fails: in `A (B (C) D)` the first `(` is closed by the last
`)`, the text between them being `B (C) D`, and the text up to the first `)` is
`B (C`; `choiceToChain` returns neither, but `B ` (it stops at the second `(`). -/
theorem choiceToChain_nested_differs :
    tagBetweenParens "A (B (C) D)" = some "B (C) D" ∧
      "A (B (C) D)" = "A " ++ "(" ++ "B (C" ++ ")" ++ " D)" ∧
      choiceToChain (some "A (B (C) D)") = .ok "B " ∧
      choiceToChain (some "A (B (C) D)") ≠ .ok "B (C) D" ∧
      choiceToChain (some "A (B (C) D)") ≠ .ok "B (C" := by
  decide

/-- C10, amended: for a label with a `(`, `choiceToChain` returns the text
after the first `(` up to the next `(` or `)` or the end of the label; for a
label `name ++ " (" ++ category ++ ")"` whose name has no `(` and whose category
has neither parenthesis, that text is `category`. -/
theorem choiceToChain_returns (pre rest : List Char) (name category : String)
    (hpre : '(' ∉ pre) (hname : '(' ∉ name.data)
    (hopen : '(' ∉ category.data) (hclose : ')' ∉ category.data) :
    choiceToChain (some (String.mk (pre ++ '(' :: rest))) =
        .ok (String.mk (rest.takeWhile fun c => c != '(' && c != ')')) ∧
      choiceToChain (some (name ++ " (" ++ category ++ ")")) = .ok category := by
  refine ⟨choiceToChain_of_first rest hpre, ?_⟩
  have hl : name ++ " (" ++ category ++ ")" =
      String.mk ((name.data ++ [' ']) ++ '(' :: (category.data ++ [')'])) := by
    apply String.ext
    simp [String.data_append]
  have hp : '(' ∉ name.data ++ [' '] := by
    simp [hname]
  rw [hl, choiceToChain_of_first _ hp]
  congr 2
  have : ∀ l : List Char, '(' ∉ l → ')' ∉ l →
      (l ++ [')']).takeWhile (fun c => c != '(' && c != ')') = l := by
    intro l
    induction l with
    | nil => intro _ _; simp
    | cons c cs ih =>
      intro h1 h2
      have hc1 : c ≠ '(' := fun e => h1 (by simp [e])
      have hc2 : c ≠ ')' := fun e => h2 (by simp [e])
      have ih1 := ih (fun e => h1 (by simp [e])) (fun e => h2 (by simp [e]))
      simp [hc1, hc2]
      simpa using ih1
  exact this _ hopen hclose

/-- C10, at the label of the bribed choice. -/
theorem choiceToChain_returns_witness :
    choiceToChain (some "WBTC (Arbitrum)") = .ok "Arbitrum" :=
  (choiceToChain_returns "WBTC ".data "Arbitrum)".data "WBTC" "Arbitrum"
    (by decide) (by decide) (by decide) (by decide)).2


/-! ## Objects -/

theorem getProp_setIndex {α : Type} (c k : ℕ) (v : α) (l : List (ℕ × α)) :
    getProp c (setIndex k v l) = if c = k then some v else getProp c l := by
  induction l with
  | nil => simp [setIndex, getProp]
  | cons x t ih =>
    obtain ⟨k', v'⟩ := x
    unfold setIndex
    split_ifs with h1 h2 h3 <;> simp_all [getProp]

theorem getProp_setProp {κ α : Type} [DecidableEq κ] (c k : κ) (v : α) (l : List (κ × α)) :
    getProp c (setProp k v l) = if c = k then some v else getProp c l := by
  induction l with
  | nil => simp [setProp, getProp]
  | cons x t ih =>
    obtain ⟨k', v'⟩ := x
    unfold setProp
    split_ifs with h1 h2 <;> simp_all [getProp]

theorem getProp_eq_none {κ α : Type} [DecidableEq κ] (c : κ) (l : List (κ × α)) :
    getProp c l = none ↔ c ∉ l.map Prod.fst := by
  induction l with
  | nil => simp [getProp]
  | cons x t ih =>
    obtain ⟨k', v'⟩ := x
    by_cases h : c = k' <;> simp [getProp, h, ih]

theorem getProp_mem {κ α : Type} [DecidableEq κ] {c : κ} {l : List (κ × α)} {v : α}
    (h : getProp c l = some v) : (c, v) ∈ l := by
  induction l with
  | nil => simp [getProp] at h
  | cons x t ih =>
    obtain ⟨k', v'⟩ := x
    by_cases hc : c = k'
    · simp [getProp, hc] at h
      simp [hc, h]
    · simp [getProp, hc] at h
      simp [ih h]

theorem getProp_of_mem_nodup {κ α : Type} [DecidableEq κ] {c : κ} {l : List (κ × α)} {v : α}
    (hn : (l.map Prod.fst).Nodup) (h : (c, v) ∈ l) : getProp c l = some v := by
  induction l with
  | nil => simp at h
  | cons x t ih =>
    obtain ⟨k', v'⟩ := x
    simp only [List.map_cons, List.nodup_cons] at hn
    rcases List.mem_cons.1 h with e | e
    · simp only [Prod.mk.injEq] at e
      simp [getProp, e.1, e.2]
    · have hne : c ≠ k' := by
        rintro rfl
        exact hn.1 (List.mem_map_of_mem Prod.fst e)
      simp [getProp, hne, ih hn.2 e]

theorem filter_key_of_nodup {α : Type} (c : ℕ) (l : List (ℕ × α))
    (hn : (l.map Prod.fst).Nodup) :
    (l.filter fun e => e.1 = c) = (getProp c l).toList.map fun w => (c, w) := by
  induction l with
  | nil => simp [getProp]
  | cons x t ih =>
    obtain ⟨k', v'⟩ := x
    simp only [List.map_cons, List.nodup_cons] at hn
    by_cases hc : c = k'
    · subst hc
      have : (t.filter fun e => e.1 = c) = [] := by
        rw [ih hn.2]
        have := (getProp_eq_none c t).2 hn.1
        simp [this]
      simp [List.filter_cons, getProp, this]
    · have hc2 : ¬ k' = c := fun e => hc e.symm
      simp [List.filter_cons, getProp, hc, hc2, ih hn.2]

/-! ## The tally -/

theorem accumulate_nil (o : Option BigNumber) : accumulate o [] = o := by
  simp [accumulate]

theorem accumulate_append (o : Option BigNumber) (l1 l2 : List BigNumber) :
    accumulate (accumulate o l1) l2 = accumulate o (l1 ++ l2) := by
  unfold accumulate
  by_cases h1 : l1 = [] <;> by_cases h2 : l2 = [] <;> simp [h1, h2, add_assoc]

theorem getProp_tallyEntry (rnd : ℚ → ℚ) (vote : Vote) (vt : List (ℕ × BigNumber))
    (e : ℕ × ℚ) (c : ℕ) :
    getProp c (tallyEntry rnd vote vt e) =
      if e.1 = c then some ((getProp c vt).getD 0 + choiceVote rnd vote e.2)
      else getProp c vt := by
  unfold tallyEntry
  by_cases hc : e.1 = c
  · subst hc
    cases hg : getProp e.1 vt with
    | none => simp [getProp_setIndex, hg, ofUndefinable, sum_pair, zero_def]
    | some x => simp [getProp_setIndex, hg, ofUndefinable, sum_pair]
  · have hc2 : ¬ c = e.1 := fun h => hc h.symm
    by_cases hg : (getProp e.1 vt).isNone <;> simp [getProp_setIndex, hg, hc, hc2]

theorem getProp_tallyVote (rnd : ℚ → ℚ) (vote : Vote) (c : ℕ) (entries : List (ℕ × ℚ))
    (vt : List (ℕ × BigNumber)) :
    getProp c (entries.foldl (tallyEntry rnd vote) vt) =
      accumulate (getProp c vt)
        ((entries.filter fun e => e.1 = c).map fun e => choiceVote rnd vote e.2) := by
  induction entries generalizing vt with
  | nil => simp [accumulate]
  | cons e es ih =>
    rw [List.foldl_cons, ih, getProp_tallyEntry]
    by_cases hc : e.1 = c
    · simp only [hc, if_true, List.filter_cons, decide_True, List.map_cons]
      rw [show (choiceVote rnd vote e.2 ::
            List.map (fun e => choiceVote rnd vote e.2) (List.filter (fun e => decide (e.1 = c)) es))
          = [choiceVote rnd vote e.2] ++
            List.map (fun e => choiceVote rnd vote e.2) (List.filter (fun e => decide (e.1 = c)) es)
          from rfl, ← accumulate_append]
      simp [accumulate]
    · simp [hc, List.filter_cons]

theorem getProp_foldl_tallyVote (rnd : ℚ → ℚ) (c : ℕ) (votes : List Vote)
    (vt : List (ℕ × BigNumber)) :
    getProp c (votes.foldl (tallyVote rnd) vt) =
      accumulate (getProp c vt) (contributions rnd c votes) := by
  induction votes generalizing vt with
  | nil => simp [contributions, accumulate]
  | cons v vs ih =>
    rw [List.foldl_cons, ih, tallyVote, getProp_tallyVote, accumulate_append]
    rfl

theorem getProp_tally (rnd : ℚ → ℚ) (c : ℕ) (votes : List Vote) :
    getProp c (tally rnd votes) = accumulate none (contributions rnd c votes) := by
  rw [tally, getProp_foldl_tallyVote]
  rfl

theorem totalWeight_eq (v : Vote) (h : v.choice ≠ []) :
    totalWeight v = fin (v.choice.map Prod.snd).sum := by
  unfold totalWeight
  cases hv : v.choice with
  | nil => exact absurd hv h
  | cons e es =>
    rw [show (List.map (fun e => fin e.2) (e :: es)) = fin e.2 :: es.map (fun e => fin e.2)
      from rfl, sum_cons, ← sum_map_fin]
    simp [List.map_map, Function.comp_def]

theorem choiceVote_eq (rnd : ℚ → ℚ) (v : Vote) (w : ℚ) (h : v.choice ≠ [])
    (hs : (v.choice.map Prod.snd).sum ≠ 0) :
    choiceVote rnd v w = fin (rnd (v.vp * w / (v.choice.map Prod.snd).sum)) := by
  simp [choiceVote, totalWeight_eq v h, BigNumber.times, BigNumber.div, hs]

theorem choiceVote_zero_weight (rnd : ℚ → ℚ) (v : Vote) (w : ℚ) (h : v.choice ≠ [])
    (hs : (v.choice.map Prod.snd).sum = 0) :
    (choiceVote rnd v w).isFinite = false := by
  simp only [choiceVote, totalWeight_eq v h, BigNumber.times, BigNumber.div, hs, if_true]
  split_ifs <;> rfl

theorem contributions_eq (rnd : ℚ → ℚ) (c : ℕ) (votes : List Vote)
    (hnodup : ∀ v ∈ votes, (v.choice.map Prod.fst).Nodup)
    (hsum : ∀ v ∈ votes, (v.choice.map Prod.snd).sum ≠ 0) :
    contributions rnd c votes = (votes.filterMap (shareOf rnd c)).map fin := by
  induction votes with
  | nil => rfl
  | cons v vs ih =>
    have ih1 := ih (fun x hx => hnodup x (List.mem_cons_of_mem _ hx))
      (fun x hx => hsum x (List.mem_cons_of_mem _ hx))
    have hn := hnodup v (List.mem_cons_self _ _)
    have hs := hsum v (List.mem_cons_self _ _)
    rw [contributions, ih1, filter_key_of_nodup c v.choice hn]
    cases hg : getProp c v.choice with
    | none => simp [List.filterMap_cons, shareOf, hg]
    | some w =>
      have hne : v.choice ≠ [] := by
        intro e
        rw [e] at hg
        simp [getProp] at hg
      simp [List.filterMap_cons, shareOf, hg, choiceVote_eq rnd v w hne hs]

theorem sum_isFinite_false {l : List BigNumber} {x : BigNumber} (hx : x ∈ l)
    (h : x.isFinite = false) : l.sum.isFinite = false := by
  induction l with
  | nil => simp at hx
  | cons y ys ih =>
    rw [List.sum_cons, isFinite_add]
    rcases List.mem_cons.1 hx with e | e
    · subst e
      simp [h]
    · simp [ih e]

theorem mem_contributions (rnd : ℚ → ℚ) {votes : List Vote} {v : Vote} {e : ℕ × ℚ}
    (hv : v ∈ votes) (he : e ∈ v.choice) :
    choiceVote rnd v e.2 ∈ contributions rnd e.1 votes := by
  induction votes with
  | nil => simp at hv
  | cons x xs ih =>
    rw [contributions, List.mem_append]
    rcases List.mem_cons.1 hv with h | h
    · subst h
      left
      exact List.mem_map.2 ⟨e, by simp [he], rfl⟩
    · right
      exact ih h

/-! ## Claims on the vote totals -/

/-- C1: when every vote's weights have a non-zero sum (the weight object of a
vote holding each choice id once), the total of a choice `c` that some vote
names is the sum, over the votes that name `c`, of voting power times weight of
`c` over the vote's weight sum, the quotient being the one `div` yields; a
choice no vote names has no entry in `voteTotals`. -/
theorem tally_eq_sum_of_shares (rnd : ℚ → ℚ) (votes : List Vote) (c : ℕ)
    (hkeys : ∀ v ∈ votes, (v.choice.map Prod.fst).Nodup)
    (hsum : ∀ v ∈ votes, (v.choice.map Prod.snd).sum ≠ 0) :
    ((∃ v ∈ votes, ∃ w, getProp c v.choice = some w) →
      getProp c (tally rnd votes) =
        some (fin ((votes.filterMap fun v =>
          (getProp c v.choice).map fun w =>
            rnd (v.vp * w / (v.choice.map Prod.snd).sum)).sum))) ∧
    ((∀ v ∈ votes, getProp c v.choice = none) → getProp c (tally rnd votes) = none) := by
  have hshare : (fun v : Vote =>
      (getProp c v.choice).map fun w => rnd (v.vp * w / (v.choice.map Prod.snd).sum)) =
      shareOf rnd c := rfl
  rw [hshare, getProp_tally, contributions_eq rnd c votes hkeys hsum]
  constructor
  · rintro ⟨v, hv, w, hw⟩
    have hmem : rnd (v.vp * w / (v.choice.map Prod.snd).sum) ∈
        votes.filterMap (shareOf rnd c) :=
      List.mem_filterMap.2 ⟨v, hv, by simp [shareOf, hw]⟩
    have hne : votes.filterMap (shareOf rnd c) ≠ [] := List.ne_nil_of_mem hmem
    simp [accumulate, hne, sum_map_fin, zero_def]
  · intro h
    have : votes.filterMap (shareOf rnd c) = [] := by
      rw [List.filterMap_eq_nil_iff]
      intro v hv
      simp [shareOf, h v hv]
    simp [accumulate, this]

/-- C1, at two votes: 100 split 1 to 3 over choices 1 and 2, and 10 on choice 2. -/
theorem tally_eq_sum_of_shares_witness :
    getProp 2 (tally rnd20 [Vote.mk "0xa" 100 [(1, 1), (2, 3)], Vote.mk "0xb" 10 [(2, 1)]]) =
        some (fin 85) ∧
      getProp 3 (tally rnd20 [Vote.mk "0xa" 100 [(1, 1), (2, 3)], Vote.mk "0xb" 10 [(2, 1)]]) =
        none :=
  ⟨((tally_eq_sum_of_shares rnd20
      [Vote.mk "0xa" 100 [(1, 1), (2, 3)], Vote.mk "0xb" 10 [(2, 1)]] 2
      (by decide!) (by decide!)).1
      ⟨Vote.mk "0xa" 100 [(1, 1), (2, 3)], by simp, 3, by decide!⟩).trans (by decide!),
    (tally_eq_sum_of_shares rnd20
      [Vote.mk "0xa" 100 [(1, 1), (2, 3)], Vote.mk "0xb" 10 [(2, 1)]] 3
      (by decide!) (by decide!)).2 (by decide!)⟩

/-- C8 as stated fails.  A vote of power 1 whose only weight is 0 is not
rejected: the run completes, the division by the zero weight sum yields `NaN`,
and the vote total, the percentages, the bribe pool and the voter's bribe are
all `NaN`.  A vote with an empty weight object is not rejected either: it is
passed over. -/
theorem main_zero_weight_not_rejected :
    main rnd20 ["A (Ethereum)", "WBTC (Arbitrum)"] [Vote.mk "0xa" 1 [(2, 0)]] =
        .ok (Output.mk [(2, nan)] nan [TotalsRow.mk (some "WBTC (Arbitrum)") nan nan]
          [("Arbitrum", nan)] (some nan) (some nan) nan (fin 0)
          [("0xa", BribeRecord.mk 1 nan nan nan nan nan)] nan) ∧
      main rnd20 ["A (Ethereum)", "WBTC (Arbitrum)"]
          [Vote.mk "0xe" 5 [], Vote.mk "0xb" 1 [(2, 1)]] =
        main rnd20 ["A (Ethereum)", "WBTC (Arbitrum)"] [Vote.mk "0xb" 1 [(2, 1)]] ∧
      (∃ out, main rnd20 ["A (Ethereum)", "WBTC (Arbitrum)"]
          [Vote.mk "0xe" 5 [], Vote.mk "0xb" 1 [(2, 1)]] = .ok out) := by
  refine ⟨by decide!, by decide!, ?_⟩
  exact ⟨distribute rnd20 (getProposalChoices ["A (Ethereum)", "WBTC (Arbitrum)"])
    [Vote.mk "0xe" 5 [], Vote.mk "0xb" 1 [(2, 1)]]
    (Aggregated.mk [(2, fin 1)] (fin 1)
      (ChainState.mk [TotalsRow.mk (some "WBTC (Arbitrum)") (fin 1) (fin 100)]
        [("Arbitrum", fin 100)] (some (fin 1)) (some (fin 100)) false)), by decide!⟩

/-! ## Errors and the threshold check -/

theorem choiceToChain_error {choice : Option String} {e : JsError}
    (h : choiceToChain choice = .error e) : e = .typeError := by
  unfold choiceToChain at h
  split at h
  · injection h with h
    exact h.symm
  · split at h
    · injection h with h
      exact h.symm
    · exact absurd h (by simp)

theorem chainStep_error {rnd : ℚ → ℚ} {choicesDict : List String} {totalVote : BigNumber}
    {st : ChainState} {x : ℕ × BigNumber} {e : JsError}
    (h : chainStep rnd choicesDict totalVote st x = .error e) : e = .typeError := by
  unfold chainStep at h
  split at h
  · next err hc =>
    injection h with h
    subst h
    exact choiceToChain_error hc
  · exact absurd h (by simp)

theorem chainLoop_error {rnd : ℚ → ℚ} {choicesDict : List String} {totalVote : BigNumber}
    {l : List (ℕ × BigNumber)} {st : ChainState} {e : JsError}
    (h : chainLoop rnd choicesDict totalVote l st = .error e) : e = .typeError := by
  induction l generalizing st with
  | nil => simp [chainLoop] at h
  | cons x xs ih =>
    unfold chainLoop at h
    split at h
    · next err hc =>
      injection h with h
      subst h
      exact chainStep_error hc
    · exact ih h

theorem aggregate_error {rnd : ℚ → ℚ} {choicesDict : List String} {votes : List Vote}
    {e : JsError} (h : aggregate rnd choicesDict votes = .error e) : e = .typeError := by
  simp only [aggregate] at h
  split at h
  · next err hc =>
    injection h with h
    subst h
    exact chainLoop_error hc
  · exact absurd h (by simp)

theorem choiceToChain_ours : choiceToChain (some OUR_BRIBED_CHOICE) = .ok "Arbitrum" := by
  decide

theorem gate_eq (pbc : List (String × BigNumber)) :
    gate pbc =
      match getProp "Arbitrum" pbc with
      | none => .error .typeError
      | some p =>
        if p.lt (fin 8.333) then .error (.error "no bribes, Arbitrum did not cross threshold")
        else .ok () := by
  unfold gate
  rw [choiceToChain_ours]
  rfl

theorem main_eq_of_aggregate {rnd : ℚ → ℚ} {choices : List String} {votes : List Vote}
    {agg : Aggregated} (h : aggregate rnd (getProposalChoices choices) votes = .ok agg) :
    main rnd choices votes =
      match gate agg.chains.percentagesByChain with
      | .error err => .error err
      | .ok _ => .ok (distribute rnd (getProposalChoices choices) votes agg) := by
  unfold main
  simp only [h]

theorem main_error {rnd : ℚ → ℚ} {choices : List String} {votes : List Vote} {e : JsError}
    (h : main rnd choices votes = .error e) :
    e = .typeError ∨ e = .error "no bribes, Arbitrum did not cross threshold" := by
  cases hagg : aggregate rnd (getProposalChoices choices) votes with
  | error err =>
    simp only [main, hagg] at h
    injection h with h
    subst h
    exact Or.inl (aggregate_error hagg)
  | ok agg =>
    rw [main_eq_of_aggregate hagg, gate_eq] at h
    cases hg : getProp "Arbitrum" agg.chains.percentagesByChain with
    | none =>
      simp only [hg] at h
      injection h with h
      exact Or.inl h.symm
    | some p =>
      simp only [hg] at h
      by_cases hlt : p.lt (fin 8.333) = true
      · simp only [hlt, if_true] at h
        injection h with h
        exact Or.inr h.symm
      · simp [hlt] at h

theorem main_ok_inv {rnd : ℚ → ℚ} {choices : List String} {votes : List Vote} {out : Output}
    (h : main rnd choices votes = .ok out) :
    ∃ agg, aggregate rnd (getProposalChoices choices) votes = .ok agg ∧
      gate agg.chains.percentagesByChain = .ok () ∧
      out = distribute rnd (getProposalChoices choices) votes agg := by
  cases hagg : aggregate rnd (getProposalChoices choices) votes with
  | error err => simp [main, hagg] at h
  | ok agg =>
    rw [main_eq_of_aggregate hagg] at h
    cases hg : gate agg.chains.percentagesByChain with
    | error err => simp [hg] at h
    | ok u =>
      simp only [hg] at h
      injection h with h
      exact ⟨agg, rfl, hg, h.symm⟩

/-- C3: once the tally and the aggregation by chain have completed, the run
fails at the threshold check exactly when the percentage accumulated for the
chain of the bribed choice, `Arbitrum`, is strictly below 8.333, a chain without
entry (none of its choices received a vote) having accumulated 0.  The `Error`
of line 214 is thrown when the entry exists and is below 8.333; the missing
entry stops the run at line 213.  Otherwise, and so at exactly 8.333, the run
completes with the bribe stages. -/
theorem gate_fails_iff (rnd : ℚ → ℚ) (choices : List String) (votes : List Vote)
    (agg : Aggregated)
    (hagg : aggregate rnd (getProposalChoices choices) votes = .ok agg) :
    ((∃ e, main rnd choices votes = .error e) ↔
      ((getProp "Arbitrum" agg.chains.percentagesByChain).getD (fin 0)).lt (fin 8.333) = true) ∧
    (main rnd choices votes = .error (.error "no bribes, Arbitrum did not cross threshold") ↔
      ∃ p, getProp "Arbitrum" agg.chains.percentagesByChain = some p ∧
        p.lt (fin 8.333) = true) ∧
    (((getProp "Arbitrum" agg.chains.percentagesByChain).getD (fin 0)).lt (fin 8.333) = false →
      main rnd choices votes = .ok (distribute rnd (getProposalChoices choices) votes agg)) ∧
    (getProp "Arbitrum" agg.chains.percentagesByChain = some (fin 8.333) →
      main rnd choices votes = .ok (distribute rnd (getProposalChoices choices) votes agg)) := by
  rw [main_eq_of_aggregate hagg, gate_eq]
  have h0 : (fin 0).lt (fin 8.333) = true := by
    simp only [BigNumber.lt, decide_eq_true_eq]
    norm_num
  have h1 : (fin 8.333).lt (fin 8.333) = false := by
    simp [BigNumber.lt]
  cases hg : getProp "Arbitrum" agg.chains.percentagesByChain with
  | none => simp [h0]
  | some p =>
    by_cases hlt : p.lt (fin 8.333) = true
    · simp [hlt]
      rintro rfl
      rw [h1] at hlt
      exact absurd hlt (by simp)
    · simp [hlt]

/-- C3, at a tally in which the bribed choice holds 8333 of 100000 votes, that
is exactly 8.333 per cent: the run completes. -/
theorem gate_fails_iff_witness :
    aggregate rnd20 (getProposalChoices ["A (Ethereum)", "WBTC (Arbitrum)"])
        [Vote.mk "0xa" 8333 [(2, 1)], Vote.mk "0xb" 91667 [(1, 1)]] =
      .ok (Aggregated.mk [(1, fin 91667), (2, fin 8333)] (fin 100000)
        (ChainState.mk
          [TotalsRow.mk (some "A (Ethereum)") (fin 91667) (fin 91.667),
            TotalsRow.mk (some "WBTC (Arbitrum)") (fin 8333) (fin 8.333)]
          [("Ethereum", fin 91.667), ("Arbitrum", fin 8.333)]
          (some (fin 8333)) (some (fin 8.333)) false)) ∧
    main rnd20 ["A (Ethereum)", "WBTC (Arbitrum)"]
        [Vote.mk "0xa" 8333 [(2, 1)], Vote.mk "0xb" 91667 [(1, 1)]] =
      .ok (distribute rnd20 (getProposalChoices ["A (Ethereum)", "WBTC (Arbitrum)"])
        [Vote.mk "0xa" 8333 [(2, 1)], Vote.mk "0xb" 91667 [(1, 1)]]
        (Aggregated.mk [(1, fin 91667), (2, fin 8333)] (fin 100000)
          (ChainState.mk
            [TotalsRow.mk (some "A (Ethereum)") (fin 91667) (fin 91.667),
              TotalsRow.mk (some "WBTC (Arbitrum)") (fin 8333) (fin 8.333)]
            [("Ethereum", fin 91.667), ("Arbitrum", fin 8.333)]
            (some (fin 8333)) (some (fin 8.333)) false))) :=
  ⟨by decide!,
    (gate_fails_iff rnd20 ["A (Ethereum)", "WBTC (Arbitrum)"]
      [Vote.mk "0xa" 8333 [(2, 1)], Vote.mk "0xb" 91667 [(1, 1)]] _ (by decide!)).2.2.2
      (by decide!)⟩

/-- C8, amended: a vote whose weights are not empty and sum to zero is not
rejected.  The tally has no failure: the division by the zero sum yields `NaN`
or an infinity, and the total of every choice the vote names is not a finite
number.  A vote with an empty weight object leaves the totals as they are.  The
only errors a run can end with are the `TypeError` and the `Error` of the
threshold check. -/
theorem tally_zero_weight (rnd : ℚ → ℚ) (votes : List Vote) (v : Vote)
    (hv : v ∈ votes) (hne : v.choice ≠ []) (hzero : (v.choice.map Prod.snd).sum = 0) :
    (∀ e ∈ v.choice, ∃ t, getProp e.1 (tally rnd votes) = some t ∧ t.isFinite = false) ∧
    (∀ vt voter vp, tallyVote rnd vt (Vote.mk voter vp []) = vt) ∧
    (∀ choices e, main rnd choices votes = .error e →
      e = .typeError ∨ e = .error "no bribes, Arbitrum did not cross threshold") := by
  refine ⟨?_, fun _ _ _ => rfl, fun _ _ h => main_error h⟩
  intro e he
  have hmem := mem_contributions rnd hv he
  have hfin := choiceVote_zero_weight rnd v e.2 hne hzero
  have hne2 : contributions rnd e.1 votes ≠ [] := List.ne_nil_of_mem hmem
  refine ⟨_, by rw [getProp_tally, accumulate, if_neg hne2], ?_⟩
  rw [isFinite_add, sum_isFinite_false hmem hfin]
  simp

/-- C8, at a vote of power 1 with weights 0 and 0 on choices 1 and 2: the total
of choice 2 is not a finite number. -/
theorem tally_zero_weight_witness :
    (getProp 2 (tally rnd20 [Vote.mk "0x0a" 1 [(1, 0), (2, 0)]])).map BigNumber.isFinite =
      some false := by
  obtain ⟨t, h1, h2⟩ :=
    (tally_zero_weight rnd20 [Vote.mk "0x0a" 1 [(1, 0), (2, 0)]]
      (Vote.mk "0x0a" 1 [(1, 0), (2, 0)]) (by simp) (by simp) (by decide!)).1 (2, 0) (by simp)
  rw [h1, Option.map_some', h2]

/-! ## Rounding -/

theorem natAbs_scaled_eq (dp : ℕ) (q : ℚ) :
    ((q.num.natAbs * 10 ^ dp : ℕ) : ℚ) / (q.den : ℚ) = |q| * 10 ^ dp := by
  have hd : (0 : ℚ) < q.den := by exact_mod_cast q.den_pos
  have hq : |q| = |(q.num : ℚ)| / (q.den : ℚ) := by
    conv_lhs => rw [← Rat.num_div_den q]
    rw [abs_div, abs_of_pos hd]
  rw [hq]
  push_cast
  rw [Nat.cast_natAbs, Int.cast_abs]
  field_simp

theorem nearest_error (a d : ℕ) (hd : 0 < d) :
    |(((2 * a + d) / (2 * d) : ℕ) : ℚ) - (a : ℚ) / (d : ℚ)| ≤ 1 / 2 := by
  have hd0 : (0 : ℚ) < d := by exact_mod_cast hd
  have h1 : (2 * a + d) / (2 * d) * (2 * d) ≤ 2 * a + d := Nat.div_mul_le_self _ _
  have h2 : 2 * a + d < ((2 * a + d) / (2 * d) + 1) * (2 * d) := by
    have := Nat.lt_div_mul_add (a := 2 * a + d) (b := 2 * d) (by omega)
    linarith [this]
  generalize (2 * a + d) / (2 * d) = n at h1 h2
  have h1q : (n : ℚ) * (2 * d) ≤ 2 * a + d := by exact_mod_cast h1
  have h2q : (2 * a + d : ℚ) < (n + 1) * (2 * d) := by exact_mod_cast h2
  have hx : (a : ℚ) / d * d = a := div_mul_cancel₀ _ (ne_of_gt hd0)
  generalize (a : ℚ) / d = x at hx
  rw [abs_le]
  constructor
  · by_contra hc
    push_neg at hc
    have : 0 < (-(1 / 2) - (n - x)) * d := mul_pos (by linarith) hd0
    nlinarith
  · by_contra hc
    push_neg at hc
    have : 0 < ((n - x) - 1 / 2) * d := mul_pos (by linarith) hd0
    nlinarith

theorem roundHalfUp_error (dp : ℕ) (q : ℚ) :
    |roundHalfUp dp q - q| ≤ 1 / (2 * 10 ^ dp) := by
  have hp : (0 : ℚ) < 10 ^ dp := by positivity
  have hn := nearest_error (q.num.natAbs * 10 ^ dp) q.den q.den_pos
  rw [natAbs_scaled_eq] at hn
  have key : ∀ n : ℚ, abs (n - abs q * 10 ^ dp) ≤ 1 / 2 →
      abs (n / 10 ^ dp - abs q) ≤ 1 / (2 * 10 ^ dp) := by
    intro n h
    have : n / 10 ^ dp - |q| = (n - |q| * 10 ^ dp) / 10 ^ dp := by
      field_simp
      ring
    rw [this, abs_div, abs_of_pos hp, div_le_iff₀ hp]
    calc abs (n - abs q * 10 ^ dp) ≤ 1 / 2 := h
      _ = 1 / (2 * 10 ^ dp) * 10 ^ dp := by field_simp
  have hk := key _ hn
  unfold roundHalfUp
  simp only
  split_ifs with hneg
  · have hq : |q| = -q := abs_of_neg hneg
    rw [hq] at hk
    rw [← abs_neg]
    convert hk using 2
    ring
  · have hq : |q| = q := abs_of_nonneg (not_lt.1 hneg)
    rw [hq] at hk
    exact hk

theorem rnd20_error (q : ℚ) : |rnd20 q - q| ≤ 1 / (2 * 10 ^ 20) :=
  roundHalfUp_error 20 q

theorem roundHalfUp_nonneg (dp : ℕ) {q : ℚ} (h : 0 ≤ q) : 0 ≤ roundHalfUp dp q := by
  unfold roundHalfUp
  simp only
  rw [if_neg (not_lt.2 h)]
  positivity

theorem rnd20_nonneg {q : ℚ} (h : 0 ≤ q) : 0 ≤ rnd20 q := roundHalfUp_nonneg 20 h

/-! ## The bribes -/

theorem mem_setProp {κ α : Type} [DecidableEq κ] {k : κ} {v : α} {l : List (κ × α)}
    {x : κ × α} (h : x ∈ setProp k v l) : x = (k, v) ∨ x ∈ l := by
  induction l with
  | nil =>
    simp only [setProp, List.mem_singleton] at h
    exact Or.inl h
  | cons y t ih =>
    obtain ⟨k', v'⟩ := y
    unfold setProp at h
    split_ifs at h with hk
    · rcases List.mem_cons.1 h with e | e
      · exact Or.inl e
      · exact Or.inr (List.mem_cons_of_mem _ e)
    · rcases List.mem_cons.1 h with e | e
      · exact Or.inr (by simp [e])
      · rcases ih e with e2 | e2
        · exact Or.inl e2
        · exact Or.inr (List.mem_cons_of_mem _ e2)

theorem mem_bribeVote {rnd : ℚ → ℚ} {choicesDict : List String} {totalBribe : BigNumber}
    {ourChoiceVotes : Option BigNumber} {vote : Vote} {bribes : List (String × Bribe)}
    {x : String × Bribe}
    (h : x ∈ bribeVote rnd choicesDict totalBribe ourChoiceVotes bribes vote) :
    x ∈ bribes ∨
      ∃ e ∈ vote.choice, vote.vp ≠ 0 ∧ choicesDict[e.1]? = some OUR_BRIBED_CHOICE ∧
        x = (vote.voter, bribeOf rnd totalBribe ourChoiceVotes vote e.2) := by
  unfold bribeVote at h
  split_ifs at h with hvp
  · exact Or.inl h
  · have key : ∀ (entries : List (ℕ × ℚ)) (acc : List (String × Bribe)),
        x ∈ entries.foldl (bribeEntry rnd choicesDict totalBribe ourChoiceVotes vote) acc →
        x ∈ acc ∨ ∃ e ∈ entries, choicesDict[e.1]? = some OUR_BRIBED_CHOICE ∧
          x = (vote.voter, bribeOf rnd totalBribe ourChoiceVotes vote e.2) := by
      intro entries
      induction entries with
      | nil =>
        intro acc hx
        exact Or.inl hx
      | cons e es ih =>
        intro acc hx
        rw [List.foldl_cons] at hx
        rcases ih _ hx with h1 | ⟨e', he', h2⟩
        · unfold bribeEntry at h1
          split_ifs at h1 with hc hp
          · exact Or.inl h1
          · rcases mem_setProp h1 with h3 | h3
            · exact Or.inr ⟨e, List.mem_cons_self _ _, hc, h3⟩
            · exact Or.inl h3
          · exact Or.inl h1
        · exact Or.inr ⟨e', List.mem_cons_of_mem _ he', h2⟩
    rcases key _ _ h with h1 | ⟨e, he, h2, h3⟩
    · exact Or.inl h1
    · exact Or.inr ⟨e, he, hvp, h2, h3⟩

theorem mem_allocate {rnd : ℚ → ℚ} {choicesDict : List String} {totalBribe : BigNumber}
    {ourChoiceVotes : Option BigNumber} {votes : List Vote} {x : String × Bribe}
    (h : x ∈ allocate rnd choicesDict totalBribe ourChoiceVotes votes) :
    ∃ v ∈ votes, ∃ e ∈ v.choice, v.vp ≠ 0 ∧ choicesDict[e.1]? = some OUR_BRIBED_CHOICE ∧
      x = (v.voter, bribeOf rnd totalBribe ourChoiceVotes v e.2) := by
  have key : ∀ (vs : List Vote) (acc : List (String × Bribe)),
      x ∈ vs.foldl (bribeVote rnd choicesDict totalBribe ourChoiceVotes) acc →
      x ∈ acc ∨ ∃ v ∈ vs, ∃ e ∈ v.choice, v.vp ≠ 0 ∧
        choicesDict[e.1]? = some OUR_BRIBED_CHOICE ∧
        x = (v.voter, bribeOf rnd totalBribe ourChoiceVotes v e.2) := by
    intro vs
    induction vs with
    | nil =>
      intro acc hx
      exact Or.inl hx
    | cons v vs ih =>
      intro acc hx
      rw [List.foldl_cons] at hx
      rcases ih _ hx with h1 | ⟨v', hv', h2⟩
      · rcases mem_bribeVote h1 with h3 | ⟨e, he, h4⟩
        · exact Or.inl h3
        · exact Or.inr ⟨v, List.mem_cons_self _ _, e, he, h4⟩
      · exact Or.inr ⟨v', List.mem_cons_of_mem _ hv', h2⟩
  rcases key _ _ h with h1 | h1
  · simp at h1
  · exact h1

theorem clawBack_eq (bribes : List (String × Bribe)) :
    clawBack bribes =
      ((bribes.filter fun b => shouldClawBackWhale b.1 b.2.voterVp).map
        fun b => b.2.bribeAmount).sum := by
  have key : ∀ (l : List (String × Bribe)) (acc : BigNumber),
      l.foldl (fun acc b =>
        if shouldClawBackWhale b.1 b.2.voterVp then BigNumber.sum [acc, b.2.bribeAmount]
        else acc) acc =
      acc + ((l.filter fun b => shouldClawBackWhale b.1 b.2.voterVp).map
        fun b => b.2.bribeAmount).sum := by
    intro l
    induction l with
    | nil => simp
    | cons b bs ih =>
      intro acc
      rw [List.foldl_cons, ih]
      by_cases hb : shouldClawBackWhale b.1 b.2.voterVp = true
      · simp [hb, List.filter_cons, sum_pair, add_assoc]
      · simp [hb, List.filter_cons]
  rw [clawBack, key, ← zero_def, zero_add]

theorem mem_redistribute {rnd : ℚ → ℚ} {ourChoicePercentage : Option BigNumber}
    {clawed : BigNumber} {bribes : List (String × Bribe)} {i : String} {r : BribeRecord}
    (h : (i, r) ∈ redistribute rnd ourChoicePercentage clawed bribes) :
    ∃ b, (i, b) ∈ bribes ∧ r = adjust rnd ourChoicePercentage clawed i b := by
  unfold redistribute at h
  obtain ⟨x, hx, e⟩ := List.mem_map.1 h
  simp only [Prod.mk.injEq] at e
  obtain ⟨e1, e2⟩ := e
  subst e1
  exact ⟨x.2, hx, e2.symm⟩

theorem redistribute_whales (rnd : ℚ → ℚ) (ourChoicePercentage : Option BigNumber)
    (clawed : BigNumber) (bribes : List (String × Bribe)) :
    (((redistribute rnd ourChoicePercentage clawed bribes).filter
        fun b => shouldClawBackWhale b.1 b.2.voterVp).map fun b => b.2.bribeAmount) =
      ((bribes.filter fun b => shouldClawBackWhale b.1 b.2.voterVp).map
        fun b => b.2.bribeAmount) := by
  induction bribes with
  | nil => rfl
  | cons b bs ih =>
    have hcons : redistribute rnd ourChoicePercentage clawed (b :: bs) =
        (b.1, adjust rnd ourChoicePercentage clawed b.1 b.2) ::
          redistribute rnd ourChoicePercentage clawed bs := rfl
    have hvp : (adjust rnd ourChoicePercentage clawed b.1 b.2).voterVp = b.2.voterVp := rfl
    have ham : (adjust rnd ourChoicePercentage clawed b.1 b.2).bribeAmount = b.2.bribeAmount :=
      rfl
    rw [hcons]
    by_cases hb : shouldClawBackWhale b.1 b.2.voterVp = true
    · have h1 : (b :: bs).filter (fun b => shouldClawBackWhale b.1 b.2.voterVp) =
          b :: bs.filter (fun b => shouldClawBackWhale b.1 b.2.voterVp) := by
        simp [List.filter_cons, hb]
      have h2 : ((b.1, adjust rnd ourChoicePercentage clawed b.1 b.2) ::
            redistribute rnd ourChoicePercentage clawed bs).filter
            (fun b => shouldClawBackWhale b.1 b.2.voterVp) =
          (b.1, adjust rnd ourChoicePercentage clawed b.1 b.2) ::
            (redistribute rnd ourChoicePercentage clawed bs).filter
              (fun b => shouldClawBackWhale b.1 b.2.voterVp) := by
        simp [List.filter_cons, hb, hvp]
      rw [h1, h2, List.map_cons, List.map_cons, ih, ham]
    · have h1 : (b :: bs).filter (fun b => shouldClawBackWhale b.1 b.2.voterVp) =
          bs.filter (fun b => shouldClawBackWhale b.1 b.2.voterVp) := by
        simp [List.filter_cons, hb]
      have h2 : ((b.1, adjust rnd ourChoicePercentage clawed b.1 b.2) ::
            redistribute rnd ourChoicePercentage clawed bs).filter
            (fun b => shouldClawBackWhale b.1 b.2.voterVp) =
          (redistribute rnd ourChoicePercentage clawed bs).filter
            (fun b => shouldClawBackWhale b.1 b.2.voterVp) := by
        simp [List.filter_cons, hb, hvp]
      rw [h1, h2, ih]

theorem chainLoop_ours {rnd : ℚ → ℚ} {choicesDict : List String} {totalVote : BigNumber}
    {l : List (ℕ × BigNumber)} {st st1 : ChainState}
    (h : chainLoop rnd choicesDict totalVote l st = .ok st1) :
    (st1.ourChoiceVotes = st.ourChoiceVotes ∧
        st1.ourChoicePercentage = st.ourChoicePercentage ∧
        ∀ x ∈ l, choicesDict[x.1]? ≠ some OUR_BRIBED_CHOICE) ∨
      ∃ x ∈ l, choicesDict[x.1]? = some OUR_BRIBED_CHOICE ∧
        st1.ourChoiceVotes = some x.2 ∧
        st1.ourChoicePercentage = some (percentageOf rnd totalVote x.2) := by
  induction l generalizing st with
  | nil =>
    simp only [chainLoop, Except.ok.injEq] at h
    subst h
    exact Or.inl ⟨rfl, rfl, by simp⟩
  | cons x xs ih =>
    unfold chainLoop at h
    split at h
    · exact absurd h (by simp)
    · next st2 hstep =>
      unfold chainStep at hstep
      split at hstep
      · exact absurd hstep (by simp)
      · next chain hchain =>
        simp only [Except.ok.injEq] at hstep
        rcases ih h with ⟨h1, h2, h3⟩ | ⟨y, hy, h4⟩
        · by_cases hx : choicesDict[x.1]? = some OUR_BRIBED_CHOICE
          · right
            refine ⟨x, List.mem_cons_self _ _, hx, ?_, ?_⟩
            · rw [h1, ← hstep]
              simp [hx]
            · rw [h2, ← hstep]
              simp [hx]
          · left
            refine ⟨?_, ?_, ?_⟩
            · rw [h1, ← hstep]
              simp [hx]
            · rw [h2, ← hstep]
              simp [hx]
            · intro y hy
              rcases List.mem_cons.1 hy with e | e
              · rw [e]
                exact hx
              · exact h3 y e
        · exact Or.inr ⟨y, List.mem_cons_of_mem _ hy, h4⟩

theorem scenario_main : main rnd20 scenarioChoices scenarioVotes = .ok scenarioOutput := by
  decide!

theorem proto_main : main rnd20 scenarioChoices protoVotes = .ok protoOutput := by
  decide!

theorem proto_exact_main : main id scenarioChoices protoVotes = .ok protoExactOutput := by
  decide!

theorem mem_bribes_of_main {rnd : ℚ → ℚ} {choices : List String} {votes : List Vote}
    {out : Output} (h : main rnd choices votes = .ok out) {i : String} {r : BribeRecord}
    (hr : (i, r) ∈ out.bribes) :
    r = adjust rnd out.ourChoicePercentage out.clawedBackWhaleBribeAmount i
        (Bribe.mk r.voterVp r.choicePerc r.bribeAmount) ∧
      ∃ v ∈ votes, ∃ e ∈ v.choice, v.voter = i ∧ v.vp ≠ 0 ∧
        (getProposalChoices choices)[e.1]? = some OUR_BRIBED_CHOICE ∧
        r.voterVp = v.vp ∧
        r.choicePerc =
          ((choiceVote rnd v e.2).div rnd (ofUndefinable out.ourChoiceVotes)).times (fin 100) ∧
        r.bribeAmount = (out.totalBribe.times r.choicePerc).div rnd (fin 100) := by
  obtain ⟨agg, _, _, hout⟩ := main_ok_inv h
  subst hout
  obtain ⟨b, hb, hadj⟩ := mem_redistribute hr
  obtain ⟨v, hv, e, he, hvp, hc, hx⟩ := mem_allocate hb
  simp only [Prod.mk.injEq] at hx
  obtain ⟨hi, hb2⟩ := hx
  subst hb2
  subst hadj
  exact ⟨rfl, v, hv, e, he, hi.symm, hvp, hc, rfl, rfl, rfl⟩

theorem ourChoiceVotes_of_main {rnd : ℚ → ℚ} {choices : List String} {votes : List Vote}
    {out : Output} (h : main rnd choices votes = .ok out) :
    out.voteTotals = tally rnd votes ∧
      ((out.ourChoiceVotes = none ∧ out.ourChoicePercentage = none ∧
          ∀ x ∈ tally rnd votes,
            (getProposalChoices choices)[x.1]? ≠ some OUR_BRIBED_CHOICE) ∨
        ∃ x ∈ tally rnd votes,
          (getProposalChoices choices)[x.1]? = some OUR_BRIBED_CHOICE ∧
          out.ourChoiceVotes = some x.2 ∧
          out.ourChoicePercentage = some (percentageOf rnd out.totalVote x.2)) := by
  obtain ⟨agg, hagg, _, hout⟩ := main_ok_inv h
  subst hout
  simp only [aggregate] at hagg
  split at hagg
  · exact absurd hagg (by simp)
  · next st hst =>
    simp only [Except.ok.injEq] at hagg
    subst hagg
    exact ⟨rfl, chainLoop_ours hst⟩

/-! ## Claims on the claw-back and the redistribution -/

/-- C6 as stated fails.  The vote below has positive weights and a voting power
above the whale threshold; its share of the bribed choice, 300000 over
`10^30 + 1`, rounds to 0 at 20 decimal places, so the total of the bribed choice
is 0 while the chain holds 100 per cent and the check passes.  The voter's
percentage of that total is `0 / 0`: the raw bribe, the adjustment, the final
bribe and the clawed-back amount are `NaN`, and the final bribe is not 0. -/
theorem main_whale_final_bribe_nan :
    shouldClawBackWhale "0x0a" 300000 = true ∧
      main rnd20 ["WBTC (Arbitrum)", "ETH (Arbitrum)"]
          [Vote.mk "0x0a" 300000 [(1, 1), (2, 1000000000000000000000000000000)]] =
        .ok (Output.mk [(1, fin 0), (2, fin 300000)] (fin 300000)
          [TotalsRow.mk (some "WBTC (Arbitrum)") (fin 0) (fin 0),
            TotalsRow.mk (some "ETH (Arbitrum)") (fin 300000) (fin 100)]
          [("Arbitrum", fin 100)] (some (fin 0)) (some (fin 0)) (fin 0) nan
          [("0x0a", BribeRecord.mk 300000 nan nan nan nan nan)] nan) ∧
      (nan : BigNumber) ≠ fin 0 := by
  decide!

/-- C6, amended: in a completed run, the adjustment of every entry of a voter to
claw back is 0 minus its raw bribe and its final bribe is the raw bribe plus the
adjustment; when the raw bribe is a finite number the adjustment is its negation
and the final bribe is exactly 0, and otherwise the final bribe is `NaN`.  The
clawed-back amount is the sum of the raw bribes over exactly those entries. -/
theorem whale_records (rnd : ℚ → ℚ) (choices : List String) (votes : List Vote)
    (out : Output) (h : main rnd choices votes = .ok out) :
    (∀ i r, (i, r) ∈ out.bribes → shouldClawBackWhale i r.voterVp = true →
      r.whaleAdjust = (fin 0).minus r.bribeAmount ∧
      r.totalBribe = r.bribeAmount + r.whaleAdjust ∧
      (∀ x, r.bribeAmount = fin x → r.whaleAdjust = fin (-x) ∧ r.totalBribe = fin 0) ∧
      (r.bribeAmount.isFinite = false → r.totalBribe = nan)) ∧
    out.clawedBackWhaleBribeAmount =
      ((out.bribes.filter fun b => shouldClawBackWhale b.1 b.2.voterVp).map
        fun b => b.2.bribeAmount).sum := by
  constructor
  · intro i r hr hw
    obtain ⟨hadj, _⟩ := mem_bribes_of_main h hr
    have h1 : r.whaleAdjust = (fin 0).minus r.bribeAmount := by
      rw [hadj]
      simp [adjust, hw]
    have h2 : r.totalBribe = r.bribeAmount + r.whaleAdjust := by
      rw [hadj]
      simp [adjust, sum_pair]
    refine ⟨h1, h2, ?_, ?_⟩
    · intro x hx
      have h3 : r.whaleAdjust = fin (-x) := by
        rw [h1, hx]
        simp [BigNumber.minus, BigNumber.negated, BigNumber.plus]
      refine ⟨h3, ?_⟩
      rw [h2, hx, h3]
      simp
    · intro hx
      rw [h2, h1]
      cases hb : r.bribeAmount with
      | fin q => simp [hb, isFinite] at hx
      | inf s =>
        show plus (inf s) (plus (fin 0) (negated (inf s))) = nan
        cases s <;> simp [plus, negated]
      | nan => rfl
  · obtain ⟨agg, _, _, hout⟩ := main_ok_inv h
    subst hout
    show clawBack _ = _
    rw [clawBack_eq]
    exact congrArg List.sum (redistribute_whales _ _ _ _).symm

/-- C6, at the scenario: V2, with a voting power of 300000, is clawed back and
ends at a final bribe of 0. -/
theorem whale_records_witness :
    shouldClawBackWhale "0x02" scenarioRecord2.voterVp = true ∧
      scenarioRecord2.whaleAdjust = fin (-(266666666666666666667 / 4000000000000000)) ∧
      scenarioRecord2.totalBribe = fin 0 :=
  ⟨by decide!,
    ((whale_records rnd20 scenarioChoices scenarioVotes scenarioOutput scenario_main).1
      "0x02" scenarioRecord2 (by decide!) (by decide!)).2.2.1
      (266666666666666666667 / 4000000000000000) (by decide!)⟩

/-- The entry of a voter not clawed back, in a completed run, for a rounding of
`div` that errs by `ε` at most. -/
theorem non_whale_entry {rnd : ℚ → ℚ} {ε : ℚ} (herr : ∀ q, |rnd q - q| ≤ ε)
    {choices : List String} {votes : List Vote} {out : Output}
    (h : main rnd choices votes = .ok out) {i : String} {r : BribeRecord}
    (hr : (i, r) ∈ out.bribes) (hw : shouldClawBackWhale i r.voterVp = false) :
    r.whaleAdjust =
        (((r.choicePerc.times out.clawedBackWhaleBribeAmount).times (fin 20)).div rnd
          (fin 100)).div rnd (fin 100) ∧
      (∀ p c, r.choicePerc = fin p → out.clawedBackWhaleBribeAmount = fin c →
        r.whaleAdjust = fin (rnd (rnd (p * c * 20 / 100) / 100)) ∧
          |rnd (rnd (p * c * 20 / 100) / 100) - p / 100 * c * (20 / 100)| ≤ 1.01 * ε) ∧
      r.totalBribe = r.bribeAmount + r.whaleAdjust ∧
      (∃ v ∈ votes, ∃ e ∈ v.choice, v.voter = i ∧ r.voterVp = v.vp ∧
        (getProposalChoices choices)[e.1]? = some OUR_BRIBED_CHOICE ∧
        r.choicePerc =
          ((choiceVote rnd v e.2).div rnd (ofUndefinable out.ourChoiceVotes)).times
            (fin 100)) ∧
      (∃ x ∈ tally rnd votes, (getProposalChoices choices)[x.1]? = some OUR_BRIBED_CHOICE ∧
        out.ourChoiceVotes = some x.2) := by
  obtain ⟨hadj, v, hv, e, he, hi, hvp, hc, hrvp, hperc, _⟩ := mem_bribes_of_main h hr
  have h1 : r.whaleAdjust =
      (((r.choicePerc.times out.clawedBackWhaleBribeAmount).times (fin 20)).div rnd
        (fin 100)).div rnd (fin 100) := by
    rw [hadj]
    simp [adjust, hw, WHALE_REDISTRIBUTION]
  have h2 : r.totalBribe = r.bribeAmount + r.whaleAdjust := by
    rw [hadj]
    simp [adjust, sum_pair]
  refine ⟨h1, ?_, h2, ⟨v, hv, e, he, hi, hrvp, hc, hperc⟩, ?_⟩
  · intro p c hp hcl
    constructor
    · rw [h1, hp, hcl]
      simp [BigNumber.times, BigNumber.div]
    · have e1 := herr (p * c * 20 / 100)
      have e2 := herr (rnd (p * c * 20 / 100) / 100)
      rw [abs_le] at e1 e2 ⊢
      constructor <;> linarith [e1.1, e1.2, e2.1, e2.2]
  · obtain ⟨hvt, hours⟩ := ourChoiceVotes_of_main h
    rcases hours with ⟨_, _, hnone⟩ | ⟨x, hx, hx1, hx2, _⟩
    · exfalso
      have hne : contributions rnd e.1 votes ≠ [] :=
        List.ne_nil_of_mem (mem_contributions rnd hv he)
      have hget : getProp e.1 (tally rnd votes) =
          some ((none : Option BigNumber).getD 0 + (contributions rnd e.1 votes).sum) := by
        rw [getProp_tally, accumulate, if_neg hne]
      exact hnone _ (getProp_mem hget) hc
    · exact ⟨x, hx, hx1, hx2⟩

theorem small_share_main :
    main rnd20 smallShareChoices smallShareVotes = .ok smallShareOutput := by
  decide!

/-- C7 as stated fails.  For `smallShareVotes` the run completes; the entry of
`0x0a`, a voter not clawed back, has the percentage `p = 99.999999999999999999`
of the votes of the bribed choice, and the clawed-back amount `c` is
`3 * 10^-20`.  Its adjustment is `10^-20`: the product `p * c * 20` divided by
100 and rounded to 20 decimal places, `6 * 10^-19`, divided by 100 and rounded
again.  The stated `(p / 100) * c * (20 / 100)` is
`5.99999999999999999994 * 10^-21`, in exact arithmetic and also when its two
divisions are `div`, neither of which rounds here. -/
theorem adjustment_not_as_stated :
    main rnd20 smallShareChoices smallShareVotes = .ok smallShareOutput ∧
      smallShareOutput.clawedBackWhaleBribeAmount = fin (3 / 100000000000000000000) ∧
      getProp "0x0a" smallShareOutput.bribes =
        some (BribeRecord.mk 10 (fin (99999999999999999999 / 1000000000000000000))
          (fin (333322222592580199997 / 100000000000000000000))
          (fin (1 / 100000000000000000000))
          (fin (166661111296290099999 / 50000000000000000000))
          (fin (499999999999999999997 / 500000000000000000))) ∧
      shouldClawBackWhale "0x0a" 10 = false ∧
      rnd20 (99999999999999999999 / 1000000000000000000 * (3 / 100000000000000000000) * 20 /
        100) = 6 / 10000000000000000000 ∧
      rnd20 (6 / 10000000000000000000 / 100) = 1 / 100000000000000000000 ∧
      (99999999999999999999 / 1000000000000000000 : ℚ) / 100 * (3 / 100000000000000000000) *
          (20 / 100) = 599999999999999999994 / 10 ^ 41 ∧
      (((fin (99999999999999999999 / 1000000000000000000)).div rnd20 (fin 100)).times
          (fin (3 / 100000000000000000000))).times ((fin 20).div rnd20 (fin 100)) =
        fin (599999999999999999994 / 10 ^ 41) ∧
      (1 / 100000000000000000000 : ℚ) ≠ 599999999999999999994 / 10 ^ 41 := by
  refine ⟨small_share_main, rfl, by decide!, by decide!, by decide!, by decide!, by norm_num,
    by decide!, by norm_num⟩

/-- C7, amended: in a completed run, the adjustment of every entry of a voter
not clawed back is its percentage `p` of the bribed choice's votes times the
clawed-back amount `c` times 20, divided by 100 and again by 100, each quotient
rounded to 20 decimal places: it is `rnd20 (rnd20 (p * c * 20 / 100) / 100)` and
lies within `1.01 / (2 * 10^20)` of `(p / 100) * c * (20 / 100)`.  Its final
bribe is the raw bribe plus the adjustment.  The percentage is the voter's
share, from line 229, divided by `ourChoiceVotes` and multiplied by 100, and
`ourChoiceVotes` is the entry of `voteTotals` for a choice carrying the bribed
label: the total over all votes, clawed back or not.  With exact divisions the
adjustment is `(p / 100) * c * (20 / 100)`. -/
theorem non_whale_records (choices : List String) (votes : List Vote) :
    (∀ out, main rnd20 choices votes = .ok out →
      ∀ i r, (i, r) ∈ out.bribes → shouldClawBackWhale i r.voterVp = false →
        r.whaleAdjust =
          (((r.choicePerc.times out.clawedBackWhaleBribeAmount).times (fin 20)).div rnd20
            (fin 100)).div rnd20 (fin 100) ∧
        (∀ p c, r.choicePerc = fin p → out.clawedBackWhaleBribeAmount = fin c →
          r.whaleAdjust = fin (rnd20 (rnd20 (p * c * 20 / 100) / 100)) ∧
            |rnd20 (rnd20 (p * c * 20 / 100) / 100) - p / 100 * c * (20 / 100)| ≤
              1.01 / (2 * 10 ^ 20)) ∧
        r.totalBribe = r.bribeAmount + r.whaleAdjust ∧
        (∃ v ∈ votes, ∃ e ∈ v.choice, v.voter = i ∧ r.voterVp = v.vp ∧
          (getProposalChoices choices)[e.1]? = some OUR_BRIBED_CHOICE ∧
          r.choicePerc =
            ((choiceVote rnd20 v e.2).div rnd20 (ofUndefinable out.ourChoiceVotes)).times
              (fin 100)) ∧
        (∃ x ∈ tally rnd20 votes,
          (getProposalChoices choices)[x.1]? = some OUR_BRIBED_CHOICE ∧
          out.ourChoiceVotes = some x.2)) ∧
    (∀ out, main id choices votes = .ok out →
      ∀ i r, (i, r) ∈ out.bribes → shouldClawBackWhale i r.voterVp = false →
        (∀ p c, r.choicePerc = fin p → out.clawedBackWhaleBribeAmount = fin c →
          r.whaleAdjust = fin (p / 100 * c * (20 / 100))) ∧
        r.totalBribe = r.bribeAmount + r.whaleAdjust) := by
  constructor
  · intro out h i r hr hw
    obtain ⟨h1, h2, h3, h4, h5⟩ := non_whale_entry rnd20_error h hr hw
    refine ⟨h1, ?_, h3, h4, h5⟩
    intro p c hp hc
    obtain ⟨h6, h7⟩ := h2 p c hp hc
    refine ⟨h6, ?_⟩
    have e : (1.01 : ℚ) / (2 * 10 ^ 20) = 1.01 * (1 / (2 * 10 ^ 20)) := by ring
    rw [e]
    exact h7
  · intro out h i r hr hw
    obtain ⟨_, h2, h3, _⟩ :=
      non_whale_entry (show ∀ q : ℚ, |id q - q| ≤ 0 from fun q => by simp) h hr hw
    refine ⟨?_, h3⟩
    intro p c hp hc
    obtain ⟨h6, _⟩ := h2 p c hp hc
    rw [h6]
    simp only [id]
    congr 1
    ring

/-- C7, amended, at the scenario: V1, with a voting power of 100000, holds 25
per cent of the votes of the bribed choice; its adjustment is 25 times the
clawed-back amount times 20, divided twice by 100 with rounding, within the
bound of 25 per cent of 20 per cent of the clawed-back amount. -/
theorem non_whale_records_witness :
    shouldClawBackWhale "0x01" scenarioRecord1.voterVp = false ∧
      scenarioRecord1.whaleAdjust =
        fin (rnd20 (rnd20 (25 * (266666666666666666667 / 4000000000000000) * 20 / 100) / 100)) ∧
      |rnd20 (rnd20 (25 * (266666666666666666667 / 4000000000000000) * 20 / 100) / 100) -
          25 / 100 * (266666666666666666667 / 4000000000000000) * (20 / 100)| ≤
        1.01 / (2 * 10 ^ 20) ∧
      scenarioRecord1.totalBribe = scenarioRecord1.bribeAmount + scenarioRecord1.whaleAdjust :=
  ⟨by decide!,
    (((non_whale_records scenarioChoices scenarioVotes).1 scenarioOutput scenario_main
      "0x01" scenarioRecord1 (by decide!) (by decide!)).2.1 25
      (266666666666666666667 / 4000000000000000) (by decide!) (by decide!)).1,
    (((non_whale_records scenarioChoices scenarioVotes).1 scenarioOutput scenario_main
      "0x01" scenarioRecord1 (by decide!) (by decide!)).2.1 25
      (266666666666666666667 / 4000000000000000) (by decide!) (by decide!)).2,
    ((non_whale_records scenarioChoices scenarioVotes).1 scenarioOutput scenario_main
      "0x01" scenarioRecord1 (by decide!) (by decide!)).2.2.1⟩

/-! ## Finite totals and percentages -/

theorem toRat_add {x y : BigNumber} (hx : x.isFinite = true) (hy : y.isFinite = true) :
    (x + y).toRat = x.toRat + y.toRat := by
  obtain ⟨a, rfl⟩ := (isFinite_iff x).1 hx
  obtain ⟨b, rfl⟩ := (isFinite_iff y).1 hy
  rfl

theorem sum_of_finite (l : List BigNumber) (h : ∀ x ∈ l, x.isFinite = true) :
    l.sum = fin (l.map BigNumber.toRat).sum := by
  induction l with
  | nil => rfl
  | cons x xs ih =>
    obtain ⟨a, ha⟩ := (isFinite_iff x).1 (h x (List.mem_cons_self _ _))
    rw [List.sum_cons, ih (fun y hy => h y (List.mem_cons_of_mem _ hy)), ha]
    simp [BigNumber.toRat]

theorem sum_eq_fin {l : List BigNumber} {T : ℚ} (h : ∀ x ∈ l, x.isFinite = true)
    (hT : BigNumber.sum l = fin T) : l ≠ [] ∧ (l.map BigNumber.toRat).sum = T := by
  cases l with
  | nil => simp [BigNumber.sum] at hT
  | cons x xs =>
    rw [sum_cons, sum_of_finite _ h] at hT
    injection hT with hT
    exact ⟨by simp, hT⟩

theorem mem_setIndex {α : Type} {k : ℕ} {v : α} {l : List (ℕ × α)} {x : ℕ × α}
    (h : x ∈ setIndex k v l) : x = (k, v) ∨ x ∈ l := by
  induction l with
  | nil =>
    simp only [setIndex, List.mem_singleton] at h
    exact Or.inl h
  | cons y t ih =>
    obtain ⟨k', v'⟩ := y
    unfold setIndex at h
    split_ifs at h with h1 h2
    · rcases List.mem_cons.1 h with e | e
      · exact Or.inl e
      · exact Or.inr e
    · rcases List.mem_cons.1 h with e | e
      · exact Or.inl e
      · exact Or.inr (List.mem_cons_of_mem _ e)
    · rcases List.mem_cons.1 h with e | e
      · exact Or.inr (by simp [e])
      · rcases ih e with e2 | e2
        · exact Or.inl e2
        · exact Or.inr (List.mem_cons_of_mem _ e2)

theorem tallyEntry_finite {rnd : ℚ → ℚ} {vote : Vote} {vt : List (ℕ × BigNumber)}
    {e : ℕ × ℚ} (hvt : ∀ x ∈ vt, x.2.isFinite = true)
    (hcv : (choiceVote rnd vote e.2).isFinite = true) :
    ∀ x ∈ tallyEntry rnd vote vt e, x.2.isFinite = true := by
  intro x hx
  unfold tallyEntry at hx
  simp only at hx
  rcases mem_setIndex hx with h1 | h1
  · rw [h1]
    simp only [sum_pair, isFinite_add, hcv, Bool.and_true]
    cases hg : getProp e.1 vt with
    | none => simp [hg, getProp_setIndex, ofUndefinable, isFinite]
    | some y =>
      simp only [hg, Option.isNone_some, Bool.false_eq_true, if_false, ofUndefinable]
      exact hvt _ (getProp_mem hg)
  · split_ifs at h1 with hn
    · rcases mem_setIndex h1 with h2 | h2
      · rw [h2]
        rfl
      · exact hvt x h2
    · exact hvt x h1

theorem tally_finite (rnd : ℚ → ℚ) (votes : List Vote)
    (hsum : ∀ v ∈ votes, (v.choice.map Prod.snd).sum ≠ 0) :
    ∀ x ∈ tally rnd votes, x.2.isFinite = true := by
  have entries : ∀ (v : Vote), (v.choice.map Prod.snd).sum ≠ 0 →
      ∀ (es : List (ℕ × ℚ)), (∀ e ∈ es, e ∈ v.choice) →
      ∀ vt : List (ℕ × BigNumber), (∀ x ∈ vt, x.2.isFinite = true) →
      ∀ x ∈ es.foldl (tallyEntry rnd v) vt, x.2.isFinite = true := by
    intro v hs es
    induction es with
    | nil =>
      intro _ vt hvt
      exact hvt
    | cons e es ih =>
      intro hes vt hvt
      rw [List.foldl_cons]
      apply ih (fun e' he' => hes e' (List.mem_cons_of_mem _ he'))
      apply tallyEntry_finite hvt
      have hne : v.choice ≠ [] := List.ne_nil_of_mem (hes e (List.mem_cons_self _ _))
      rw [choiceVote_eq rnd v e.2 hne hs]
      rfl
  have key : ∀ (vs : List Vote), (∀ v ∈ vs, (v.choice.map Prod.snd).sum ≠ 0) →
      ∀ vt : List (ℕ × BigNumber), (∀ x ∈ vt, x.2.isFinite = true) →
      ∀ x ∈ vs.foldl (tallyVote rnd) vt, x.2.isFinite = true := by
    intro vs
    induction vs with
    | nil =>
      intro _ vt hvt
      exact hvt
    | cons v vs ih =>
      intro hs vt hvt
      rw [List.foldl_cons]
      apply ih (fun v' hv' => hs v' (List.mem_cons_of_mem _ hv'))
      exact entries v (hs v (List.mem_cons_self _ _)) v.choice (fun _ h => h) vt hvt
  exact key votes hsum [] (by simp)

theorem setProp_setProp {κ α : Type} [DecidableEq κ] (k : κ) (v v' : α) (l : List (κ × α)) :
    setProp k v (setProp k v' l) = setProp k v l := by
  induction l with
  | nil => simp [setProp]
  | cons y t ih =>
    obtain ⟨k', w⟩ := y
    by_cases hk : k = k'
    · simp [setProp, hk]
    · simp [setProp, hk, ih]

theorem sum_toRat_setProp {κ : Type} [DecidableEq κ] (k : κ) (v : BigNumber)
    (l : List (κ × BigNumber)) :
    ((setProp k v l).map fun c => c.2.toRat).sum =
      (l.map fun c => c.2.toRat).sum - ((getProp k l).getD 0).toRat + v.toRat := by
  induction l with
  | nil => simp [setProp, getProp, zero_def, BigNumber.toRat]
  | cons y t ih =>
    obtain ⟨k', w⟩ := y
    by_cases hk : k = k'
    · simp [setProp, getProp, hk]
      ring
    · simp [setProp, getProp, hk, ih]
      ring

theorem not_mem_inheritedKeys {chain : String} (b : Bool)
    (h : chain ∉ inheritedKeys true) : chain ∉ inheritedKeys b := by
  cases b
  · intro hm
    apply h
    simp only [inheritedKeys, if_true, List.mem_append]
    exact Or.inl hm
  · exact h

theorem ne_proto_of_not_mem {chain : String} {b : Bool} (h : chain ∉ inheritedKeys b) :
    chain ≠ "__proto__" := by
  intro e
  subst e
  apply h
  cases b <;> decide

/-- One pass of the loop of lines 178-195: the row it pushes, the entries of
`percentagesByChain` it leaves alone and, for a chain that is not an inherited
name, the entry it writes. -/
theorem chainStep_ok {rnd : ℚ → ℚ} {choicesDict : List String} {totalVote : BigNumber}
    {st st1 : ChainState} {x : ℕ × BigNumber}
    (h : chainStep rnd choicesDict totalVote st x = .ok st1) :
    ∃ chain, choiceToChain choicesDict[x.1]? = .ok chain ∧
      st1.totalsArr =
        st.totalsArr ++ [TotalsRow.mk choicesDict[x.1]? x.2 (percentageOf rnd totalVote x.2)] ∧
      (∀ ch, ch ≠ chain →
        getProp ch st1.percentagesByChain = getProp ch st.percentagesByChain) ∧
      (chain ∉ inheritedKeys st.protoReplaced →
        st1.percentagesByChain =
          setProp chain
            ((getProp chain st.percentagesByChain).getD 0 + percentageOf rnd totalVote x.2)
            st.percentagesByChain ∧
        st1.protoReplaced = st.protoReplaced) := by
  unfold chainStep at h
  split at h
  · exact absurd h (by simp)
  · next chain hchain =>
    simp only [Except.ok.injEq] at h
    subst h
    refine ⟨chain, hchain, rfl, ?_, ?_⟩
    · intro ch hne
      simp only
      split_ifs <;> simp [getProp_setProp, hne]
    · intro hni
      have hp : chain ≠ "__proto__" := ne_proto_of_not_mem hni
      cases hg : getProp chain st.percentagesByChain with
      | none =>
        simp [hg, hni, hp, getProp_setProp, setProp_setProp, ofUndefinable, sum_pair, zero_def]
      | some y => simp [hg, hp, ofUndefinable, sum_pair]

theorem chain_of_label {choices : List String} {i : ℕ} {chain : String}
    (h : choiceToChain (getProposalChoices choices)[i]? = .ok chain) :
    ∃ label ∈ choices, choiceToChain (some label) = .ok chain := by
  cases hl : (getProposalChoices choices)[i]? with
  | none =>
    rw [hl] at h
    have e : choiceToChain none = .error .typeError := rfl
    rw [e] at h
    exact absurd h (by simp)
  | some label =>
    rw [hl] at h
    have hm : label ∈ getProposalChoices choices := List.getElem?_mem hl
    rcases List.mem_cons.1 hm with e | e
    · subst e
      have e2 : choiceToChain (some "") = .error .typeError := by decide
      rw [e2] at h
      exact absurd h (by simp)
    · exact ⟨label, e, h⟩

theorem chainLoop_ok {rnd : ℚ → ℚ} {choicesDict : List String} {totalVote : BigNumber}
    {l : List (ℕ × BigNumber)} {st st1 : ChainState}
    (h : chainLoop rnd choicesDict totalVote l st = .ok st1)
    (hl : ∀ x ∈ l, (percentageOf rnd totalVote x.2).isFinite = true)
    (hch : ∀ x ∈ l, ∀ chain, choiceToChain choicesDict[x.1]? = .ok chain →
      chain ∉ objectPrototypeKeys)
    (hflag : st.protoReplaced = false)
    (hfin : ∀ c ∈ st.percentagesByChain, c.2.isFinite = true) :
    st1.totalsArr =
        st.totalsArr ++
          l.map (fun x => TotalsRow.mk choicesDict[x.1]? x.2 (percentageOf rnd totalVote x.2)) ∧
      (∀ c ∈ st1.percentagesByChain, c.2.isFinite = true) ∧
      (st1.percentagesByChain.map fun c => c.2.toRat).sum =
        (st.percentagesByChain.map fun c => c.2.toRat).sum +
          (l.map fun x => (percentageOf rnd totalVote x.2).toRat).sum := by
  induction l generalizing st with
  | nil =>
    simp only [chainLoop, Except.ok.injEq] at h
    subst h
    exact ⟨by simp, hfin, by simp⟩
  | cons x xs ih =>
    unfold chainLoop at h
    split at h
    · exact absurd h (by simp)
    · next st2 hstep =>
      obtain ⟨chain, hchain, harr, _, hset⟩ := chainStep_ok hstep
      have hni : chain ∉ inheritedKeys st.protoReplaced := by
        rw [hflag]
        exact hch x (List.mem_cons_self _ _) chain hchain
      obtain ⟨hpbc, hflag2⟩ := hset hni
      have hx := hl x (List.mem_cons_self _ _)
      have hold : ((getProp chain st.percentagesByChain).getD 0).isFinite = true := by
        cases hg : getProp chain st.percentagesByChain with
        | none => rfl
        | some y => exact hfin _ (getProp_mem hg)
      have hfin2 : ∀ c ∈ st2.percentagesByChain, c.2.isFinite = true := by
        intro c hc
        rw [hpbc] at hc
        rcases mem_setProp hc with e | e
        · rw [e]
          simp [isFinite_add, hold, hx]
        · exact hfin c e
      obtain ⟨h1, h2, h3⟩ := ih h (fun y hy => hl y (List.mem_cons_of_mem _ hy))
        (fun y hy => hch y (List.mem_cons_of_mem _ hy)) (hflag2.trans hflag) hfin2
      refine ⟨?_, h2, ?_⟩
      · rw [h1, harr]
        simp
      · rw [h3, hpbc, sum_toRat_setProp, toRat_add hold hx]
        simp only [List.map_cons, List.sum_cons]
        ring

theorem percentageOf_fin (rnd : ℚ → ℚ) (T a : ℚ) (hT : T ≠ 0) :
    percentageOf rnd (fin T) (fin a) = fin (rnd (a / T) * 100) := by
  simp [percentageOf, BigNumber.div, BigNumber.times, hT]

theorem sum_rounded_shares (T : ℚ) (hT : T ≠ 0) (l : List ℚ) :
    |(l.map fun a => rnd20 (a / T) * 100).sum - 100 * (l.sum / T)| ≤
      (l.length : ℚ) / (2 * 10 ^ 18) := by
  induction l with
  | nil => simp
  | cons a as ih =>
    have herr := rnd20_error (a / T)
    rw [abs_le] at herr ih ⊢
    simp only [List.map_cons, List.sum_cons, List.length_cons, Nat.cast_add, Nat.cast_one]
    have e1 : (a + as.sum) / T = a / T + as.sum / T := by
      field_simp
    rw [e1]
    have e2 : ((as.length : ℚ) + 1) / (2 * 10 ^ 18) =
        (as.length : ℚ) / (2 * 10 ^ 18) + 100 * (1 / (2 * 10 ^ 20)) := by
      norm_num
      ring
    rw [e2]
    constructor <;> linarith [herr.1, herr.2, ih.1, ih.2]

/-! ## Claims on the percentages -/

/-- C2 as stated fails.  Three votes of power 1, one on each of three choices,
all with non-zero weights and a total vote of 3: each percentage is `1 / 3`
rounded to 20 decimal places, times 100, and both the percentages per choice
and the percentages per chain add up to 99.999999999999999999, not to 100.
And with a choice labelled `A (constructor)`, holding 25 per cent of a total
vote of 4, the percentage of the chain `constructor` is `NaN`, since line 193
finds the inherited `constructor` and line 194 adds the percentage to it: the
percentages per chain, `NaN` and 75, add up to `NaN`. -/
theorem percentages_not_exactly_100 :
    aggregate rnd20 (getProposalChoices scenarioChoices)
        [Vote.mk "0x0a" 1 [(1, 1)], Vote.mk "0x0b" 1 [(2, 1)], Vote.mk "0x0c" 1 [(3, 1)]] =
      .ok (Aggregated.mk [(1, fin 1), (2, fin 1), (3, fin 1)] (fin 3)
        (ChainState.mk
          [TotalsRow.mk (some "A (Ethereum)") (fin 1) (fin (33333333333333333333 / 10 ^ 18)),
            TotalsRow.mk (some "WBTC (Arbitrum)") (fin 1) (fin (33333333333333333333 / 10 ^ 18)),
            TotalsRow.mk (some "C (Optimism)") (fin 1) (fin (33333333333333333333 / 10 ^ 18))]
          [("Ethereum", fin (33333333333333333333 / 10 ^ 18)),
            ("Arbitrum", fin (33333333333333333333 / 10 ^ 18)),
            ("Optimism", fin (33333333333333333333 / 10 ^ 18))]
          (some (fin 1)) (some (fin (33333333333333333333 / 10 ^ 18))) false)) ∧
    BigNumber.sum [fin (33333333333333333333 / 10 ^ 18), fin (33333333333333333333 / 10 ^ 18),
        fin (33333333333333333333 / 10 ^ 18)] = fin (99999999999999999999 / 10 ^ 18) ∧
    fin (99999999999999999999 / 10 ^ 18) ≠ fin 100 ∧
    aggregate rnd20 (getProposalChoices ["A (constructor)", "WBTC (Arbitrum)"])
        [Vote.mk "0x0a" 1 [(1, 1)], Vote.mk "0x0b" 3 [(2, 1)]] =
      .ok (Aggregated.mk [(1, fin 1), (2, fin 3)] (fin 4)
        (ChainState.mk
          [TotalsRow.mk (some "A (constructor)") (fin 1) (fin 25),
            TotalsRow.mk (some "WBTC (Arbitrum)") (fin 3) (fin 75)]
          [("constructor", nan), ("Arbitrum", fin 75)]
          (some (fin 3)) (some (fin 75)) false)) ∧
    BigNumber.sum [nan, fin 75] = nan := by
  decide!

/-- C2, amended: when every vote has a non-zero weight sum, no choice label has
a property name of `Object.prototype` as its chain, the aggregation by chain
completes and the total vote is a non-zero number, the percentages per choice
are finite and their sum lies within `n / (2 * 10^18)` of 100, `n` being the
number of choices with an entry (each percentage carries the error of one
division rounded at 20 decimal places, times 100); the total vote is exactly
the sum of the amounts; the percentages per chain are finite and add up to
exactly the sum of the percentages per choice. -/
theorem percentages_sum_near_100 (choices : List String) (votes : List Vote)
    (agg : Aggregated) (T : ℚ)
    (hsum : ∀ v ∈ votes, (v.choice.map Prod.snd).sum ≠ 0)
    (hchains : ∀ label ∈ choices, ∀ k ∈ objectPrototypeKeys, choiceToChain (some label) ≠ .ok k)
    (hagg : aggregate rnd20 (getProposalChoices choices) votes = .ok agg)
    (hT : agg.totalVote = fin T) (hT0 : T ≠ 0) :
    (∀ row ∈ agg.chains.totalsArr, row.percentage.isFinite = true) ∧
    (agg.voteTotals.map fun x => x.2.toRat).sum = T ∧
    |(agg.chains.totalsArr.map fun row => row.percentage.toRat).sum - 100| ≤
      (agg.chains.totalsArr.length : ℚ) / (2 * 10 ^ 18) ∧
    (∀ c ∈ agg.chains.percentagesByChain, c.2.isFinite = true) ∧
    (agg.chains.percentagesByChain.map fun c => c.2.toRat).sum =
      (agg.chains.totalsArr.map fun row => row.percentage.toRat).sum := by
  simp only [aggregate] at hagg
  split at hagg
  · exact absurd hagg (by simp)
  · next st hst =>
    simp only [Except.ok.injEq] at hagg
    subst hagg
    simp only at hT ⊢
    have hfin := tally_finite rnd20 votes hsum
    have hfin2 : ∀ y ∈ (tally rnd20 votes).map Prod.snd, y.isFinite = true := by
      intro y hy
      obtain ⟨x, hx, rfl⟩ := List.mem_map.1 hy
      exact hfin x hx
    obtain ⟨_, hTsum⟩ := sum_eq_fin hfin2 hT
    rw [List.map_map] at hTsum
    have hpct : ∀ x ∈ tally rnd20 votes,
        percentageOf rnd20 (totalVoteOf (tally rnd20 votes)) x.2 =
          fin (rnd20 (x.2.toRat / T) * 100) := by
      intro x hx
      obtain ⟨a, ha⟩ := (isFinite_iff x.2).1 (hfin x hx)
      rw [hT, ha, percentageOf_fin rnd20 T a hT0]
      rfl
    have hpfin : ∀ x ∈ tally rnd20 votes,
        (percentageOf rnd20 (totalVoteOf (tally rnd20 votes)) x.2).isFinite = true := by
      intro x hx
      rw [hpct x hx]
      rfl
    have hch : ∀ x ∈ tally rnd20 votes, ∀ chain,
        choiceToChain (getProposalChoices choices)[x.1]? = .ok chain →
          chain ∉ objectPrototypeKeys := by
      intro x _ chain hc hm
      obtain ⟨label, hl, hlc⟩ := chain_of_label hc
      exact hchains label hl chain hm hlc
    obtain ⟨harr, hcfin, hcsum⟩ := chainLoop_ok hst hpfin hch rfl (by simp)
    simp only [List.nil_append, List.map_nil, List.sum_nil, zero_add] at harr hcsum
    have hrows : (st.totalsArr.map fun row => row.percentage.toRat) =
        ((tally rnd20 votes).map (BigNumber.toRat ∘ Prod.snd)).map
          fun a => rnd20 (a / T) * 100 := by
      rw [harr, List.map_map, List.map_map]
      apply List.map_congr_left
      intro x hx
      simp only [Function.comp_apply]
      rw [hpct x hx]
      rfl
    have hcs : (st.percentagesByChain.map fun c => c.2.toRat).sum =
        (st.totalsArr.map fun row => row.percentage.toRat).sum := by
      rw [hcsum, harr, List.map_map]
      rfl
    refine ⟨?_, hTsum, ?_, hcfin, hcs⟩
    · intro row hrow
      rw [harr] at hrow
      obtain ⟨x, hx, rfl⟩ := List.mem_map.1 hrow
      exact hpfin x hx
    · have hb := sum_rounded_shares T hT0 ((tally rnd20 votes).map (BigNumber.toRat ∘ Prod.snd))
      rw [hTsum, div_self hT0, mul_one, ← hrows] at hb
      have hlen : st.totalsArr.length =
          ((tally rnd20 votes).map (BigNumber.toRat ∘ Prod.snd)).length := by
        rw [harr]
        simp
      rw [hlen]
      exact hb

/-- C2, at the scenario: the two percentages, 11.111111111111111111 and
88.888888888888888889, add up to 100 here, within the bound. -/
theorem percentages_sum_near_100_witness :
    |((11111111111111111111 / 1000000000000000000 : ℚ) +
        (88888888888888888889 / 1000000000000000000 + 0)) - 100| ≤ ((2 : ℕ) : ℚ) / (2 * 10 ^ 18) :=
  (percentages_sum_near_100 scenarioChoices scenarioVotes
    (Aggregated.mk scenarioOutput.voteTotals scenarioOutput.totalVote
      (ChainState.mk scenarioOutput.totalsArr scenarioOutput.percentagesByChain
        scenarioOutput.ourChoiceVotes scenarioOutput.ourChoicePercentage false))
    450000 (by decide!) (by decide!) (by decide!) rfl (by decide!)).2.2.1

/-! ## The order of `voteTotals` and of `bribes` -/

theorem setIndex_keys_sorted {α : Type} (k : ℕ) (v : α) (l : List (ℕ × α))
    (h : (l.map Prod.fst).Pairwise (· < ·)) :
    ((setIndex k v l).map Prod.fst).Pairwise (· < ·) := by
  induction l with
  | nil => simp [setIndex]
  | cons y t ih =>
    obtain ⟨k', v'⟩ := y
    simp only [List.map_cons, List.pairwise_cons] at h
    obtain ⟨h1, h2⟩ := h
    unfold setIndex
    split_ifs with hlt heq
    · simp only [List.map_cons, List.pairwise_cons, List.mem_cons]
      refine ⟨?_, h1, h2⟩
      rintro a (rfl | ha)
      · exact hlt
      · exact lt_trans hlt (h1 a ha)
    · subst heq
      simp only [List.map_cons, List.pairwise_cons]
      exact ⟨h1, h2⟩
    · simp only [List.map_cons, List.pairwise_cons]
      refine ⟨?_, ih h2⟩
      intro a ha
      obtain ⟨x, hx, rfl⟩ := List.mem_map.1 ha
      rcases mem_setIndex hx with e | e
      · rw [e]
        show k' < k
        omega
      · exact h1 _ (List.mem_map_of_mem Prod.fst e)

theorem tally_keys_sorted (rnd : ℚ → ℚ) (votes : List Vote) :
    ((tally rnd votes).map Prod.fst).Pairwise (· < ·) := by
  have entry : ∀ (v : Vote) (e : ℕ × ℚ) (vt : List (ℕ × BigNumber)),
      (vt.map Prod.fst).Pairwise (· < ·) →
      ((tallyEntry rnd v vt e).map Prod.fst).Pairwise (· < ·) := by
    intro v e vt hvt
    unfold tallyEntry
    simp only
    apply setIndex_keys_sorted
    split_ifs
    · exact setIndex_keys_sorted _ _ _ hvt
    · exact hvt
  have entries : ∀ (v : Vote) (es : List (ℕ × ℚ)) (vt : List (ℕ × BigNumber)),
      (vt.map Prod.fst).Pairwise (· < ·) →
      ((es.foldl (tallyEntry rnd v) vt).map Prod.fst).Pairwise (· < ·) := by
    intro v es
    induction es with
    | nil =>
      intro vt hvt
      exact hvt
    | cons e es ih =>
      intro vt hvt
      exact ih _ (entry v e vt hvt)
  have key : ∀ (vs : List Vote) (vt : List (ℕ × BigNumber)),
      (vt.map Prod.fst).Pairwise (· < ·) →
      ((vs.foldl (tallyVote rnd) vt).map Prod.fst).Pairwise (· < ·) := by
    intro vs
    induction vs with
    | nil =>
      intro vt hvt
      exact hvt
    | cons v vs ih =>
      intro vt hvt
      exact ih _ (entries v v.choice vt hvt)
  exact key votes [] (by simp)

theorem getProp_tally_of_mem {rnd : ℚ → ℚ} {votes : List Vote} {x : ℕ × BigNumber}
    (hx : x ∈ tally rnd votes) : getProp x.1 (tally rnd votes) = some x.2 :=
  getProp_of_mem_nodup ((tally_keys_sorted rnd votes).imp (fun h => ne_of_lt h)) hx

theorem setProp_of_not_mem {κ α : Type} [DecidableEq κ] {k : κ} (v : α) {l : List (κ × α)}
    (h : k ∉ l.map Prod.fst) : setProp k v l = l ++ [(k, v)] := by
  induction l with
  | nil => rfl
  | cons y t ih =>
    obtain ⟨k', v'⟩ := y
    simp only [List.map_cons, List.mem_cons, not_or] at h
    simp [setProp, h.1, ih h.2]

theorem bribeVote_eq {rnd : ℚ → ℚ} {choicesDict : List String} {totalBribe : BigNumber}
    {ourChoiceVotes : Option BigNumber} {t : ℕ}
    (ht : ∀ i, choicesDict[i]? = some OUR_BRIBED_CHOICE ↔ i = t)
    (acc : List (String × Bribe)) (v : Vote) (hkeys : (v.choice.map Prod.fst).Nodup)
    (hproto : v.voter ≠ "__proto__") :
    bribeVote rnd choicesDict totalBribe ourChoiceVotes acc v =
      match recordOf rnd totalBribe ourChoiceVotes t v with
      | none => acc
      | some b => setProp b.1 b.2 acc := by
  unfold bribeVote recordOf
  by_cases hvp : v.vp = 0
  · simp [hvp]
  · simp only [hvp, if_false]
    have key : ∀ (es : List (ℕ × ℚ)), (es.map Prod.fst).Nodup →
        ∀ acc : List (String × Bribe),
        es.foldl (bribeEntry rnd choicesDict totalBribe ourChoiceVotes v) acc =
          match (getProp t es).map
            fun w => (v.voter, bribeOf rnd totalBribe ourChoiceVotes v w) with
          | none => acc
          | some b => setProp b.1 b.2 acc := by
      intro es
      induction es with
      | nil =>
        intro _ acc
        rfl
      | cons e es ih =>
        intro hn acc
        simp only [List.map_cons, List.nodup_cons] at hn
        rw [List.foldl_cons, ih hn.2]
        by_cases he : e.1 = t
        · have hnone : getProp t es = none := by
            rw [getProp_eq_none]
            rw [← he]
            exact hn.1
          have hc : choicesDict[e.1]? = some OUR_BRIBED_CHOICE := (ht e.1).2 he
          obtain ⟨k, w⟩ := e
          simp only at he hc
          subst he
          simp [hnone, getProp, bribeEntry, hc, hproto]
        · have hc : ¬ choicesDict[e.1]? = some OUR_BRIBED_CHOICE := fun h => he ((ht e.1).1 h)
          have he2 : ¬ t = e.1 := fun h => he h.symm
          obtain ⟨k, w⟩ := e
          simp only at he2 hc
          simp [getProp, he2, bribeEntry, hc]
    exact key v.choice hkeys acc

theorem recordOf_key {rnd : ℚ → ℚ} {totalBribe : BigNumber}
    {ourChoiceVotes : Option BigNumber} {t : ℕ} {v : Vote} {b : String × Bribe}
    (h : recordOf rnd totalBribe ourChoiceVotes t v = some b) : b.1 = v.voter := by
  unfold recordOf at h
  split_ifs at h
  cases hg : getProp t v.choice with
  | none => simp [hg] at h
  | some w =>
    simp only [hg, Option.map_some', Option.some.injEq] at h
    rw [← h]

theorem allocate_eq {rnd : ℚ → ℚ} {choicesDict : List String} {totalBribe : BigNumber}
    {ourChoiceVotes : Option BigNumber} {t : ℕ}
    (ht : ∀ i, choicesDict[i]? = some OUR_BRIBED_CHOICE ↔ i = t)
    (votes : List Vote) (hkeys : ∀ v ∈ votes, (v.choice.map Prod.fst).Nodup)
    (hvoters : (votes.map Vote.voter).Nodup)
    (hproto : ∀ v ∈ votes, v.voter ≠ "__proto__") :
    allocate rnd choicesDict totalBribe ourChoiceVotes votes =
      votes.filterMap (recordOf rnd totalBribe ourChoiceVotes t) := by
  have key : ∀ (vs : List Vote), (∀ v ∈ vs, (v.choice.map Prod.fst).Nodup) →
      (vs.map Vote.voter).Nodup → (∀ v ∈ vs, v.voter ≠ "__proto__") →
      ∀ acc : List (String × Bribe), (∀ v ∈ vs, v.voter ∉ acc.map Prod.fst) →
      vs.foldl (bribeVote rnd choicesDict totalBribe ourChoiceVotes) acc =
        acc ++ vs.filterMap (recordOf rnd totalBribe ourChoiceVotes t) := by
    intro vs
    induction vs with
    | nil =>
      intro _ _ _ acc _
      simp
    | cons v vs ih =>
      intro hk hn hp acc hacc
      have hp2 : ∀ v ∈ vs, v.voter ≠ "__proto__" :=
        fun x hx => hp x (List.mem_cons_of_mem _ hx)
      simp only [List.map_cons, List.nodup_cons] at hn
      have hk2 : ∀ v ∈ vs, (v.choice.map Prod.fst).Nodup :=
        fun x hx => hk x (List.mem_cons_of_mem _ hx)
      have hacc2 : ∀ x ∈ vs, x.voter ∉ acc.map Prod.fst :=
        fun x hx => hacc x (List.mem_cons_of_mem _ hx)
      rw [List.foldl_cons, bribeVote_eq ht acc v (hk v (List.mem_cons_self _ _))
        (hp v (List.mem_cons_self _ _))]
      cases hr : recordOf rnd totalBribe ourChoiceVotes t v with
      | none =>
        simp only [List.filterMap_cons, hr]
        exact ih hk2 hn.2 hp2 acc hacc2
      | some b =>
        have hb := recordOf_key hr
        simp only [List.filterMap_cons, hr]
        have hnot : b.1 ∉ acc.map Prod.fst := by
          rw [hb]
          exact hacc v (List.mem_cons_self _ _)
        rw [setProp_of_not_mem b.2 hnot, ih hk2 hn.2 hp2]
        · simp
        · intro x hx hmem
          simp only [List.map_append, List.map_cons, List.map_nil, List.mem_append,
            List.mem_singleton] at hmem
          rcases hmem with h1 | h1
          · exact hacc2 x hx h1
          · rw [hb] at h1
            exact hn.1 (h1 ▸ List.mem_map_of_mem Vote.voter hx)
  have := key votes hkeys hvoters hproto [] (by simp)
  simpa [allocate] using this

/-! ## The sum of the raw bribes -/

theorem rounded_bribe_error (P V c : ℚ) :
    |rnd20 (P * (rnd20 (c / V) * 100) / 100) - P * (c / V)| ≤ (|P| + 1) / (2 * 10 ^ 20) := by
  have e1 := rnd20_error (P * (rnd20 (c / V) * 100) / 100)
  have e2 := rnd20_error (c / V)
  have hx : P * (rnd20 (c / V) * 100) / 100 = P * rnd20 (c / V) := by ring
  rw [hx] at e1
  have e3 : |P * rnd20 (c / V) - P * (c / V)| ≤ |P| * (1 / (2 * 10 ^ 20)) := by
    rw [← mul_sub, abs_mul]
    exact mul_le_mul_of_nonneg_left e2 (abs_nonneg P)
  rw [hx]
  calc |rnd20 (P * rnd20 (c / V)) - P * (c / V)|
      ≤ |rnd20 (P * rnd20 (c / V)) - P * rnd20 (c / V)| +
          |P * rnd20 (c / V) - P * (c / V)| := abs_sub_le _ _ _
    _ ≤ 1 / (2 * 10 ^ 20) + |P| * (1 / (2 * 10 ^ 20)) := add_le_add e1 e3
    _ = (|P| + 1) / (2 * 10 ^ 20) := by ring

theorem sum_rounded_bribes (P V : ℚ) (l : List ℚ) :
    |(l.map fun c => rnd20 (P * (rnd20 (c / V) * 100) / 100)).sum - P * (l.sum / V)| ≤
      (l.length : ℚ) * ((|P| + 1) / (2 * 10 ^ 20)) := by
  induction l with
  | nil => simp
  | cons c cs ih =>
    have e := rounded_bribe_error P V c
    simp only [List.map_cons, List.sum_cons, List.length_cons, Nat.cast_add, Nat.cast_one]
    have h1 : rnd20 (P * (rnd20 (c / V) * 100) / 100) +
          (cs.map fun c => rnd20 (P * (rnd20 (c / V) * 100) / 100)).sum -
          P * ((c + cs.sum) / V) =
        (rnd20 (P * (rnd20 (c / V) * 100) / 100) - P * (c / V)) +
          ((cs.map fun c => rnd20 (P * (rnd20 (c / V) * 100) / 100)).sum -
            P * (cs.sum / V)) := by
      ring
    rw [h1]
    calc _ ≤ |rnd20 (P * (rnd20 (c / V) * 100) / 100) - P * (c / V)| +
          |(cs.map fun c => rnd20 (P * (rnd20 (c / V) * 100) / 100)).sum -
            P * (cs.sum / V)| := abs_add _ _
      _ ≤ (|P| + 1) / (2 * 10 ^ 20) + (cs.length : ℚ) * ((|P| + 1) / (2 * 10 ^ 20)) :=
        add_le_add e ih
      _ = ((cs.length : ℚ) + 1) * ((|P| + 1) / (2 * 10 ^ 20)) := by ring

theorem getProp_tally_fin (rnd : ℚ → ℚ) (c : ℕ) (votes : List Vote)
    (hkeys : ∀ v ∈ votes, (v.choice.map Prod.fst).Nodup)
    (hsum : ∀ v ∈ votes, (v.choice.map Prod.snd).sum ≠ 0) :
    getProp c (tally rnd votes) =
      if votes.filterMap (shareOf rnd c) = [] then none
      else some (fin (votes.filterMap (shareOf rnd c)).sum) := by
  rw [getProp_tally, contributions_eq rnd c votes hkeys hsum]
  by_cases h : votes.filterMap (shareOf rnd c) = []
  · simp [accumulate, h]
  · simp [accumulate, h, sum_map_fin, zero_def]

theorem shareOf_nonneg {c : ℕ} {v : Vote} {a : ℚ} (hvp : 0 ≤ v.vp)
    (hw : ∀ e ∈ v.choice, 0 < e.2) (h : shareOf rnd20 c v = some a) : 0 ≤ a := by
  unfold shareOf at h
  cases hg : getProp c v.choice with
  | none => simp [hg] at h
  | some w =>
    simp only [hg, Option.map_some', Option.some.injEq] at h
    rw [← h]
    apply rnd20_nonneg
    have hw0 : 0 < w := hw _ (getProp_mem hg)
    have hs : 0 ≤ (v.choice.map Prod.snd).sum := by
      apply List.sum_nonneg
      intro x hx
      obtain ⟨e, he, rfl⟩ := List.mem_map.1 hx
      exact le_of_lt (hw e he)
    positivity

theorem tally_nonneg (votes : List Vote)
    (hvalid : ∀ v ∈ votes, 0 ≤ v.vp ∧ (v.choice.map Prod.fst).Nodup ∧ v.choice ≠ [] ∧
      ∀ e ∈ v.choice, 0 < e.2)
    (hsum : ∀ v ∈ votes, (v.choice.map Prod.snd).sum ≠ 0) :
    ∀ y ∈ tally rnd20 votes, ∃ a, y.2 = fin a ∧ 0 ≤ a := by
  intro y hy
  have hg := getProp_tally_of_mem hy
  rw [getProp_tally_fin rnd20 y.1 votes (fun v hv => (hvalid v hv).2.1) hsum] at hg
  split_ifs at hg
  simp only [Option.some.injEq] at hg
  refine ⟨_, hg.symm, ?_⟩
  apply List.sum_nonneg
  intro a ha
  obtain ⟨v, hv, hsh⟩ := List.mem_filterMap.1 ha
  exact shareOf_nonneg (hvalid v hv).1 (hvalid v hv).2.2.2 hsh

theorem rnd20_zero : rnd20 0 = 0 := by
  decide!

theorem sum_shares_nonzero_vp (t : ℕ) (votes : List Vote) :
    (votes.filterMap fun v => if v.vp = 0 then none else shareOf rnd20 t v).sum =
      (votes.filterMap (shareOf rnd20 t)).sum := by
  induction votes with
  | nil => rfl
  | cons v vs ih =>
    by_cases hvp : v.vp = 0
    · cases hs : shareOf rnd20 t v with
      | none => simp [List.filterMap_cons, hvp, hs, ih]
      | some a =>
        have ha : a = 0 := by
          unfold shareOf at hs
          cases hg : getProp t v.choice with
          | none => simp [hg] at hs
          | some w =>
            simp only [hg, Option.map_some', Option.some.injEq] at hs
            rw [← hs, hvp]
            simp [rnd20_zero]
        simp [List.filterMap_cons, hvp, hs, ih, ha]
    · cases hs : shareOf rnd20 t v with
      | none => simp [List.filterMap_cons, hvp, hs, ih]
      | some a => simp [List.filterMap_cons, hvp, hs, ih]

theorem bribeOf_amount (P V : ℚ) (hV : V ≠ 0) (v : Vote) (w : ℚ) (hne : v.choice ≠ [])
    (hs : (v.choice.map Prod.snd).sum ≠ 0) :
    (bribeOf rnd20 (fin P) (some (fin V)) v w).bribeAmount =
      fin (rnd20 (P * (rnd20 (rnd20 (v.vp * w / (v.choice.map Prod.snd).sum) / V) * 100) /
        100)) := by
  simp [bribeOf, choiceVote_eq rnd20 v w hne hs, ofUndefinable, BigNumber.div, BigNumber.times,
    hV]

theorem recordOf_amounts (P V : ℚ) (hV : V ≠ 0) (t : ℕ) (votes : List Vote)
    (hne : ∀ v ∈ votes, v.choice ≠ [])
    (hsum : ∀ v ∈ votes, (v.choice.map Prod.snd).sum ≠ 0) :
    (votes.filterMap (recordOf rnd20 (fin P) (some (fin V)) t)).map
        (fun b => b.2.bribeAmount) =
      (votes.filterMap fun v => if v.vp = 0 then none else shareOf rnd20 t v).map
        fun c => fin (rnd20 (P * (rnd20 (c / V) * 100) / 100)) := by
  induction votes with
  | nil => rfl
  | cons v vs ih =>
    have ih1 := ih (fun x hx => hne x (List.mem_cons_of_mem _ hx))
      (fun x hx => hsum x (List.mem_cons_of_mem _ hx))
    have hn := hne v (List.mem_cons_self _ _)
    have hs := hsum v (List.mem_cons_self _ _)
    by_cases hvp : v.vp = 0
    · simp [List.filterMap_cons, recordOf, hvp]
      simpa [recordOf] using ih1
    · cases hg : getProp t v.choice with
      | none =>
        simp [List.filterMap_cons, recordOf, shareOf, hvp, hg]
        simpa [recordOf, shareOf] using ih1
      | some w =>
        simp only [List.filterMap_cons, recordOf, shareOf, hvp, hg, if_false, Option.map_some',
          List.map_cons, bribeOf_amount P V hV v w hn hs]
        congr 1

theorem redistribute_amounts (rnd : ℚ → ℚ) (ourChoicePercentage : Option BigNumber)
    (clawed : BigNumber) (bribes : List (String × Bribe)) :
    (redistribute rnd ourChoicePercentage clawed bribes).map (fun b => b.2.bribeAmount) =
      bribes.map fun b => b.2.bribeAmount := by
  unfold redistribute
  rw [List.map_map]
  rfl

/-! ## Claim on the allocation of the pool -/

/-- C4 as stated fails.  Three voters of power 1 each put their whole weight on
the bribed choice, which holds 100 per cent: the pool is 100000, every voter's
percentage is `1 / 3` rounded to 20 decimal places, times 100, every raw bribe
is 33333.333333333333333 and their sum is 99999.999999999999999, not the pool.
And in `protoVotes`, three votes of distinct addresses, the voter `__proto__`
has a voting power of 100000 on the bribed choice and no entry in `bribes`: the
one raw bribe, 66666.66666666666666675, is three quarters of the pool. -/
theorem raw_bribes_do_not_sum_to_pool :
    main rnd20 ["A (Ethereum)", "WBTC (Arbitrum)"]
        [Vote.mk "0x0a" 1 [(2, 1)], Vote.mk "0x0b" 1 [(2, 1)], Vote.mk "0x0c" 1 [(2, 1)]] =
      .ok (Output.mk [(2, fin 3)] (fin 3)
        [TotalsRow.mk (some "WBTC (Arbitrum)") (fin 3) (fin 100)] [("Arbitrum", fin 100)]
        (some (fin 3)) (some (fin 100)) (fin 100000) (fin 0)
        [("0x0a", BribeRecord.mk 1 (fin (33333333333333333333 / 10 ^ 18))
            (fin (33333333333333333333 / 10 ^ 15)) (fin 0)
            (fin (33333333333333333333 / 10 ^ 15)) (fin 1000)),
          ("0x0b", BribeRecord.mk 1 (fin (33333333333333333333 / 10 ^ 18))
            (fin (33333333333333333333 / 10 ^ 15)) (fin 0)
            (fin (33333333333333333333 / 10 ^ 15)) (fin 1000)),
          ("0x0c", BribeRecord.mk 1 (fin (33333333333333333333 / 10 ^ 18))
            (fin (33333333333333333333 / 10 ^ 15)) (fin 0)
            (fin (33333333333333333333 / 10 ^ 15)) (fin 1000))]
        (fin (99999999999999999999 / 10 ^ 15))) ∧
    BigNumber.sum [fin (33333333333333333333 / 10 ^ 15), fin (33333333333333333333 / 10 ^ 15),
        fin (33333333333333333333 / 10 ^ 15)] = fin (99999999999999999999 / 10 ^ 15) ∧
    fin (99999999999999999999 / 10 ^ 15) ≠ fin 100000 ∧
    main rnd20 scenarioChoices protoVotes = .ok protoOutput ∧
    (protoVotes.map Vote.voter).Nodup ∧
    protoVotes.map Vote.voter = ["__proto__", "0x02", "0x03"] ∧
    protoVotes.map Vote.vp = [100000, 300000, 50000] ∧
    protoVotes.map Vote.choice = [[(2, 1)], [(2, 1)], [(1, 1)]] ∧
    getProp "__proto__" protoOutput.bribes = none ∧
    protoOutput.totalBribe = fin (88888888888888888889 / 1000000000000000) ∧
    protoOutput.bribes.map (fun b => b.2.bribeAmount) =
      [fin (266666666666666666667 / 4000000000000000)] ∧
    (266666666666666666667 / 4000000000000000 : ℚ) ≠ 88888888888888888889 / 1000000000000000 := by
  refine ⟨by decide!, by decide!, by decide!, proto_main, by decide, rfl, rfl, rfl, by decide,
    rfl, rfl, by norm_num⟩

/-- C4, amended: take a completed run on votes with non-negative voting powers,
positive weights on at least one choice each and pairwise distinct voter
addresses, none of them `__proto__`, `t` being the one choice id that carries
the bribed label and the total `V` of that choice being non-zero.  Then the pool is the percentage of the
bribed choice times 1000; every vote of non-zero power with a weight on `t` has
an entry under its voter's address whose raw bribe is the pool times the
voter's percentage over 100, the percentage being the voter's share over `V`
times 100 (divisions by `div`); and the raw bribes are finite and their sum lies
within `n * (|pool| + 1) / (2 * 10^20)` of the pool, for `n` entries. -/
theorem raw_bribes_sum_near_pool (choices : List String) (votes : List Vote) (out : Output)
    (t : ℕ) (V : ℚ)
    (hvalid : ∀ v ∈ votes, 0 ≤ v.vp ∧ (v.choice.map Prod.fst).Nodup ∧ v.choice ≠ [] ∧
      ∀ e ∈ v.choice, 0 < e.2)
    (hvoters : (votes.map Vote.voter).Nodup)
    (hproto : ∀ v ∈ votes, v.voter ≠ "__proto__")
    (htracked : ∀ i, (getProposalChoices choices)[i]? = some OUR_BRIBED_CHOICE ↔ i = t)
    (hmain : main rnd20 choices votes = .ok out)
    (hV : out.ourChoiceVotes = some (fin V)) (hV0 : V ≠ 0) :
    ∃ p : ℚ, out.ourChoicePercentage = some (fin p) ∧ out.totalBribe = fin (p * 1000) ∧
      getProp t out.voteTotals = some (fin V) ∧
      (∀ v ∈ votes, v.vp ≠ 0 → ∀ w, getProp t v.choice = some w →
        ∃ r, (v.voter, r) ∈ out.bribes ∧
          r.bribeAmount =
            (out.totalBribe.times
              (((choiceVote rnd20 v w).div rnd20 (fin V)).times (fin 100))).div rnd20
              (fin 100)) ∧
      (∀ b ∈ out.bribes, b.2.bribeAmount.isFinite = true) ∧
      |(out.bribes.map fun b => b.2.bribeAmount.toRat).sum - p * 1000| ≤
        (out.bribes.length : ℚ) * ((|p * 1000| + 1) / (2 * 10 ^ 20)) := by
  have hkeys : ∀ v ∈ votes, (v.choice.map Prod.fst).Nodup := fun v hv => (hvalid v hv).2.1
  have hne : ∀ v ∈ votes, v.choice ≠ [] := fun v hv => (hvalid v hv).2.2.1
  have hsum : ∀ v ∈ votes, (v.choice.map Prod.snd).sum ≠ 0 := by
    intro v hv
    apply ne_of_gt
    apply List.sum_pos
    · intro x hx
      obtain ⟨e, he, rfl⟩ := List.mem_map.1 hx
      exact (hvalid v hv).2.2.2 e he
    · simpa using hne v hv
  obtain ⟨hvt, hours⟩ := ourChoiceVotes_of_main hmain
  obtain ⟨agg, hagg, _, hout⟩ := main_ok_inv hmain
  rcases hours with ⟨hnone, _, _⟩ | ⟨x, hx, hx1, hx2, hx3⟩
  · rw [hnone] at hV
    exact absurd hV (by simp)
  have hxt : x.1 = t := (htracked x.1).1 hx1
  have hxV : x.2 = fin V := by
    rw [hx2] at hV
    exact Option.some.inj hV
  have hgetV : getProp t (tally rnd20 votes) = some (fin V) := by
    rw [← hxt, ← hxV]
    exact getProp_tally_of_mem hx
  -- the total vote is a positive number
  have hnn := tally_nonneg votes hvalid hsum
  have hfin : ∀ y ∈ (tally rnd20 votes).map Prod.snd, y.isFinite = true := by
    intro y hy
    obtain ⟨z, hz, rfl⟩ := List.mem_map.1 hy
    obtain ⟨a, ha, _⟩ := hnn z hz
    rw [ha]
    rfl
  have htotal : out.totalVote = totalVoteOf (tally rnd20 votes) := by
    rw [hout]
    simp only [aggregate] at hagg
    split at hagg
    · exact absurd hagg (by simp)
    · simp only [Except.ok.injEq] at hagg
      rw [← hagg]
      rfl
  have hTeq : totalVoteOf (tally rnd20 votes) =
      fin (((tally rnd20 votes).map Prod.snd).map BigNumber.toRat).sum := by
    unfold totalVoteOf
    cases hl : (tally rnd20 votes).map Prod.snd with
    | nil =>
      have := List.mem_map_of_mem Prod.snd hx
      rw [hl] at this
      simp at this
    | cons y ys =>
      rw [sum_cons, sum_of_finite]
      rw [← hl]
      exact hfin
  have hVle : V ≤ (((tally rnd20 votes).map Prod.snd).map BigNumber.toRat).sum := by
    apply List.single_le_sum
    · intro a ha
      obtain ⟨y, hy, rfl⟩ := List.mem_map.1 ha
      obtain ⟨z, hz, rfl⟩ := List.mem_map.1 hy
      obtain ⟨b, hb, hb0⟩ := hnn z hz
      rw [hb]
      exact hb0
    · refine List.mem_map.2 ⟨x.2, List.mem_map_of_mem Prod.snd hx, ?_⟩
      rw [hxV]
      rfl
  have hVpos : 0 < V := by
    obtain ⟨b, hb, hb0⟩ := hnn x hx
    rw [hxV] at hb
    injection hb with hb
    rw [hb]
    rw [hb] at hV0
    exact lt_of_le_of_ne hb0 (Ne.symm hV0)
  have hT0 : (((tally rnd20 votes).map Prod.snd).map BigNumber.toRat).sum ≠ 0 :=
    ne_of_gt (lt_of_lt_of_le hVpos hVle)
  -- the percentage of the bribed choice and the pool
  have hp : out.ourChoicePercentage =
      some (fin (rnd20 (V / (((tally rnd20 votes).map Prod.snd).map BigNumber.toRat).sum) *
        100)) := by
    rw [hx3, htotal, hTeq, hxV, percentageOf_fin rnd20 _ V hT0]
  refine ⟨_, hp, ?_, ?_, ?_⟩
  · rw [hout] at hp ⊢
    simp only [distribute] at hp ⊢
    rw [hp]
    simp [totalBribeOf, ofUndefinable, QI_BRIBE_PER_ONE_PERCENT, BigNumber.times]
  · rw [hvt]
    exact hgetV
  -- the entries of `bribes`
  have hpool : out.totalBribe =
      fin (rnd20 (V / (((tally rnd20 votes).map Prod.snd).map BigNumber.toRat).sum) * 100 *
        1000) := by
    rw [hout] at hp ⊢
    simp only [distribute] at hp ⊢
    rw [hp]
    simp [totalBribeOf, ofUndefinable, QI_BRIBE_PER_ONE_PERCENT, BigNumber.times]
  generalize rnd20 (V / (((tally rnd20 votes).map Prod.snd).map BigNumber.toRat).sum) * 100 *
    1000 = P at hpool ⊢
  have hbribes : out.bribes =
      redistribute rnd20 out.ourChoicePercentage out.clawedBackWhaleBribeAmount
        (votes.filterMap (recordOf rnd20 (fin P) (some (fin V)) t)) := by
    have h1 : out.bribes =
        redistribute rnd20 out.ourChoicePercentage out.clawedBackWhaleBribeAmount
          (allocate rnd20 (getProposalChoices choices) out.totalBribe out.ourChoiceVotes
            votes) := by
      rw [hout]
      rfl
    rw [h1, allocate_eq htracked votes hkeys hvoters hproto, hpool, hV]
  have hamounts : out.bribes.map (fun b => b.2.bribeAmount) =
      (votes.filterMap fun v => if v.vp = 0 then none else shareOf rnd20 t v).map
        fun c => fin (rnd20 (P * (rnd20 (c / V) * 100) / 100)) := by
    rw [hbribes, redistribute_amounts, recordOf_amounts P V hV0 t votes hne hsum]
  refine ⟨?_, ?_, ?_⟩
  · intro v hv hvp w hw
    have hrec : recordOf rnd20 (fin P) (some (fin V)) t v =
        some (v.voter, bribeOf rnd20 (fin P) (some (fin V)) v w) := by
      simp [recordOf, hvp, hw]
    have hmem : (v.voter, bribeOf rnd20 (fin P) (some (fin V)) v w) ∈
        votes.filterMap (recordOf rnd20 (fin P) (some (fin V)) t) :=
      List.mem_filterMap.2 ⟨v, hv, hrec⟩
    refine ⟨adjust rnd20 out.ourChoicePercentage out.clawedBackWhaleBribeAmount v.voter
      (bribeOf rnd20 (fin P) (some (fin V)) v w), ?_, ?_⟩
    · rw [hbribes]
      exact List.mem_map.2 ⟨_, hmem, rfl⟩
    · rw [hpool]
      rfl
  · intro b hb
    have hmem : b.2.bribeAmount ∈ out.bribes.map (fun b => b.2.bribeAmount) :=
      List.mem_map.2 ⟨b, hb, rfl⟩
    rw [hamounts] at hmem
    obtain ⟨c, _, hc⟩ := List.mem_map.1 hmem
    rw [← hc]
    rfl
  · have hrat : (out.bribes.map fun b => b.2.bribeAmount.toRat) =
        (votes.filterMap fun v => if v.vp = 0 then none else shareOf rnd20 t v).map
          fun c => rnd20 (P * (rnd20 (c / V) * 100) / 100) := by
      have := congrArg (List.map BigNumber.toRat) hamounts
      simpa [List.map_map, Function.comp_def, BigNumber.toRat] using this
    have hlen : out.bribes.length =
        (votes.filterMap fun v => if v.vp = 0 then none else shareOf rnd20 t v).length := by
      have := congrArg List.length hamounts
      simpa using this
    have hshares : (votes.filterMap fun v =>
        if v.vp = 0 then none else shareOf rnd20 t v).sum = V := by
      rw [sum_shares_nonzero_vp]
      have hg := getProp_tally_fin rnd20 t votes hkeys hsum
      rw [hgetV] at hg
      split_ifs at hg
      simp only [Option.some.injEq] at hg
      injection hg with hg
      exact hg.symm
    have hb := sum_rounded_bribes P V
      (votes.filterMap fun v => if v.vp = 0 then none else shareOf rnd20 t v)
    rw [hshares, div_self hV0, mul_one] at hb
    rw [hrat, hlen]
    exact hb

/-- C4, at the scenario: V1 and V2 are the two entries, the pool is
88888.888888888888889, and the raw bribes add up to the pool within the bound. -/
theorem raw_bribes_sum_near_pool_witness :
    |(scenarioOutput.bribes.map fun b => b.2.bribeAmount.toRat).sum -
        88888888888888888889 / 1000000000000000000 * 1000| ≤
      (scenarioOutput.bribes.length : ℚ) *
        ((|(88888888888888888889 / 1000000000000000000 : ℚ) * 1000| + 1) / (2 * 10 ^ 20)) := by
  obtain ⟨p, h1, _, _, _, _, h3⟩ :=
    raw_bribes_sum_near_pool scenarioChoices scenarioVotes scenarioOutput 2 400000
      (by decide!) (by decide!) (by decide!)
      (by
        intro i
        constructor
        · intro h
          match i, h with
          | 0, h => exact absurd h (by decide)
          | 1, h => exact absurd h (by decide)
          | 2, _ => rfl
          | 3, h => exact absurd h (by decide)
          | n + 4, h => exact absurd h (by simp [getProposalChoices, scenarioChoices])
        · rintro rfl
          decide)
      scenario_main rfl (by norm_num)
  have hp : p = 88888888888888888889 / 1000000000000000000 := by
    have h : some (fin (88888888888888888889 / 1000000000000000000)) = some (fin p) := h1
    injection h with h
    injection h with h
    exact h.symm
  rw [hp] at h3
  exact h3

/-! ## Claim on choice ids without a label -/

theorem chainStep_error_of_label {rnd : ℚ → ℚ} {choicesDict : List String}
    {totalVote : BigNumber} {st : ChainState} {x : ℕ × BigNumber} {err : JsError}
    (h : choiceToChain choicesDict[x.1]? = .error err) :
    chainStep rnd choicesDict totalVote st x = .error err := by
  unfold chainStep
  simp only [h]

theorem chainLoop_error_of_mem {rnd : ℚ → ℚ} {choicesDict : List String}
    {totalVote : BigNumber} {l : List (ℕ × BigNumber)} {x : ℕ × BigNumber} {err : JsError}
    (hx : x ∈ l) (h : choiceToChain choicesDict[x.1]? = .error err) (st : ChainState) :
    chainLoop rnd choicesDict totalVote l st = .error .typeError := by
  induction l generalizing st with
  | nil => simp at hx
  | cons y ys ih =>
    unfold chainLoop
    cases hstep : chainStep rnd choicesDict totalVote st y with
    | error e2 =>
      simp only
      rw [chainStep_error hstep]
    | ok st1 =>
      simp only
      rcases List.mem_cons.1 hx with e | e
      · subst e
        rw [chainStep_error_of_label h] at hstep
        exact absurd hstep (by simp)
      · exact ih e st1

theorem mem_tally_of_entry (rnd : ℚ → ℚ) {votes : List Vote} {v : Vote} {e : ℕ × ℚ}
    (hv : v ∈ votes) (he : e ∈ v.choice) : ∃ x, (e.1, x) ∈ tally rnd votes := by
  have hne : contributions rnd e.1 votes ≠ [] :=
    List.ne_nil_of_mem (mem_contributions rnd hv he)
  have hget : getProp e.1 (tally rnd votes) =
      some ((none : Option BigNumber).getD 0 + (contributions rnd e.1 votes).sum) := by
    rw [getProp_tally, accumulate, if_neg hne]
  exact ⟨_, getProp_mem hget⟩

theorem choiceToChain_absent (choices : List String) (k : ℕ)
    (h : k = 0 ∨ choices.length < k) :
    choiceToChain (getProposalChoices choices)[k]? = .error .typeError := by
  rcases h with h | h
  · subst h
    simp only [getProposalChoices, List.getElem?_cons_zero]
    decide
  · have hnone : (getProposalChoices choices)[k]? = none := by
      apply List.getElem?_eq_none
      simp only [getProposalChoices, List.length_cons]
      omega
    rw [hnone]
    rfl

/-- C11: when a vote names a choice id that has no label, that is id 0 or an id
above the number of choices, the run stops with an error while the percentages
per chain are built (numbers of lines 178-195), before the threshold check
reads any of them, and so without bribes.  The error is the `TypeError` of
`choiceToChain`: for id 0 the label is the empty one of line 150, above the
number of choices it is `undefined`. -/
theorem absent_choice_aborts (rnd : ℚ → ℚ) (choices : List String) (votes : List Vote)
    (v : Vote) (e : ℕ × ℚ) (hv : v ∈ votes) (he : e ∈ v.choice)
    (habsent : e.1 = 0 ∨ choices.length < e.1) :
    aggregate rnd (getProposalChoices choices) votes = .error .typeError ∧
      main rnd choices votes = .error .typeError := by
  obtain ⟨x, hx⟩ := mem_tally_of_entry rnd hv he
  have hlabel := choiceToChain_absent choices e.1 habsent
  have hloop : chainLoop rnd (getProposalChoices choices) (totalVoteOf (tally rnd votes))
      (tally rnd votes) (ChainState.mk [] [] none none false) = .error .typeError :=
    chainLoop_error_of_mem hx hlabel _
  have hagg : aggregate rnd (getProposalChoices choices) votes = .error .typeError := by
    simp only [aggregate, hloop]
  exact ⟨hagg, by simp only [main, hagg]⟩

/-- C11, at the scenario with a fourth vote on choice id 4, one above the three
choices. -/
theorem absent_choice_aborts_witness :
    main rnd20 scenarioChoices (scenarioVotes ++ [Vote.mk "0x04" 10 [(4, 1)]]) =
      .error .typeError :=
  (absent_choice_aborts rnd20 scenarioChoices (scenarioVotes ++ [Vote.mk "0x04" 10 [(4, 1)]])
    (Vote.mk "0x04" 10 [(4, 1)]) (4, 1) (by simp) (by simp) (Or.inr (by decide))).2

/-! ## Claim on the scenario of section 8 -/

/-- C15 as stated fails.  In the scenario the pool is 88888.888888888888889, the
percentage of the bribed choice times 1000, and not about 8888.9; the raw
bribes, the clawed-back amount, the adjustment of V1 and the final bribes are
ten times the stated values as well.  The percentage of choice 2 is the quotient
rounded to 20 decimal places, 88.888888888888888889, and not 800/9. -/
theorem scenario_pool_not_8888 :
    main rnd20 scenarioChoices scenarioVotes = .ok scenarioOutput ∧
      scenarioOutput.totalBribe = fin (88888888888888888889 / 1000000000000000) ∧
      ¬ |(88888888888888888889 / 1000000000000000 : ℚ) - 8888.9| ≤ 0.05 ∧
      scenarioRecord1.bribeAmount = fin (88888888888888888889 / 4000000000000000) ∧
      ¬ |(88888888888888888889 / 4000000000000000 : ℚ) - 2222.2| ≤ 0.05 ∧
      scenarioOutput.ourChoicePercentage =
        some (fin (88888888888888888889 / 1000000000000000000)) ∧
      (88888888888888888889 / 1000000000000000000 : ℚ) ≠ 800 / 9 := by
  refine ⟨scenario_main, rfl, ?_, rfl, ?_, rfl, by norm_num⟩
  · rw [abs_le]
    norm_num
  · rw [abs_le]
    norm_num

/-- C15, amended: in the scenario the totals are 50000 for choice 1 and 400000
for choice 2, the total vote is 450000, the percentage of choice 2 is within 0.05
of 88.889, the check passes, the pool is within 0.05 of 88888.9, the raw bribes
of V1 and V2 of 22222.2 and 66666.7, the clawed-back amount of 66666.7, the final
bribe of V2 is 0, the adjustment of V1 is within 0.05 of 3333.3, and the final
bribe of V1 and the sum of the final bribes of 25555.6. -/
theorem scenario_values :
    main rnd20 scenarioChoices scenarioVotes = .ok scenarioOutput ∧
      scenarioOutput.voteTotals = [(1, fin 50000), (2, fin 400000)] ∧
      scenarioOutput.totalVote = fin 450000 ∧
      (∃ p, scenarioOutput.ourChoicePercentage = some (fin p) ∧ |p - 88.889| ≤ 0.05) ∧
      (∃ x, scenarioOutput.totalBribe = fin x ∧ |x - 88888.9| ≤ 0.05) ∧
      scenarioOutput.bribes = [("0x01", scenarioRecord1), ("0x02", scenarioRecord2)] ∧
      (∃ x, scenarioRecord1.bribeAmount = fin x ∧ |x - 22222.2| ≤ 0.05) ∧
      (∃ x, scenarioRecord2.bribeAmount = fin x ∧ |x - 66666.7| ≤ 0.05) ∧
      (∃ x, scenarioOutput.clawedBackWhaleBribeAmount = fin x ∧ |x - 66666.7| ≤ 0.05) ∧
      scenarioRecord2.totalBribe = fin 0 ∧
      (∃ x, scenarioRecord1.whaleAdjust = fin x ∧ |x - 3333.3| ≤ 0.05) ∧
      (∃ x, scenarioRecord1.totalBribe = fin x ∧ |x - 25555.6| ≤ 0.05) ∧
      (∃ x, scenarioOutput.sumBribes = fin x ∧ |x - 25555.6| ≤ 0.05) := by
  refine ⟨scenario_main, rfl, rfl, ⟨_, rfl, ?_⟩, ⟨_, rfl, ?_⟩, rfl, ⟨_, rfl, ?_⟩, ⟨_, rfl, ?_⟩,
    ⟨_, rfl, ?_⟩, rfl, ⟨_, rfl, ?_⟩, ⟨_, rfl, ?_⟩, ⟨_, rfl, ?_⟩⟩ <;>
  · rw [abs_le]
    norm_num

/-! ## Claim on the order of the votes -/

theorem eq_of_getProp_eq {α : Type} :
    ∀ (l1 l2 : List (ℕ × α)), (l1.map Prod.fst).Pairwise (· < ·) →
      (l2.map Prod.fst).Pairwise (· < ·) → (∀ k, getProp k l1 = getProp k l2) → l1 = l2
  | [], [], _, _, _ => rfl
  | [], (k, v) :: t, _, _, h => by
    have := h k
    simp [getProp] at this
  | (k, v) :: t, [], _, _, h => by
    have := h k
    simp [getProp] at this
  | (k1, v1) :: t1, (k2, v2) :: t2, h1, h2, h => by
    simp only [List.map_cons, List.pairwise_cons] at h1 h2
    have hk : k1 = k2 := by
      by_contra hne
      have a1 := h k1
      have a2 := h k2
      have hne2 : ¬ k2 = k1 := fun e => hne e.symm
      simp only [getProp, if_true, if_neg hne, if_neg hne2] at a1 a2
      have b1 := h2.1 k1 (List.mem_map_of_mem Prod.fst (getProp_mem a1.symm))
      have b2 := h1.1 k2 (List.mem_map_of_mem Prod.fst (getProp_mem a2))
      simp only at b1 b2
      omega
    subst hk
    have hv : v1 = v2 := by
      have a1 := h k1
      simpa [getProp] using a1
    subst hv
    have n1 : getProp k1 t1 = none :=
      (getProp_eq_none k1 t1).2 fun hm => lt_irrefl _ (h1.1 k1 hm)
    have n2 : getProp k1 t2 = none :=
      (getProp_eq_none k1 t2).2 fun hm => lt_irrefl _ (h2.1 k1 hm)
    have ht : t1 = t2 := by
      apply eq_of_getProp_eq t1 t2 h1.2 h2.2
      intro k
      by_cases hk : k = k1
      · rw [hk, n1, n2]
      · have := h k
        simpa [getProp, hk] using this
    rw [ht]

theorem contributions_perm (rnd : ℚ → ℚ) (c : ℕ) {votes1 votes2 : List Vote}
    (h : votes1.Perm votes2) :
    (contributions rnd c votes1).Perm (contributions rnd c votes2) := by
  induction h with
  | nil => exact List.Perm.refl _
  | cons v _ ih => exact List.Perm.append_left _ ih
  | swap v w l =>
    simp only [contributions]
    rw [← List.append_assoc, ← List.append_assoc]
    exact List.Perm.append_right _ List.perm_append_comm
  | trans _ _ ih1 ih2 => exact ih1.trans ih2

theorem accumulate_perm (o : Option BigNumber) {l1 l2 : List BigNumber} (h : l1.Perm l2) :
    accumulate o l1 = accumulate o l2 := by
  unfold accumulate
  by_cases h1 : l1 = []
  · subst h1
    rw [List.nil_perm.1 h]
  · have h2 : l2 ≠ [] := fun e => h1 (by
      subst e
      exact List.perm_nil.1 h)
    rw [if_neg h1, if_neg h2, h.sum_eq]

theorem tally_of_perm (rnd : ℚ → ℚ) {votes1 votes2 : List Vote} (h : votes1.Perm votes2) :
    tally rnd votes1 = tally rnd votes2 := by
  apply eq_of_getProp_eq _ _ (tally_keys_sorted rnd votes1) (tally_keys_sorted rnd votes2)
  intro k
  rw [getProp_tally, getProp_tally]
  exact accumulate_perm _ (contributions_perm rnd k h)

/-- C13: for two vote lists that are permutations of each other, the tally gives
the same `voteTotals`, hence the same total vote, the same rows of `totalsArr`
with their percentages, the same percentages per chain and the same error, if
any, while they are built; the threshold check then decides the same way, and a
run fails on one list exactly when it fails, with the same error, on the other. -/
theorem tally_order_independent (rnd : ℚ → ℚ) (choices : List String)
    (votes1 votes2 : List Vote) (h : votes1.Perm votes2) :
    tally rnd votes1 = tally rnd votes2 ∧
      totalVoteOf (tally rnd votes1) = totalVoteOf (tally rnd votes2) ∧
      aggregate rnd (getProposalChoices choices) votes1 =
        aggregate rnd (getProposalChoices choices) votes2 ∧
      (∀ err, main rnd choices votes1 = .error err ↔ main rnd choices votes2 = .error err) := by
  have ht := tally_of_perm rnd h
  have hagg : aggregate rnd (getProposalChoices choices) votes1 =
      aggregate rnd (getProposalChoices choices) votes2 := by
    simp only [aggregate, ht]
  refine ⟨ht, by rw [ht], hagg, ?_⟩
  intro err
  simp only [main, hagg]
  cases aggregate rnd (getProposalChoices choices) votes2 with
  | error e2 => simp
  | ok agg =>
    simp only
    cases gate agg.chains.percentagesByChain with
    | error e3 => simp
    | ok u => simp

/-- C13, at the scenario and its votes in reverse order. -/
theorem tally_order_independent_witness :
    tally rnd20 scenarioVotes.reverse = tally rnd20 scenarioVotes ∧
      aggregate rnd20 (getProposalChoices scenarioChoices) scenarioVotes.reverse =
        aggregate rnd20 (getProposalChoices scenarioChoices) scenarioVotes :=
  ⟨(tally_order_independent rnd20 scenarioChoices scenarioVotes.reverse scenarioVotes
      (List.reverse_perm scenarioVotes)).1,
    (tally_order_independent rnd20 scenarioChoices scenarioVotes.reverse scenarioVotes
      (List.reverse_perm scenarioVotes)).2.2.1⟩

/-! ## Claim on the entries of `bribes` per voter -/

theorem setProp_keys {κ α : Type} [DecidableEq κ] (k : κ) (v : α) (l : List (κ × α)) :
    (setProp k v l).map Prod.fst =
      if k ∈ l.map Prod.fst then l.map Prod.fst else l.map Prod.fst ++ [k] := by
  induction l with
  | nil => simp [setProp]
  | cons y t ih =>
    obtain ⟨k', v'⟩ := y
    by_cases h : k = k'
    · simp [setProp, h]
    · by_cases hm : k ∈ t.map Prod.fst
      · simp only [setProp, if_neg h, List.map_cons, ih, if_pos hm, List.mem_cons, hm, or_true,
          if_true]
      · simp only [setProp, if_neg h, List.map_cons, ih, if_neg hm, List.mem_cons, h, hm,
          or_self, if_false, List.cons_append]

theorem setProp_keys_nodup {κ α : Type} [DecidableEq κ] (k : κ) (v : α) {l : List (κ × α)}
    (h : (l.map Prod.fst).Nodup) : ((setProp k v l).map Prod.fst).Nodup := by
  rw [setProp_keys]
  split_ifs with hm
  · exact h
  · exact List.Nodup.append h (List.nodup_singleton k) (by simpa using hm)

theorem bribeEntries_keys_nodup {rnd : ℚ → ℚ} {choicesDict : List String}
    {totalBribe : BigNumber} {ourChoiceVotes : Option BigNumber} (v : Vote)
    (es : List (ℕ × ℚ)) (acc : List (String × Bribe)) (h : (acc.map Prod.fst).Nodup) :
    ((es.foldl (bribeEntry rnd choicesDict totalBribe ourChoiceVotes v) acc).map
      Prod.fst).Nodup := by
  induction es generalizing acc with
  | nil => exact h
  | cons e es ih =>
    rw [List.foldl_cons]
    apply ih
    unfold bribeEntry
    split_ifs
    · exact h
    · exact setProp_keys_nodup _ _ h
    · exact h

theorem allocate_keys_nodup (rnd : ℚ → ℚ) (choicesDict : List String) (totalBribe : BigNumber)
    (ourChoiceVotes : Option BigNumber) (votes : List Vote) :
    ((allocate rnd choicesDict totalBribe ourChoiceVotes votes).map Prod.fst).Nodup := by
  have key : ∀ (vs : List Vote) (acc : List (String × Bribe)), (acc.map Prod.fst).Nodup →
      ((vs.foldl (bribeVote rnd choicesDict totalBribe ourChoiceVotes) acc).map
        Prod.fst).Nodup := by
    intro vs
    induction vs with
    | nil =>
      intro acc h
      exact h
    | cons v vs ih =>
      intro acc h
      rw [List.foldl_cons]
      apply ih
      unfold bribeVote
      split_ifs
      · exact h
      · exact bribeEntries_keys_nodup v v.choice acc h
  exact key votes [] (by simp)

theorem bribeVote_keys_ne_proto {rnd : ℚ → ℚ} {choicesDict : List String}
    {totalBribe : BigNumber} {ourChoiceVotes : Option BigNumber} (v : Vote)
    (acc : List (String × Bribe)) (h : ∀ x ∈ acc, x.1 ≠ "__proto__") :
    ∀ x ∈ bribeVote rnd choicesDict totalBribe ourChoiceVotes acc v, x.1 ≠ "__proto__" := by
  have key : ∀ (es : List (ℕ × ℚ)) (acc : List (String × Bribe)),
      (∀ x ∈ acc, x.1 ≠ "__proto__") →
      ∀ x ∈ es.foldl (bribeEntry rnd choicesDict totalBribe ourChoiceVotes v) acc,
        x.1 ≠ "__proto__" := by
    intro es
    induction es with
    | nil =>
      intro acc hacc
      exact hacc
    | cons e es ih =>
      intro acc hacc
      rw [List.foldl_cons]
      apply ih
      unfold bribeEntry
      split_ifs with hc hp
      · exact hacc
      · intro x hx
        rcases mem_setProp hx with e1 | e1
        · rw [e1]
          exact hp
        · exact hacc x e1
      · exact hacc
  unfold bribeVote
  split_ifs
  · exact h
  · exact key v.choice acc h

/-- No entry of `bribes` is written under `__proto__`. -/
theorem allocate_keys_ne_proto (rnd : ℚ → ℚ) (choicesDict : List String)
    (totalBribe : BigNumber) (ourChoiceVotes : Option BigNumber) (votes : List Vote) :
    ∀ x ∈ allocate rnd choicesDict totalBribe ourChoiceVotes votes, x.1 ≠ "__proto__" := by
  have key : ∀ (vs : List Vote) (acc : List (String × Bribe)),
      (∀ x ∈ acc, x.1 ≠ "__proto__") →
      ∀ x ∈ vs.foldl (bribeVote rnd choicesDict totalBribe ourChoiceVotes) acc,
        x.1 ≠ "__proto__" := by
    intro vs
    induction vs with
    | nil =>
      intro acc hacc
      exact hacc
    | cons v vs ih =>
      intro acc hacc
      rw [List.foldl_cons]
      exact ih _ (bribeVote_keys_ne_proto v acc hacc)
  exact key votes [] (by simp)

theorem getProp_bribeEntries_other {rnd : ℚ → ℚ} {choicesDict : List String}
    {totalBribe : BigNumber} {ourChoiceVotes : Option BigNumber} (a : String) (v : Vote)
    (es : List (ℕ × ℚ)) (acc : List (String × Bribe))
    (h : a = v.voter → ∀ e ∈ es, choicesDict[e.1]? ≠ some OUR_BRIBED_CHOICE) :
    getProp a (es.foldl (bribeEntry rnd choicesDict totalBribe ourChoiceVotes v) acc) =
      getProp a acc := by
  induction es generalizing acc with
  | nil => rfl
  | cons e es ih =>
    rw [List.foldl_cons, ih _ fun ha x hx => h ha x (List.mem_cons_of_mem _ hx)]
    unfold bribeEntry
    split_ifs with hc hp
    · rfl
    · have hne : ¬ a = v.voter := fun ha => h ha e (List.mem_cons_self _ _) hc
      rw [getProp_setProp, if_neg hne]
    · rfl

theorem getProp_bribeVote_other {rnd : ℚ → ℚ} {choicesDict : List String}
    {totalBribe : BigNumber} {ourChoiceVotes : Option BigNumber} (a : String) (v : Vote)
    (acc : List (String × Bribe))
    (h : a = v.voter → v.vp ≠ 0 → ∀ e ∈ v.choice, choicesDict[e.1]? ≠ some OUR_BRIBED_CHOICE) :
    getProp a (bribeVote rnd choicesDict totalBribe ourChoiceVotes acc v) = getProp a acc := by
  unfold bribeVote
  split_ifs with hvp
  · rfl
  · exact getProp_bribeEntries_other a v v.choice acc fun ha => h ha hvp

theorem getProp_bribeVote_last {rnd : ℚ → ℚ} {choicesDict : List String}
    {totalBribe : BigNumber} {ourChoiceVotes : Option BigNumber} (v : Vote)
    (acc : List (String × Bribe)) (es1 es2 : List (ℕ × ℚ)) (e : ℕ × ℚ) (hvp : v.vp ≠ 0)
    (hproto : v.voter ≠ "__proto__")
    (hes : v.choice = es1 ++ e :: es2) (he : choicesDict[e.1]? = some OUR_BRIBED_CHOICE)
    (hlast : ∀ x ∈ es2, choicesDict[x.1]? ≠ some OUR_BRIBED_CHOICE) :
    getProp v.voter (bribeVote rnd choicesDict totalBribe ourChoiceVotes acc v) =
      some (bribeOf rnd totalBribe ourChoiceVotes v e.2) := by
  unfold bribeVote
  rw [if_neg hvp, hes, List.foldl_append, List.foldl_cons,
    getProp_bribeEntries_other v.voter v es2 _ fun _ => hlast]
  unfold bribeEntry
  rw [if_pos he, if_neg hproto, getProp_setProp, if_pos rfl]

theorem getProp_allocate_last {rnd : ℚ → ℚ} {choicesDict : List String}
    {totalBribe : BigNumber} {ourChoiceVotes : Option BigNumber} (v : Vote)
    (pre post : List Vote) (es1 es2 : List (ℕ × ℚ)) (e : ℕ × ℚ) (hvp : v.vp ≠ 0)
    (hproto : v.voter ≠ "__proto__")
    (hes : v.choice = es1 ++ e :: es2) (he : choicesDict[e.1]? = some OUR_BRIBED_CHOICE)
    (hlast : ∀ x ∈ es2, choicesDict[x.1]? ≠ some OUR_BRIBED_CHOICE)
    (hpost : ∀ x ∈ post, x.voter = v.voter → x.vp ≠ 0 →
      ∀ y ∈ x.choice, choicesDict[y.1]? ≠ some OUR_BRIBED_CHOICE) :
    getProp v.voter (allocate rnd choicesDict totalBribe ourChoiceVotes (pre ++ v :: post)) =
      some (bribeOf rnd totalBribe ourChoiceVotes v e.2) := by
  have key : ∀ (vs : List Vote) (acc : List (String × Bribe)),
      (∀ x ∈ vs, x.voter = v.voter → x.vp ≠ 0 →
        ∀ y ∈ x.choice, choicesDict[y.1]? ≠ some OUR_BRIBED_CHOICE) →
      getProp v.voter (vs.foldl (bribeVote rnd choicesDict totalBribe ourChoiceVotes) acc) =
        getProp v.voter acc := by
    intro vs
    induction vs with
    | nil =>
      intro acc _
      rfl
    | cons x xs ih =>
      intro acc hx
      rw [List.foldl_cons, ih _ fun y hy => hx y (List.mem_cons_of_mem _ hy)]
      exact getProp_bribeVote_other v.voter x acc fun ha =>
        hx x (List.mem_cons_self _ _) ha.symm
  unfold allocate
  rw [List.foldl_append, List.foldl_cons, key post _ hpost]
  exact getProp_bribeVote_last v _ es1 es2 e hvp hproto hes he hlast

theorem exists_last {α : Type} (p : α → Prop) [DecidablePred p] :
    ∀ (l : List α), (∃ x ∈ l, p x) →
      ∃ pre x post, l = pre ++ x :: post ∧ p x ∧ ∀ y ∈ post, ¬ p y
  | [], h => by
    obtain ⟨x, hx, _⟩ := h
    simp at hx
  | a :: l, h => by
    by_cases hl : ∃ x ∈ l, p x
    · obtain ⟨pre, x, post, e, hx, hpost⟩ := exists_last p l hl
      exact ⟨a :: pre, x, post, by rw [e, List.cons_append], hx, hpost⟩
    · obtain ⟨x, hx, hp⟩ := h
      rcases List.mem_cons.1 hx with e | e
      · subst e
        exact ⟨[], x, l, rfl, hp, fun y hy hpy => hl ⟨y, hy, hpy⟩⟩
      · exact absurd ⟨x, e, hp⟩ hl

theorem getProp_redistribute (rnd : ℚ → ℚ) (ocp : Option BigNumber) (clawed : BigNumber)
    (a : String) (bribes : List (String × Bribe)) :
    getProp a (redistribute rnd ocp clawed bribes) =
      (getProp a bribes).map (adjust rnd ocp clawed a) := by
  induction bribes with
  | nil => rfl
  | cons b bs ih =>
    obtain ⟨k, x⟩ := b
    by_cases h : a = k
    · subst h
      simp [redistribute, getProp]
    · have := ih
      simp only [redistribute] at this
      simp [redistribute, getProp, h, this]

theorem repeated_main : main rnd20 scenarioChoices repeatedVotes = .ok repeatedOutput := by
  decide!

/-- C12 as stated fails.  In `protoVotes` the first vote, of the address
`__proto__`, has a voting power of 100000 and its whole weight on the bribed
choice.  The run completes and `bribes` holds one entry, that of `0x02`, and
none for `__proto__`: the assignment of line 232 under that name replaces the
prototype of `bribes` and writes no entry. -/
theorem proto_voter_without_record :
    main rnd20 scenarioChoices protoVotes = .ok protoOutput ∧
      protoVotes.map Vote.voter = ["__proto__", "0x02", "0x03"] ∧
      protoVotes.map Vote.vp = [100000, 300000, 50000] ∧
      protoVotes.map Vote.choice = [[(2, 1)], [(2, 1)], [(1, 1)]] ∧
      (getProposalChoices scenarioChoices)[2]? = some OUR_BRIBED_CHOICE ∧
      protoOutput.bribes.map Prod.fst = ["0x02"] ∧
      getProp "__proto__" protoOutput.bribes = none :=
  ⟨proto_main, rfl, rfl, rfl, by decide, by decide, by decide⟩

/-- C12, amended: in a completed run `bribes` holds at most one entry per
address, none under `__proto__`, and one for any other address `a` exactly when
some vote of `a` has a voting power other than 0 and a weight on a choice
carrying the bribed label.  The entry of such a voter is the one lines 229-236
compute from the last such vote alone (from its last such weight, should two of
its choices carry the label), with the fields lines 252-258 add to that entry:
an earlier vote of the same address leaves no trace in it. -/
theorem one_record_per_voter (rnd : ℚ → ℚ) (choices : List String) (votes : List Vote)
    (out : Output) (h : main rnd choices votes = .ok out) :
    (out.bribes.map Prod.fst).Nodup ∧
      (∀ a, a ∈ out.bribes.map Prod.fst ↔
        a ≠ "__proto__" ∧ ∃ v ∈ votes, v.voter = a ∧ v.vp ≠ 0 ∧
          ∃ e ∈ v.choice, (getProposalChoices choices)[e.1]? = some OUR_BRIBED_CHOICE) ∧
      (∀ pre v post es1 e es2, votes = pre ++ v :: post → v.voter ≠ "__proto__" →
        v.vp ≠ 0 → v.choice = es1 ++ e :: es2 →
        (getProposalChoices choices)[e.1]? = some OUR_BRIBED_CHOICE →
        (∀ x ∈ es2, (getProposalChoices choices)[x.1]? ≠ some OUR_BRIBED_CHOICE) →
        (∀ x ∈ post, x.voter = v.voter → x.vp ≠ 0 →
          ∀ y ∈ x.choice, (getProposalChoices choices)[y.1]? ≠ some OUR_BRIBED_CHOICE) →
        getProp v.voter out.bribes =
          some (adjust rnd out.ourChoicePercentage out.clawedBackWhaleBribeAmount v.voter
            (bribeOf rnd out.totalBribe out.ourChoiceVotes v e.2))) := by
  obtain ⟨agg, _, _, hout⟩ := main_ok_inv h
  subst hout
  have hrec : ∀ pre v post es1 e es2, votes = pre ++ v :: post → v.voter ≠ "__proto__" →
      v.vp ≠ 0 → v.choice = es1 ++ e :: es2 →
      (getProposalChoices choices)[e.1]? = some OUR_BRIBED_CHOICE →
      (∀ x ∈ es2, (getProposalChoices choices)[x.1]? ≠ some OUR_BRIBED_CHOICE) →
      (∀ x ∈ post, x.voter = v.voter → x.vp ≠ 0 →
        ∀ y ∈ x.choice, (getProposalChoices choices)[y.1]? ≠ some OUR_BRIBED_CHOICE) →
      getProp v.voter (distribute rnd (getProposalChoices choices) votes agg).bribes =
        some (adjust rnd agg.chains.ourChoicePercentage
          (distribute rnd (getProposalChoices choices) votes agg).clawedBackWhaleBribeAmount
          v.voter
          (bribeOf rnd (totalBribeOf agg.chains.ourChoicePercentage) agg.chains.ourChoiceVotes
            v e.2)) := by
    intro pre v post es1 e es2 hvotes hproto hvp hes he hlast hpost
    show getProp v.voter (redistribute _ _ _ _) = _
    rw [getProp_redistribute, hvotes,
      getProp_allocate_last v pre post es1 es2 e hvp hproto hes he hlast hpost]
    rfl
  refine ⟨?_, ?_, hrec⟩
  · show ((redistribute _ _ _ _).map Prod.fst).Nodup
    have hkeys : ∀ (ocp : Option BigNumber) (c : BigNumber) (l : List (String × Bribe)),
        (redistribute rnd ocp c l).map Prod.fst = l.map Prod.fst := by
      intro ocp c l
      simp [redistribute]
    rw [hkeys]
    exact allocate_keys_nodup _ _ _ _ _
  · intro a
    constructor
    · intro ha
      obtain ⟨⟨i, r⟩, hr, hi⟩ := List.mem_map.1 ha
      simp only at hi
      subst hi
      obtain ⟨_, v, hv, e, he, hvoter, hvp, hc, _⟩ := mem_bribes_of_main h hr
      obtain ⟨b, hb, _⟩ := mem_redistribute hr
      exact ⟨allocate_keys_ne_proto _ _ _ _ _ _ hb, v, hv, hvoter, hvp, e, he, hc⟩
    · rintro ⟨hproto, v, hv, hvoter, hvp, e, he, hc⟩
      obtain ⟨pre, w, post, hvotes, ⟨hw1, hw2, hw3⟩, hpost⟩ :=
        exists_last
          (fun x : Vote => x.voter = a ∧ x.vp ≠ 0 ∧
            ∃ y ∈ x.choice, (getProposalChoices choices)[y.1]? = some OUR_BRIBED_CHOICE)
          votes ⟨v, hv, hvoter, hvp, e, he, hc⟩
      obtain ⟨es1, y, es2, hes, hy, hlast⟩ :=
        exists_last
          (fun y : ℕ × ℚ => (getProposalChoices choices)[y.1]? = some OUR_BRIBED_CHOICE)
          w.choice hw3
      have hget := hrec pre w post es1 y es2 hvotes (by rw [hw1]; exact hproto) hw2 hes hy hlast
        (fun x hx hxv hxvp z hz hzc => hpost x hx ⟨hxv.trans hw1, hxvp, z, hz, hzc⟩)
      rw [← hw1]
      exact List.mem_map_of_mem Prod.fst (getProp_mem hget)

/-- C12, amended, at the scenario preceded by an earlier vote of V1 with another
voting power: the entry of V1 is computed from the later vote, of voting power
100000. -/
theorem one_record_per_voter_witness :
    getProp "0x01" repeatedOutput.bribes =
      some (adjust rnd20 repeatedOutput.ourChoicePercentage
        repeatedOutput.clawedBackWhaleBribeAmount "0x01"
        (bribeOf rnd20 repeatedOutput.totalBribe repeatedOutput.ourChoiceVotes
          (Vote.mk "0x01" 100000 [(2, 1)]) 1)) :=
  (one_record_per_voter rnd20 scenarioChoices repeatedVotes repeatedOutput repeated_main).2.2
    [Vote.mk "0x01" 40000 [(2, 1)]] (Vote.mk "0x01" 100000 [(2, 1)])
    [Vote.mk "0x02" 300000 [(2, 1)], Vote.mk "0x03" 50000 [(1, 1)]] [] (2, 1) []
    rfl (by decide) (by norm_num) rfl (by decide) (by simp) (by decide)

/-! ## The total vote -/

theorem sum_toRat_setIndex (k : ℕ) (v : BigNumber) (l : List (ℕ × BigNumber))
    (h : (l.map Prod.fst).Pairwise (· < ·)) :
    ((setIndex k v l).map fun c => c.2.toRat).sum =
      (l.map fun c => c.2.toRat).sum - ((getProp k l).getD 0).toRat + v.toRat := by
  induction l with
  | nil => simp [setIndex, getProp, zero_def, BigNumber.toRat]
  | cons y t ih =>
    obtain ⟨k', w⟩ := y
    simp only [List.map_cons, List.pairwise_cons] at h
    unfold setIndex
    split_ifs with hlt heq
    · have hnone : getProp k ((k', w) :: t) = none := by
        rw [getProp_eq_none]
        simp only [List.map_cons, List.mem_cons, not_or]
        exact ⟨ne_of_lt hlt, fun hm => absurd (h.1 k hm) (by omega)⟩
      rw [hnone]
      simp [zero_def, BigNumber.toRat]
      ring
    · subst heq
      simp [getProp]
      ring
    · simp [getProp, heq, ih h.2]
      ring

theorem tallyEntry_keys_sorted (rnd : ℚ → ℚ) (v : Vote) (e : ℕ × ℚ)
    (vt : List (ℕ × BigNumber)) (hvt : (vt.map Prod.fst).Pairwise (· < ·)) :
    ((tallyEntry rnd v vt e).map Prod.fst).Pairwise (· < ·) := by
  unfold tallyEntry
  simp only
  apply setIndex_keys_sorted
  split_ifs
  · exact setIndex_keys_sorted _ _ _ hvt
  · exact hvt

theorem tallyEntry_total {rnd : ℚ → ℚ} {vote : Vote} {vt : List (ℕ × BigNumber)}
    {e : ℕ × ℚ} (hs : (vt.map Prod.fst).Pairwise (· < ·))
    (hvt : ∀ x ∈ vt, x.2.isFinite = true)
    (hcv : (choiceVote rnd vote e.2).isFinite = true) :
    ((tallyEntry rnd vote vt e).map fun c => c.2.toRat).sum =
      (vt.map fun c => c.2.toRat).sum + (choiceVote rnd vote e.2).toRat := by
  unfold tallyEntry
  simp only
  cases hg : getProp e.1 vt with
  | none =>
    simp only [Option.isNone_none, if_true]
    rw [sum_toRat_setIndex _ _ _ (setIndex_keys_sorted _ _ _ hs), sum_toRat_setIndex _ _ _ hs,
      getProp_setIndex, if_pos rfl, hg, sum_pair]
    have h0 : (fin 0 : BigNumber).isFinite = true := rfl
    have e0 : (fin 0 : BigNumber).toRat = 0 := rfl
    have e1 : ofUndefinable (some (fin 0)) = fin 0 := rfl
    rw [e1, toRat_add h0 hcv, Option.getD_none, Option.getD_some, zero_def, e0]
    ring
  | some y =>
    simp only [Option.isNone_some, Bool.false_eq_true, if_false]
    rw [sum_toRat_setIndex _ _ _ hs, hg, sum_pair]
    have hy : y.isFinite = true := hvt _ (getProp_mem hg)
    have e1 : ofUndefinable (some y) = y := rfl
    rw [e1, toRat_add hy hcv, Option.getD_some]
    ring

/-- The sum of the values lines 168-169 add for the votes, entry by entry. -/
theorem tally_total (rnd : ℚ → ℚ) (votes : List Vote)
    (hsum : ∀ v ∈ votes, (v.choice.map Prod.snd).sum ≠ 0) :
    ((tally rnd votes).map fun c => c.2.toRat).sum =
      (votes.map fun v =>
        (v.choice.map fun e => rnd (v.vp * e.2 / (v.choice.map Prod.snd).sum)).sum).sum := by
  have entries : ∀ (v : Vote), (v.choice.map Prod.snd).sum ≠ 0 →
      ∀ (es : List (ℕ × ℚ)), (∀ e ∈ es, e ∈ v.choice) →
      ∀ vt : List (ℕ × BigNumber), (vt.map Prod.fst).Pairwise (· < ·) →
      (∀ x ∈ vt, x.2.isFinite = true) →
      ((es.foldl (tallyEntry rnd v) vt).map Prod.fst).Pairwise (· < ·) ∧
      (∀ x ∈ es.foldl (tallyEntry rnd v) vt, x.2.isFinite = true) ∧
      ((es.foldl (tallyEntry rnd v) vt).map fun c => c.2.toRat).sum =
        (vt.map fun c => c.2.toRat).sum +
          (es.map fun e => rnd (v.vp * e.2 / (v.choice.map Prod.snd).sum)).sum := by
    intro v hs es
    induction es with
    | nil =>
      intro _ vt hsorted hvt
      exact ⟨hsorted, hvt, by simp⟩
    | cons e es ih =>
      intro hes vt hsorted hvt
      have hne : v.choice ≠ [] := List.ne_nil_of_mem (hes e (List.mem_cons_self _ _))
      have hcv := choiceVote_eq rnd v e.2 hne hs
      have hfin : (choiceVote rnd v e.2).isFinite = true := by
        rw [hcv]
        rfl
      obtain ⟨h1, h2, h3⟩ := ih (fun e' he' => hes e' (List.mem_cons_of_mem _ he'))
        (tallyEntry rnd v vt e) (tallyEntry_keys_sorted rnd v e vt hsorted)
        (tallyEntry_finite hvt hfin)
      refine ⟨h1, h2, ?_⟩
      rw [List.foldl_cons, h3, tallyEntry_total hsorted hvt hfin, hcv]
      simp only [BigNumber.toRat, List.map_cons, List.sum_cons]
      ring
  have key : ∀ (vs : List Vote), (∀ v ∈ vs, (v.choice.map Prod.snd).sum ≠ 0) →
      ∀ vt : List (ℕ × BigNumber), (vt.map Prod.fst).Pairwise (· < ·) →
      (∀ x ∈ vt, x.2.isFinite = true) →
      ((vs.foldl (tallyVote rnd) vt).map fun c => c.2.toRat).sum =
        (vt.map fun c => c.2.toRat).sum +
          (vs.map fun v =>
            (v.choice.map fun e => rnd (v.vp * e.2 / (v.choice.map Prod.snd).sum)).sum).sum := by
    intro vs
    induction vs with
    | nil =>
      intro _ vt _ _
      simp
    | cons v vs ih =>
      intro hs vt hsorted hvt
      obtain ⟨h1, h2, h3⟩ := entries v (hs v (List.mem_cons_self _ _)) v.choice
        (fun _ h => h) vt hsorted hvt
      have hv : tallyVote rnd vt v = v.choice.foldl (tallyEntry rnd v) vt := rfl
      rw [List.foldl_cons, hv, ih (fun v' hv' => hs v' (List.mem_cons_of_mem _ hv')) _ h1 h2, h3]
      simp only [List.map_cons, List.sum_cons]
      ring
  have := key votes hsum [] (by simp) (by simp)
  simpa [tally] using this

theorem totalVoteOf_eq (rnd : ℚ → ℚ) (votes : List Vote)
    (hsum : ∀ v ∈ votes, (v.choice.map Prod.snd).sum ≠ 0) (hne : tally rnd votes ≠ []) :
    totalVoteOf (tally rnd votes) = fin ((tally rnd votes).map fun c => c.2.toRat).sum := by
  unfold totalVoteOf
  have hfin := tally_finite rnd votes hsum
  cases hl : tally rnd votes with
  | nil => exact absurd hl hne
  | cons x xs =>
    rw [hl] at hfin
    rw [List.map_cons, sum_cons, ← List.map_cons, sum_of_finite, List.map_map]
    · rfl
    · intro y hy
      obtain ⟨z, hz, rfl⟩ := List.mem_map.1 hy
      exact hfin z hz

theorem sum_exact_shares (vp : ℚ) (es : List (ℕ × ℚ)) (W : ℚ) :
    (es.map fun e => vp * e.2 / W).sum = vp * (es.map Prod.snd).sum / W := by
  induction es with
  | nil => simp
  | cons e es ih =>
    simp only [List.map_cons, List.sum_cons, ih]
    ring

/-- C18 as stated fails for the empty vote list, which meets the condition on
every vote: `voteTotals` stays empty, `BigNumber.sum` of no arguments on line 173
is `NaN`, and the sum of no voting powers is 0.  (The run then stops at the
threshold check.) -/
theorem total_vote_of_no_votes :
    totalVoteOf (tally id []) = nan ∧
      (nan : BigNumber) ≠ fin (([] : List Vote).map Vote.vp).sum ∧
      main id scenarioChoices [] = .error .typeError := by
  refine ⟨rfl, by simp, by decide!⟩

/-- C18, amended: with divisions exact, when there is at least one vote and every
vote has a non-empty choice mapping whose weights sum to a non-zero value,
`totalVote` is the sum of the voting powers of all votes, also as a completed
run reports it. -/
theorem total_vote_eq_sum_vp (choices : List String) (votes : List Vote)
    (hvotes : votes ≠ [])
    (hw : ∀ v ∈ votes, v.choice ≠ [] ∧ (v.choice.map Prod.snd).sum ≠ 0) :
    totalVoteOf (tally id votes) = fin (votes.map Vote.vp).sum ∧
      ∀ out, main id choices votes = .ok out → out.totalVote = fin (votes.map Vote.vp).sum := by
  have hsum : ∀ v ∈ votes, (v.choice.map Prod.snd).sum ≠ 0 := fun v hv => (hw v hv).2
  have hne : tally id votes ≠ [] := by
    obtain ⟨v, hv⟩ := List.exists_mem_of_ne_nil votes hvotes
    obtain ⟨e, he⟩ := List.exists_mem_of_ne_nil v.choice (hw v hv).1
    obtain ⟨x, hx⟩ := mem_tally_of_entry id hv he
    exact List.ne_nil_of_mem hx
  have htotal : totalVoteOf (tally id votes) = fin (votes.map Vote.vp).sum := by
    rw [totalVoteOf_eq id votes hsum hne, tally_total id votes hsum]
    congr 2
    apply List.map_congr_left
    intro v hv
    simp only [id]
    rw [sum_exact_shares, mul_div_assoc, div_self (hsum v hv), mul_one]
  refine ⟨htotal, ?_⟩
  intro out hout
  obtain ⟨agg, hagg, _, rfl⟩ := main_ok_inv hout
  simp only [aggregate] at hagg
  split at hagg
  · exact absurd hagg (by simp)
  · simp only [Except.ok.injEq] at hagg
    subst hagg
    exact htotal

/-- C18, amended, at the scenario: the total vote is 100000 + 300000 + 50000. -/
theorem total_vote_eq_sum_vp_witness :
    totalVoteOf (tally id scenarioVotes) = fin 450000 := by
  have h := (total_vote_eq_sum_vp scenarioChoices scenarioVotes (List.cons_ne_nil _ _)
    (by decide!)).1
  have e : (scenarioVotes.map Vote.vp).sum = 450000 := by decide!
  rw [e] at h
  exact h

/-! ## Claim on the display order of the totals -/

theorem sortInsert_perm {α : Type} (comparefn : α → α → ℤ) (x : α) (l : List α) :
    (sortInsert comparefn x l).Perm (x :: l) := by
  induction l with
  | nil => exact List.Perm.refl _
  | cons y ys ih =>
    unfold sortInsert
    split_ifs
    · exact List.Perm.refl _
    · exact (List.Perm.cons y ih).trans (List.Perm.swap x y ys)

theorem arraySort_perm {α : Type} (comparefn : α → α → ℤ) (l : List α) :
    (arraySort comparefn l).Perm l := by
  have key : ∀ (xs acc : List α),
      (xs.foldl (fun acc x => sortInsert comparefn x acc) acc).Perm (acc ++ xs) := by
    intro xs
    induction xs with
    | nil =>
      intro acc
      simp
    | cons x xs ih =>
      intro acc
      rw [List.foldl_cons]
      refine (ih _).trans ?_
      refine (List.Perm.append_right xs (sortInsert_perm comparefn x acc)).trans ?_
      have hmid : (acc ++ x :: xs).Perm (x :: (acc ++ xs)) := List.perm_middle
      simpa using hmid.symm
  simpa [arraySort] using key l []

theorem compareVotes_neg {a b : TotalsRow} (ha : a.votes.isFinite = true)
    (hb : b.votes.isFinite = true) :
    compareVotes a b < 0 ↔ b.votes.toRat < a.votes.toRat := by
  obtain ⟨x, hx⟩ := (isFinite_iff a.votes).1 ha
  obtain ⟨y, hy⟩ := (isFinite_iff b.votes).1 hb
  unfold compareVotes
  rw [hx, hy]
  by_cases h : y < x <;> simp [BigNumber.gt, BigNumber.lt, BigNumber.toRat, h]

theorem toRat_injective {x y : BigNumber} (hx : x.isFinite = true) (hy : y.isFinite = true)
    (h : x.toRat = y.toRat) : x = y := by
  obtain ⟨a, rfl⟩ := (isFinite_iff x).1 hx
  obtain ⟨b, rfl⟩ := (isFinite_iff y).1 hy
  simp only [BigNumber.toRat] at h
  rw [h]

theorem sortInsert_sorted (x : TotalsRow) (l : List TotalsRow)
    (hx : x.votes.isFinite = true) (hl : ∀ r ∈ l, r.votes.isFinite = true)
    (hs : l.Pairwise fun a b => b.votes.toRat ≤ a.votes.toRat) :
    (sortInsert compareVotes x l).Pairwise fun a b => b.votes.toRat ≤ a.votes.toRat := by
  induction l with
  | nil => simp [sortInsert]
  | cons y ys ih =>
    have hy := hl y (List.mem_cons_self _ _)
    have hys : ∀ r ∈ ys, r.votes.isFinite = true := fun r hr => hl r (List.mem_cons_of_mem _ hr)
    rw [List.pairwise_cons] at hs
    unfold sortInsert
    split_ifs with hc
    · rw [compareVotes_neg hx hy] at hc
      refine List.Pairwise.cons ?_ (List.Pairwise.cons hs.1 hs.2)
      intro z hz
      rcases List.mem_cons.1 hz with e | e
      · rw [e]
        exact le_of_lt hc
      · exact le_trans (hs.1 z e) (le_of_lt hc)
    · rw [compareVotes_neg hx hy, not_lt] at hc
      refine List.Pairwise.cons ?_ (ih hys hs.2)
      intro z hz
      rcases List.mem_cons.1 ((sortInsert_perm compareVotes x ys).subset hz) with e | e
      · rw [e]
        exact hc
      · exact hs.1 z e

theorem sortInsert_filter (x : TotalsRow) (l : List TotalsRow)
    (hx : x.votes.isFinite = true) (hl : ∀ r ∈ l, r.votes.isFinite = true)
    (hs : l.Pairwise fun a b => b.votes.toRat ≤ a.votes.toRat) (c : BigNumber) :
    (sortInsert compareVotes x l).filter (fun r => r.votes = c) =
      l.filter (fun r => r.votes = c) ++ [x].filter (fun r => r.votes = c) := by
  induction l with
  | nil => simp [sortInsert]
  | cons y ys ih =>
    have hy := hl y (List.mem_cons_self _ _)
    have hys : ∀ r ∈ ys, r.votes.isFinite = true := fun r hr => hl r (List.mem_cons_of_mem _ hr)
    rw [List.pairwise_cons] at hs
    unfold sortInsert
    split_ifs with hc
    · rw [compareVotes_neg hx hy] at hc
      by_cases hxc : x.votes = c
      · have hnone : (y :: ys).filter (fun r => r.votes = c) = [] := by
          rw [List.filter_eq_nil_iff]
          intro z hz hzc
          have hzc2 : z.votes = x.votes := by
            rw [hxc]
            simpa using hzc
          have hle : z.votes.toRat ≤ y.votes.toRat := by
            rcases List.mem_cons.1 hz with e | e
            · rw [e]
            · exact hs.1 z e
          rw [hzc2] at hle
          exact absurd hc (not_lt.2 hle)
        rw [hnone]
        simp [List.filter_cons, hxc, hnone]
      · simp [List.filter_cons, hxc]
    · rw [show (y :: sortInsert compareVotes x ys) = [y] ++ sortInsert compareVotes x ys from rfl,
        List.filter_append, ih hys hs.2,
        show (y :: ys) = [y] ++ ys from rfl, List.filter_append, List.append_assoc]

theorem arraySort_sorted (l : List TotalsRow) (hl : ∀ r ∈ l, r.votes.isFinite = true) :
    ((sortTotals l).Pairwise fun a b => b.votes.toRat ≤ a.votes.toRat) ∧
      ∀ c, (sortTotals l).filter (fun r => r.votes = c) = l.filter (fun r => r.votes = c) := by
  have key : ∀ (xs acc : List TotalsRow), (∀ r ∈ xs, r.votes.isFinite = true) →
      (∀ r ∈ acc, r.votes.isFinite = true) →
      (acc.Pairwise fun a b => b.votes.toRat ≤ a.votes.toRat) →
      ((xs.foldl (fun acc x => sortInsert compareVotes x acc) acc).Pairwise
        fun a b => b.votes.toRat ≤ a.votes.toRat) ∧
      ∀ c, (xs.foldl (fun acc x => sortInsert compareVotes x acc) acc).filter
          (fun r => r.votes = c) =
        acc.filter (fun r => r.votes = c) ++ xs.filter (fun r => r.votes = c) := by
    intro xs
    induction xs with
    | nil =>
      intro acc _ _ hs
      exact ⟨hs, by simp⟩
    | cons x xs ih =>
      intro acc hxs hacc hs
      have hx := hxs x (List.mem_cons_self _ _)
      have hfin : ∀ r ∈ sortInsert compareVotes x acc, r.votes.isFinite = true := by
        intro r hr
        rcases List.mem_cons.1 ((sortInsert_perm compareVotes x acc).subset hr) with e | e
        · rw [e]
          exact hx
        · exact hacc r e
      obtain ⟨h1, h2⟩ := ih (sortInsert compareVotes x acc)
        (fun r hr => hxs r (List.mem_cons_of_mem _ hr)) hfin (sortInsert_sorted x acc hx hacc hs)
      refine ⟨h1, ?_⟩
      intro c
      rw [List.foldl_cons, h2 c, sortInsert_filter x acc hx hacc hs c,
        show (x :: xs) = [x] ++ xs from rfl, List.filter_append, List.append_assoc]
  have := key l [] hl (by simp) List.Pairwise.nil
  simpa [sortTotals, arraySort] using this

theorem chainLoop_totalsArr {rnd : ℚ → ℚ} {choicesDict : List String} {totalVote : BigNumber}
    {l : List (ℕ × BigNumber)} {st st1 : ChainState}
    (h : chainLoop rnd choicesDict totalVote l st = .ok st1) :
    st1.totalsArr =
      st.totalsArr ++
        l.map (fun x => TotalsRow.mk choicesDict[x.1]? x.2 (percentageOf rnd totalVote x.2)) := by
  induction l generalizing st with
  | nil =>
    simp only [chainLoop, Except.ok.injEq] at h
    subst h
    simp
  | cons x xs ih =>
    unfold chainLoop at h
    split at h
    · exact absurd h (by simp)
    · next st2 hstep =>
      obtain ⟨_, _, harr, _⟩ := chainStep_ok hstep
      rw [ih h, harr]
      simp

theorem aggregate_totalsArr {rnd : ℚ → ℚ} {choicesDict : List String} {votes : List Vote}
    {agg : Aggregated} (h : aggregate rnd choicesDict votes = .ok agg) :
    agg.voteTotals = tally rnd votes ∧
      agg.totalVote = totalVoteOf (tally rnd votes) ∧
      agg.chains.totalsArr =
        agg.voteTotals.map
          (fun x => TotalsRow.mk choicesDict[x.1]? x.2 (percentageOf rnd agg.totalVote x.2)) := by
  simp only [aggregate] at h
  split at h
  · exact absurd h (by simp)
  · next st hst =>
    simp only [Except.ok.injEq] at h
    subst h
    refine ⟨rfl, rfl, ?_⟩
    rw [chainLoop_totalsArr hst]
    simp

/-- C14: when every vote's weights have a non-zero sum, the rows of `totalsArr`
as line 197 leaves them are a permutation of the rows pushed, no row stands
behind a row with a smaller amount, and the rows of one amount stand as they were
pushed, which is in ascending order of their choice ids: `voteTotals` is read in
ascending order of its keys, one row per key. -/
theorem displayed_totals_order (rnd : ℚ → ℚ) (choicesDict : List String) (votes : List Vote)
    (agg : Aggregated) (hsum : ∀ v ∈ votes, (v.choice.map Prod.snd).sum ≠ 0)
    (h : aggregate rnd choicesDict votes = .ok agg) :
    (sortTotals agg.chains.totalsArr).Perm agg.chains.totalsArr ∧
      ((sortTotals agg.chains.totalsArr).Pairwise fun a b =>
        a.votes.gt b.votes = true ∨ a.votes = b.votes) ∧
      (agg.voteTotals.map Prod.fst).Pairwise (· < ·) ∧
      ∀ c, (sortTotals agg.chains.totalsArr).filter (fun r => r.votes = c) =
        (agg.voteTotals.filter fun x => x.2 = c).map
          (fun x => TotalsRow.mk choicesDict[x.1]? x.2 (percentageOf rnd agg.totalVote x.2)) := by
  obtain ⟨hvt, _, harr⟩ := aggregate_totalsArr h
  have hfin : ∀ r ∈ agg.chains.totalsArr, r.votes.isFinite = true := by
    intro r hr
    rw [harr] at hr
    obtain ⟨x, hx, rfl⟩ := List.mem_map.1 hr
    rw [hvt] at hx
    exact tally_finite rnd votes hsum x hx
  obtain ⟨hsorted, hfilter⟩ := arraySort_sorted agg.chains.totalsArr hfin
  have hperm := arraySort_perm compareVotes agg.chains.totalsArr
  refine ⟨hperm, ?_, ?_, ?_⟩
  · have hmem : ∀ r ∈ sortTotals agg.chains.totalsArr, r.votes.isFinite = true :=
      fun r hr => hfin r (hperm.subset hr)
    refine (List.Pairwise.and_mem.1 hsorted).imp ?_
    rintro a b ⟨ha, hb, hle⟩
    rcases lt_or_eq_of_le hle with hlt | heq
    · left
      obtain ⟨x, hx⟩ := (isFinite_iff a.votes).1 (hmem a ha)
      obtain ⟨y, hy⟩ := (isFinite_iff b.votes).1 (hmem b hb)
      rw [hx, hy] at hlt ⊢
      simpa [BigNumber.gt, BigNumber.lt, BigNumber.toRat] using hlt
    · right
      exact (toRat_injective (hmem b hb) (hmem a ha) heq).symm
  · rw [hvt]
    exact tally_keys_sorted rnd votes
  · intro c
    rw [hfilter c, harr, List.filter_map]
    rfl

/-- C14, at the scenario, where choice 1 holds 50000 and choice 2 holds 400000:
the row of choice 2 is displayed first. -/
theorem displayed_totals_order_witness :
    (sortTotals scenarioOutput.totalsArr).Perm scenarioOutput.totalsArr ∧
      (sortTotals scenarioOutput.totalsArr).map TotalsRow.choice =
        [some "WBTC (Arbitrum)", some "A (Ethereum)"] :=
  ⟨(displayed_totals_order rnd20 (getProposalChoices scenarioChoices) scenarioVotes
      (Aggregated.mk scenarioOutput.voteTotals scenarioOutput.totalVote
        (ChainState.mk scenarioOutput.totalsArr scenarioOutput.percentagesByChain
          scenarioOutput.ourChoiceVotes scenarioOutput.ourChoicePercentage false))
      (by decide!) (by decide!)).1, by decide!⟩

/-! ## Runs on valid votes -/

theorem weights_sum_ne_zero {votes : List Vote}
    (hvalid : ∀ v ∈ votes, 0 ≤ v.vp ∧ (v.choice.map Prod.fst).Nodup ∧ v.choice ≠ [] ∧
      ∀ e ∈ v.choice, 0 < e.2) :
    ∀ v ∈ votes, (v.choice.map Prod.snd).sum ≠ 0 := by
  intro v hv
  apply ne_of_gt
  apply List.sum_pos
  · intro x hx
    obtain ⟨e, he, rfl⟩ := List.mem_map.1 hx
    exact (hvalid v hv).2.2.2 e he
  · simpa using (hvalid v hv).2.2.1

theorem share_nonneg {v : Vote} {w : ℚ} (hvp : 0 ≤ v.vp) (hw : ∀ e ∈ v.choice, 0 < e.2)
    (hmem : ∃ k, (k, w) ∈ v.choice) : 0 ≤ v.vp * w / (v.choice.map Prod.snd).sum := by
  obtain ⟨k, hk⟩ := hmem
  have hw0 : 0 < w := hw _ hk
  have hs : 0 ≤ (v.choice.map Prod.snd).sum := by
    apply List.sum_nonneg
    intro x hx
    obtain ⟨e, he, rfl⟩ := List.mem_map.1 hx
    exact le_of_lt (hw e he)
  positivity

theorem shareOf_nonneg_of {rnd : ℚ → ℚ} (hnn : ∀ q, 0 ≤ q → 0 ≤ rnd q) {c : ℕ} {v : Vote}
    {a : ℚ} (hvp : 0 ≤ v.vp) (hw : ∀ e ∈ v.choice, 0 < e.2) (h : shareOf rnd c v = some a) :
    0 ≤ a := by
  unfold shareOf at h
  cases hg : getProp c v.choice with
  | none => simp [hg] at h
  | some w =>
    simp only [hg, Option.map_some', Option.some.injEq] at h
    rw [← h]
    exact hnn _ (share_nonneg hvp hw ⟨c, getProp_mem hg⟩)

theorem tally_nonneg_of {rnd : ℚ → ℚ} (hnn : ∀ q, 0 ≤ q → 0 ≤ rnd q) (votes : List Vote)
    (hvalid : ∀ v ∈ votes, 0 ≤ v.vp ∧ (v.choice.map Prod.fst).Nodup ∧ v.choice ≠ [] ∧
      ∀ e ∈ v.choice, 0 < e.2) :
    ∀ y ∈ tally rnd votes, ∃ a, y.2 = fin a ∧ 0 ≤ a := by
  intro y hy
  have hg := getProp_tally_of_mem hy
  rw [getProp_tally_fin rnd y.1 votes (fun v hv => (hvalid v hv).2.1)
    (weights_sum_ne_zero hvalid)] at hg
  split_ifs at hg
  simp only [Option.some.injEq] at hg
  refine ⟨_, hg.symm, ?_⟩
  apply List.sum_nonneg
  intro a ha
  obtain ⟨v, hv, hsh⟩ := List.mem_filterMap.1 ha
  exact shareOf_nonneg_of hnn (hvalid v hv).1 (hvalid v hv).2.2.2 hsh

theorem sum_shares_nonzero_vp_of {rnd : ℚ → ℚ} (h0 : rnd 0 = 0) (t : ℕ) (votes : List Vote) :
    (votes.filterMap fun v => if v.vp = 0 then none else shareOf rnd t v).sum =
      (votes.filterMap (shareOf rnd t)).sum := by
  induction votes with
  | nil => rfl
  | cons v vs ih =>
    by_cases hvp : v.vp = 0
    · cases hs : shareOf rnd t v with
      | none => simp [List.filterMap_cons, hvp, hs, ih]
      | some a =>
        have ha : a = 0 := by
          unfold shareOf at hs
          cases hg : getProp t v.choice with
          | none => simp [hg] at hs
          | some w =>
            simp only [hg, Option.map_some', Option.some.injEq] at hs
            rw [← hs, hvp]
            simp [h0]
        simp [List.filterMap_cons, hvp, hs, ih, ha]
    · cases hs : shareOf rnd t v with
      | none => simp [List.filterMap_cons, hvp, hs, ih]
      | some a => simp [List.filterMap_cons, hvp, hs, ih]

/-- What a completed run on valid votes has computed before the bribes, when the
total `V` of the bribed choice is a number other than 0. -/
theorem run_facts {rnd : ℚ → ℚ} (hnn : ∀ q, 0 ≤ q → 0 ≤ rnd q) {choices : List String}
    {votes : List Vote} {out : Output} {V : ℚ}
    (hvalid : ∀ v ∈ votes, 0 ≤ v.vp ∧ (v.choice.map Prod.fst).Nodup ∧ v.choice ≠ [] ∧
      ∀ e ∈ v.choice, 0 < e.2)
    (hmain : main rnd choices votes = .ok out)
    (hV : out.ourChoiceVotes = some (fin V)) (hV0 : V ≠ 0) :
    ∃ T : ℚ, out.totalVote = fin T ∧ 0 < V ∧ V ≤ T ∧
      out.ourChoicePercentage = some (fin (rnd (V / T) * 100)) ∧
      out.totalBribe = fin (rnd (V / T) * 100 * 1000) ∧
      (∃ x ∈ tally rnd votes,
        (getProposalChoices choices)[x.1]? = some OUR_BRIBED_CHOICE ∧ x.2 = fin V) ∧
      out.clawedBackWhaleBribeAmount =
        clawBack (allocate rnd (getProposalChoices choices) out.totalBribe out.ourChoiceVotes
          votes) ∧
      out.bribes =
        redistribute rnd out.ourChoicePercentage out.clawedBackWhaleBribeAmount
          (allocate rnd (getProposalChoices choices) out.totalBribe out.ourChoiceVotes votes) ∧
      out.sumBribes = BigNumber.sum (out.bribes.map fun b => b.2.totalBribe) := by
  have hsum := weights_sum_ne_zero hvalid
  obtain ⟨hvt, hours⟩ := ourChoiceVotes_of_main hmain
  obtain ⟨agg, hagg, _, hout⟩ := main_ok_inv hmain
  rcases hours with ⟨hnone, _, _⟩ | ⟨x, hx, hx1, hx2, hx3⟩
  · rw [hnone] at hV
    exact absurd hV (by simp)
  have hxV : x.2 = fin V := by
    rw [hx2] at hV
    exact Option.some.inj hV
  have hnonneg := tally_nonneg_of hnn votes hvalid
  have htotal : out.totalVote = totalVoteOf (tally rnd votes) := by
    rw [hout]
    exact (aggregate_totalsArr hagg).2.1
  have hne : tally rnd votes ≠ [] := List.ne_nil_of_mem hx
  have hTeq := totalVoteOf_eq rnd votes hsum hne
  have hVle : V ≤ ((tally rnd votes).map fun c => c.2.toRat).sum := by
    apply List.single_le_sum
    · intro a ha
      obtain ⟨z, hz, rfl⟩ := List.mem_map.1 ha
      obtain ⟨b, hb, hb0⟩ := hnonneg z hz
      simp only [hb]
      exact hb0
    · refine List.mem_map.2 ⟨x, hx, ?_⟩
      simp only [hxV]
      rfl
  have hVpos : 0 < V := by
    obtain ⟨b, hb, hb0⟩ := hnonneg x hx
    rw [hxV] at hb
    injection hb with hb
    rw [hb]
    rw [hb] at hV0
    exact lt_of_le_of_ne hb0 (Ne.symm hV0)
  have hT0 : ((tally rnd votes).map fun c => c.2.toRat).sum ≠ 0 :=
    ne_of_gt (lt_of_lt_of_le hVpos hVle)
  have hocp : out.ourChoicePercentage =
      some (fin (rnd (V / ((tally rnd votes).map fun c => c.2.toRat).sum) * 100)) := by
    rw [hx3, htotal, hTeq, hxV, percentageOf_fin rnd _ V hT0]
  refine ⟨_, htotal.trans hTeq, hVpos, hVle, hocp, ?_, ⟨x, hx, hx1, hxV⟩, ?_, ?_, ?_⟩
  · have : out.totalBribe = totalBribeOf out.ourChoicePercentage := by
      rw [hout]
      rfl
    rw [this, hocp]
    rfl
  · rw [hout]
    rfl
  · rw [hout]
    rfl
  · rw [hout]
    rfl

theorem sum_fin_nonneg (l : List BigNumber) (h : ∀ x ∈ l, ∃ a, x = fin a ∧ 0 ≤ a) :
    ∃ c, l.sum = fin c ∧ 0 ≤ c := by
  induction l with
  | nil => exact ⟨0, rfl, le_refl _⟩
  | cons x xs ih =>
    obtain ⟨a, ha, ha0⟩ := h x (List.mem_cons_self _ _)
    obtain ⟨c, hc, hc0⟩ := ih fun y hy => h y (List.mem_cons_of_mem _ hy)
    refine ⟨a + c, ?_, add_nonneg ha0 hc0⟩
    rw [List.sum_cons, ha, hc]
    rfl

theorem clawBack_nonneg (bribes : List (String × Bribe))
    (h : ∀ b ∈ bribes, ∃ a, b.2.bribeAmount = fin a ∧ 0 ≤ a) :
    ∃ c, clawBack bribes = fin c ∧ 0 ≤ c := by
  rw [clawBack_eq]
  apply sum_fin_nonneg
  intro x hx
  obtain ⟨b, hb, rfl⟩ := List.mem_map.1 hx
  exact h b (List.mem_of_mem_filter hb)

theorem bribeOf_fin (rnd : ℚ → ℚ) (P V : ℚ) (hV : V ≠ 0) (v : Vote) (w : ℚ)
    (hne : v.choice ≠ []) (hs : (v.choice.map Prod.snd).sum ≠ 0) :
    bribeOf rnd (fin P) (some (fin V)) v w =
      Bribe.mk v.vp (fin (rnd (rnd (v.vp * w / (v.choice.map Prod.snd).sum) / V) * 100))
        (fin (rnd (P * (rnd (rnd (v.vp * w / (v.choice.map Prod.snd).sum) / V) * 100) /
          100))) := by
  simp [bribeOf, choiceVote_eq rnd v w hne hs, ofUndefinable, BigNumber.div, BigNumber.times,
    hV]

/-- The entries of `bribes` before the claw-back, on valid votes: percentage and
raw bribe are numbers, not negative. -/
theorem allocate_entry {rnd : ℚ → ℚ} (hnn : ∀ q, 0 ≤ q → 0 ≤ rnd q) {choicesDict : List String}
    {votes : List Vote} {P V : ℚ} (hP : 0 ≤ P) (hV : 0 < V)
    (hvalid : ∀ v ∈ votes, 0 ≤ v.vp ∧ (v.choice.map Prod.fst).Nodup ∧ v.choice ≠ [] ∧
      ∀ e ∈ v.choice, 0 < e.2)
    {b : String × Bribe} (hb : b ∈ allocate rnd choicesDict (fin P) (some (fin V)) votes) :
    ∃ u, 0 ≤ u ∧ b.2.choicePerc = fin (u * 100) ∧ b.2.bribeAmount = fin (rnd (P * (u * 100) / 100)) ∧
      0 ≤ rnd (P * (u * 100) / 100) := by
  obtain ⟨v, hv, e, he, _, _, hx⟩ := mem_allocate hb
  have hs := weights_sum_ne_zero hvalid v hv
  have hfin := bribeOf_fin rnd P V (ne_of_gt hV) v e.2 (hvalid v hv).2.2.1 hs
  have hsh : 0 ≤ rnd (v.vp * e.2 / (v.choice.map Prod.snd).sum) :=
    hnn _ (share_nonneg (hvalid v hv).1 (hvalid v hv).2.2.2 ⟨e.1, he⟩)
  have hu : 0 ≤ rnd (rnd (v.vp * e.2 / (v.choice.map Prod.snd).sum) / V) :=
    hnn _ (div_nonneg hsh (le_of_lt hV))
  refine ⟨_, hu, ?_, ?_, ?_⟩
  · rw [hx, hfin]
  · rw [hx, hfin]
  · apply hnn
    positivity

theorem adjust_fin (rnd : ℚ → ℚ) (ocp : Option BigNumber) (c q B vp : ℚ) (i : String) :
    (adjust rnd ocp (fin c) i (Bribe.mk vp (fin q) (fin B))).whaleAdjust =
        (if shouldClawBackWhale i vp then fin (-B)
          else fin (rnd (rnd (q * c * 20 / 100) / 100))) ∧
      (adjust rnd ocp (fin c) i (Bribe.mk vp (fin q) (fin B))).totalBribe =
        (if shouldClawBackWhale i vp then fin 0
          else fin (B + rnd (rnd (q * c * 20 / 100) / 100))) := by
  cases hw : shouldClawBackWhale i vp <;>
    simp [adjust, hw, sum_pair, BigNumber.times, BigNumber.div, BigNumber.minus,
      BigNumber.negated, BigNumber.plus, WHALE_REDISTRIBUTION]

theorem adjust_rate_exact (p c q B vp : ℚ) (i : String) (hq : q ≠ 0) (hp : p ≠ 0) :
    (adjust id (some (fin p)) (fin c) i (Bribe.mk vp (fin q) (fin B))).qiPerPercent =
      (if shouldClawBackWhale i vp then fin 0
        else fin ((B + q * c * 20 / 100 / 100) / (q * p / 100))) := by
  have hden : q * p / 100 ≠ 0 := by positivity
  cases hw : shouldClawBackWhale i vp <;>
    simp [adjust, hw, sum_pair, BigNumber.times, BigNumber.div, BigNumber.minus,
      BigNumber.negated, BigNumber.plus, WHALE_REDISTRIBUTION, ofUndefinable,
      hq, hp]

/-! ## Claim on the rate per percent -/

/-- C20: with divisions exact and valid votes (a voting power not below 0 and a
non-empty mapping of positive weights each), take an entry of `bribes` whose
percentage is a number other than 0.  Then the percentage `p` of the bribed
choice is positive and the clawed-back amount `c` is a number not below 0; if
the voter is not clawed back, `qiPerPercent` is `1000 + 0.2 * c / p`, which is
never below 1000 and is 1000 when nothing is clawed back; if the voter is clawed
back, `qiPerPercent` is 0. -/
theorem effective_rate (choices : List String) (votes : List Vote) (out : Output)
    (hvalid : ∀ v ∈ votes, 0 ≤ v.vp ∧ (v.choice.map Prod.fst).Nodup ∧ v.choice ≠ [] ∧
      ∀ e ∈ v.choice, 0 < e.2)
    (hmain : main id choices votes = .ok out) (i : String) (r : BribeRecord)
    (hr : (i, r) ∈ out.bribes) (q : ℚ) (hq : r.choicePerc = fin q) (hq0 : q ≠ 0) :
    ∃ p c : ℚ, out.ourChoicePercentage = some (fin p) ∧ 0 < p ∧
      out.clawedBackWhaleBribeAmount = fin c ∧ 0 ≤ c ∧
      (shouldClawBackWhale i r.voterVp = false →
        r.qiPerPercent = fin (1000 + 0.2 * c / p) ∧ (1000 : ℚ) ≤ 1000 + 0.2 * c / p ∧
          (c = 0 → r.qiPerPercent = fin 1000)) ∧
      (shouldClawBackWhale i r.voterVp = true → r.qiPerPercent = fin 0) := by
  have hnn : ∀ x : ℚ, 0 ≤ x → 0 ≤ id x := fun x h => h
  obtain ⟨hadj, v, hv, e, he, _, _, _, _, hperc, hbribe⟩ := mem_bribes_of_main hmain hr
  have hcv := choiceVote_eq id v e.2 (hvalid v hv).2.2.1 (weights_sum_ne_zero hvalid v hv)
  obtain ⟨_, hours⟩ := ourChoiceVotes_of_main hmain
  rcases hours with ⟨hnone, _, _⟩ | ⟨x, hx, _, hx2, _⟩
  · rw [hnone, hcv, hq] at hperc
    simp [ofUndefinable, BigNumber.div, BigNumber.times] at hperc
  obtain ⟨V, hxV, _⟩ := tally_nonneg_of hnn votes hvalid x hx
  have hV : out.ourChoiceVotes = some (fin V) := by rw [hx2, hxV]
  have hVne : V ≠ 0 := by
    intro h0
    rw [hV, hcv, hq, h0] at hperc
    simp only [ofUndefinable, BigNumber.div, if_true] at hperc
    split_ifs at hperc <;> simp [BigNumber.times] at hperc
  obtain ⟨T, _, hVpos, hVT, hocp, hP, _, hcb, _, _⟩ := run_facts hnn hvalid hmain hV hVne
  simp only [id] at hocp hP
  have hTpos : 0 < T := lt_of_lt_of_le hVpos hVT
  have hp : 0 < V / T * 100 := by positivity
  have hP0 : (0 : ℚ) ≤ V / T * 100 * 1000 := by positivity
  obtain ⟨c, hc, hc0⟩ : ∃ c, out.clawedBackWhaleBribeAmount = fin c ∧ 0 ≤ c := by
    rw [hcb, hP, hV]
    apply clawBack_nonneg
    intro b hb
    obtain ⟨u, _, _, h2, h3⟩ := allocate_entry hnn hP0 hVpos hvalid hb
    exact ⟨_, h2, h3⟩
  have hB : r.bribeAmount = fin (V / T * 100 * 1000 * q / 100) := by
    rw [hbribe, hP, hq]
    simp [BigNumber.times, BigNumber.div]
  rw [hocp, hc, hq, hB] at hadj
  have hqi := congrArg BribeRecord.qiPerPercent hadj
  rw [adjust_rate_exact _ _ _ _ _ _ hq0 (ne_of_gt hp)] at hqi
  refine ⟨V / T * 100, c, hocp, hp, hc, hc0, ?_, ?_⟩
  · intro hw
    rw [hw] at hqi
    simp only [Bool.false_eq_true, if_false] at hqi
    have hrate : (V / T * 100 * 1000 * q / 100 + q * c * 20 / 100 / 100) /
        (q * (V / T * 100) / 100) = 1000 + 0.2 * c / (V / T * 100) := by
      have hV0 := ne_of_gt hVpos
      have hT0 := ne_of_gt hTpos
      field_simp
      ring
    rw [hrate] at hqi
    refine ⟨hqi, ?_, ?_⟩
    · have : 0 ≤ 0.2 * c / (V / T * 100) := by positivity
      linarith
    · intro h0
      rw [hqi, h0]
      norm_num
  · intro hw
    rw [hw] at hqi
    simpa using hqi

theorem scenario_exact_main : main id scenarioChoices scenarioVotes = .ok exactOutput := by
  decide!

theorem scenario_valid :
    ∀ v ∈ scenarioVotes, 0 ≤ v.vp ∧ (v.choice.map Prod.fst).Nodup ∧ v.choice ≠ [] ∧
      ∀ e ∈ v.choice, 0 < e.2 := by
  decide!

theorem scenario_tracked (i : ℕ) :
    (getProposalChoices scenarioChoices)[i]? = some OUR_BRIBED_CHOICE ↔ i = 2 := by
  constructor
  · intro h
    match i, h with
    | 0, h => exact absurd h (by decide)
    | 1, h => exact absurd h (by decide)
    | 2, _ => rfl
    | 3, h => exact absurd h (by decide)
    | n + 4, h => exact absurd h (by simp [getProposalChoices, scenarioChoices])
  · rintro rfl
    decide

/-- C20, at the scenario with exact divisions: the percentage of the bribed
choice is 800/9 and 200000/3 is clawed back, so that V1 is paid
`1000 + 0.2 * (200000/3) / (800/9) = 1150` per percent. -/
theorem effective_rate_witness : exactRecord1.qiPerPercent = fin 1150 := by
  obtain ⟨p, c, hp, _, hc, _, h1, _⟩ :=
    effective_rate scenarioChoices scenarioVotes exactOutput scenario_valid scenario_exact_main
      "0x01" exactRecord1 (by decide!) 25 rfl (by norm_num)
  have hp2 : p = 800 / 9 := by
    have h : some (fin (800 / 9)) = some (fin p) := hp
    injection h with h
    injection h with h
    exact h.symm
  have hc2 : c = 200000 / 3 := by
    have h : fin (200000 / 3) = fin c := hc
    injection h with h
    exact h.symm
  have h2 := (h1 (by decide!)).1
  rw [hp2, hc2] at h2
  rw [h2]
  norm_num

/-! ## Sums over the entries of `bribes` -/

theorem sum_filter_eq_ite {α : Type} (p : α → Bool) (f : α → ℚ) (l : List α) :
    ((l.filter p).map f).sum = (l.map fun b => if p b then f b else 0).sum := by
  induction l with
  | nil => rfl
  | cons x xs ih =>
    by_cases h : p x = true
    · simp [List.filter_cons, h, ih]
    · simp [List.filter_cons, h, ih]

theorem sum_filter_not_eq_ite {α : Type} (p : α → Bool) (f : α → ℚ) (l : List α) :
    ((l.filter fun b => !p b).map f).sum = (l.map fun b => if p b then 0 else f b).sum := by
  induction l with
  | nil => rfl
  | cons x xs ih =>
    by_cases h : p x = true
    · simp [List.filter_cons, h, ih]
    · simp [List.filter_cons, h, ih]

theorem sum_ite_add_ite {α : Type} (p : α → Bool) (f : α → ℚ) (l : List α) :
    (l.map fun b => if p b then 0 else f b).sum + (l.map fun b => if p b then f b else 0).sum =
      (l.map f).sum := by
  induction l with
  | nil => simp
  | cons x xs ih =>
    by_cases h : p x = true
    · simp only [List.map_cons, List.sum_cons, h, if_true]
      linarith
    · simp only [List.map_cons, List.sum_cons, h, Bool.false_eq_true, if_false]
      linarith

theorem sum_ite_nonneg {α : Type} (p : α → Prop) [DecidablePred p] (f : α → ℚ) (l : List α)
    (h : ∀ b ∈ l, 0 ≤ f b) :
    0 ≤ (l.map fun b => if p b then 0 else f b).sum ∧
      0 ≤ (l.map fun b => if p b then f b else 0).sum := by
  constructor <;>
  · apply List.sum_nonneg
    intro x hx
    obtain ⟨b, hb, rfl⟩ := List.mem_map.1 hx
    have := h b hb
    split_ifs <;> simp [this]

theorem sum_map_eq_fin {α : Type} (F : α → BigNumber) (g : α → ℚ) (l : List α)
    (h : ∀ x ∈ l, F x = fin (g x)) : (l.map F).sum = fin (l.map g).sum := by
  induction l with
  | nil => rfl
  | cons x xs ih =>
    rw [List.map_cons, List.sum_cons, h x (List.mem_cons_self _ _),
      ih fun y hy => h y (List.mem_cons_of_mem _ hy)]
    simp

theorem sum_map_congr {α : Type} (f g : α → ℚ) (l : List α) (h : ∀ x ∈ l, f x = g x) :
    (l.map f).sum = (l.map g).sum := by
  rw [List.map_congr_left h]

theorem setProp_sum_le {κ α : Type} [DecidableEq κ] (g : κ × α → ℚ) (k : κ) (v : α)
    (l : List (κ × α)) (h : ∀ b ∈ l, 0 ≤ g b) :
    ((setProp k v l).map g).sum ≤ (l.map g).sum + g (k, v) := by
  induction l with
  | nil => simp [setProp]
  | cons y t ih =>
    obtain ⟨k', v'⟩ := y
    have hy := h (k', v') (List.mem_cons_self _ _)
    have ih1 := ih fun b hb => h b (List.mem_cons_of_mem _ hb)
    by_cases hk : k = k'
    · simp only [setProp, hk, if_true, List.map_cons, List.sum_cons]
      linarith
    · simp only [setProp, hk, if_false, List.map_cons, List.sum_cons]
      linarith

theorem foldl_setProp_sum_le {κ α β : Type} [DecidableEq κ] (g : κ × α → ℚ)
    (f : β → Option (κ × α)) (vs : List β) (acc : List (κ × α))
    (hacc : ∀ b ∈ acc, 0 ≤ g b) (hf : ∀ v ∈ vs, ∀ b, f v = some b → 0 ≤ g b) :
    ((vs.foldl (fun acc v => (f v).elim acc fun b => setProp b.1 b.2 acc) acc).map g).sum ≤
      (acc.map g).sum + ((vs.filterMap f).map g).sum := by
  induction vs generalizing acc with
  | nil => simp
  | cons v vs ih =>
    rw [List.foldl_cons]
    have hf2 : ∀ x ∈ vs, ∀ b, f x = some b → 0 ≤ g b :=
      fun x hx => hf x (List.mem_cons_of_mem _ hx)
    cases hv : f v with
    | none =>
      simp only [List.filterMap_cons, hv, Option.elim_none]
      exact ih acc hacc hf2
    | some b =>
      have hb := hf v (List.mem_cons_self _ _) b hv
      simp only [List.filterMap_cons, hv, List.map_cons, List.sum_cons, Option.elim_some]
      have hacc2 : ∀ x ∈ setProp b.1 b.2 acc, 0 ≤ g x := by
        intro x hx
        rcases mem_setProp hx with e | e
        · rw [e]
          exact hb
        · exact hacc x e
      have h1 := ih (setProp b.1 b.2 acc) hacc2 hf2
      have h2 := setProp_sum_le g b.1 b.2 acc hacc
      linarith

theorem foldl_congr_mem {α β : Type} (f g : α → β → α) (vs : List β) (acc : α)
    (h : ∀ a, ∀ v ∈ vs, f a v = g a v) : vs.foldl f acc = vs.foldl g acc := by
  induction vs generalizing acc with
  | nil => rfl
  | cons v vs ih =>
    rw [List.foldl_cons, List.foldl_cons, h acc v (List.mem_cons_self _ _)]
    exact ih _ fun a x hx => h a x (List.mem_cons_of_mem _ hx)

theorem allocate_eq_foldl {rnd : ℚ → ℚ} {choicesDict : List String} {totalBribe : BigNumber}
    {ourChoiceVotes : Option BigNumber} {t : ℕ}
    (ht : ∀ i, choicesDict[i]? = some OUR_BRIBED_CHOICE ↔ i = t)
    (votes : List Vote) (hkeys : ∀ v ∈ votes, (v.choice.map Prod.fst).Nodup)
    (hproto : ∀ v ∈ votes, v.voter ≠ "__proto__") :
    allocate rnd choicesDict totalBribe ourChoiceVotes votes =
      votes.foldl (fun acc v =>
        (recordOf rnd totalBribe ourChoiceVotes t v).elim acc fun b => setProp b.1 b.2 acc)
        [] := by
  unfold allocate
  apply foldl_congr_mem
  intro a v hv
  rw [bribeVote_eq ht a v (hkeys v hv) (hproto v hv)]
  cases recordOf rnd totalBribe ourChoiceVotes t v <;> rfl

/-- The shares, over `V`, of the entries the votes give rise to, one by one. -/
theorem recordOf_shares (rnd : ℚ → ℚ) (P V : ℚ) (hV : V ≠ 0) (t : ℕ) (votes : List Vote)
    (hne : ∀ v ∈ votes, v.choice ≠ [])
    (hsum : ∀ v ∈ votes, (v.choice.map Prod.snd).sum ≠ 0) :
    (votes.filterMap (recordOf rnd (fin P) (some (fin V)) t)).map
        (fun b => b.2.choicePerc.toRat / 100) =
      (votes.filterMap fun v => if v.vp = 0 then none else shareOf rnd t v).map
        fun s => rnd (s / V) := by
  induction votes with
  | nil => rfl
  | cons v vs ih =>
    have ih1 := ih (fun x hx => hne x (List.mem_cons_of_mem _ hx))
      (fun x hx => hsum x (List.mem_cons_of_mem _ hx))
    have hn := hne v (List.mem_cons_self _ _)
    have hs := hsum v (List.mem_cons_self _ _)
    by_cases hvp : v.vp = 0
    · simp [List.filterMap_cons, recordOf, hvp]
      simpa [recordOf] using ih1
    · cases hg : getProp t v.choice with
      | none =>
        simp [List.filterMap_cons, recordOf, shareOf, hvp, hg]
        simpa [recordOf, shareOf] using ih1
      | some w =>
        simp only [List.filterMap_cons, recordOf, shareOf, hvp, hg, if_false, Option.map_some',
          List.map_cons, bribeOf_fin rnd P V hV v w hn hs, BigNumber.toRat]
        congr 1
        simp

theorem sum_div_const (l : List ℚ) (V : ℚ) : (l.map fun s => s / V).sum = l.sum / V := by
  induction l with
  | nil => simp
  | cons x xs ih =>
    simp only [List.map_cons, List.sum_cons, ih]
    ring

/-- With exact divisions, the shares of the entries the votes give rise to add
up to 1, and the shares of the entries of `bribes`, where a later vote of an
address has replaced an earlier one, to at most 1. -/
theorem allocate_shares_exact {choicesDict : List String} {votes : List Vote} {t : ℕ}
    (P V : ℚ) (hV : 0 < V)
    (hvalid : ∀ v ∈ votes, 0 ≤ v.vp ∧ (v.choice.map Prod.fst).Nodup ∧ v.choice ≠ [] ∧
      ∀ e ∈ v.choice, 0 < e.2)
    (ht : ∀ i, choicesDict[i]? = some OUR_BRIBED_CHOICE ↔ i = t)
    (hproto : ∀ v ∈ votes, v.voter ≠ "__proto__")
    (hget : getProp t (tally id votes) = some (fin V)) :
    ((allocate id choicesDict (fin P) (some (fin V)) votes).map
        fun b => b.2.choicePerc.toRat / 100).sum ≤ 1 ∧
      ((votes.map Vote.voter).Nodup →
        ((allocate id choicesDict (fin P) (some (fin V)) votes).map
          fun b => b.2.choicePerc.toRat / 100).sum = 1) := by
  have hkeys : ∀ v ∈ votes, (v.choice.map Prod.fst).Nodup := fun v hv => (hvalid v hv).2.1
  have hne : ∀ v ∈ votes, v.choice ≠ [] := fun v hv => (hvalid v hv).2.2.1
  have hsum := weights_sum_ne_zero hvalid
  have hnn : ∀ x : ℚ, 0 ≤ x → 0 ≤ id x := fun x h => h
  have hshares : (votes.filterMap (shareOf id t)).sum = V := by
    rw [getProp_tally_fin id t votes hkeys hsum] at hget
    split_ifs at hget
    simp only [Option.some.injEq] at hget
    injection hget
  have hrecs : ((votes.filterMap (recordOf id (fin P) (some (fin V)) t)).map
      fun b => b.2.choicePerc.toRat / 100).sum = 1 := by
    rw [recordOf_shares id P V (ne_of_gt hV) t votes hne hsum]
    simp only [id]
    rw [sum_div_const, sum_shares_nonzero_vp_of (show (id : ℚ → ℚ) 0 = 0 from rfl), hshares, div_self (ne_of_gt hV)]
  constructor
  · rw [allocate_eq_foldl ht votes hkeys hproto]
    have := foldl_setProp_sum_le (fun b : String × Bribe => b.2.choicePerc.toRat / 100)
      (recordOf id (fin P) (some (fin V)) t) votes [] (by simp) (by
        intro v hv b hb
        unfold recordOf at hb
        split_ifs at hb
        cases hg : getProp t v.choice with
        | none => simp [hg] at hb
        | some w =>
          simp only [hg, Option.map_some', Option.some.injEq] at hb
          rw [← hb, bribeOf_fin id P V (ne_of_gt hV) v w (hne v hv) (hsum v hv)]
          simp only [id, BigNumber.toRat]
          have := share_nonneg (hvalid v hv).1 (hvalid v hv).2.2.2 ⟨t, getProp_mem hg⟩
          positivity)
    rw [hrecs] at this
    simpa using this
  · intro hvoters
    rw [allocate_eq ht votes hkeys hvoters hproto]
    exact hrecs

theorem allocate_key_of_vote {rnd : ℚ → ℚ} {choicesDict : List String} {totalBribe : BigNumber}
    {ourChoiceVotes : Option BigNumber} {votes : List Vote} {v : Vote} {e : ℕ × ℚ}
    (hv : v ∈ votes) (hvp : v.vp ≠ 0) (hproto : v.voter ≠ "__proto__") (he : e ∈ v.choice)
    (hc : choicesDict[e.1]? = some OUR_BRIBED_CHOICE) :
    v.voter ∈ (allocate rnd choicesDict totalBribe ourChoiceVotes votes).map Prod.fst := by
  obtain ⟨pre, w, post, hvotes, ⟨hw1, hw2, hw3⟩, hpost⟩ :=
    exists_last
      (fun x : Vote => x.voter = v.voter ∧ x.vp ≠ 0 ∧
        ∃ y ∈ x.choice, choicesDict[y.1]? = some OUR_BRIBED_CHOICE)
      votes ⟨v, hv, rfl, hvp, e, he, hc⟩
  obtain ⟨es1, y, es2, hes, hy, hlast⟩ :=
    exists_last (fun y : ℕ × ℚ => choicesDict[y.1]? = some OUR_BRIBED_CHOICE) w.choice hw3
  have hget : getProp w.voter
      (allocate rnd choicesDict totalBribe ourChoiceVotes (pre ++ w :: post)) =
      some (bribeOf rnd totalBribe ourChoiceVotes w y.2) :=
    getProp_allocate_last w pre post es1 es2 y hw2 (by rw [hw1]; exact hproto) hes hy hlast
      (fun x hx hxv hxvp z hz hzc => hpost x hx ⟨hxv.trans hw1, hxvp, z, hz, hzc⟩)
  rw [← hvotes, hw1] at hget
  exact List.mem_map_of_mem Prod.fst (getProp_mem hget)

theorem allocate_ne_nil {rnd : ℚ → ℚ} (h0 : rnd 0 = 0) {choicesDict : List String}
    {totalBribe : BigNumber} {ourChoiceVotes : Option BigNumber} {votes : List Vote} {t : ℕ}
    {V : ℚ} (hV : V ≠ 0)
    (hvalid : ∀ v ∈ votes, 0 ≤ v.vp ∧ (v.choice.map Prod.fst).Nodup ∧ v.choice ≠ [] ∧
      ∀ e ∈ v.choice, 0 < e.2)
    (ht : ∀ i, choicesDict[i]? = some OUR_BRIBED_CHOICE ↔ i = t)
    (hproto : ∀ v ∈ votes, v.voter ≠ "__proto__")
    (hget : getProp t (tally rnd votes) = some (fin V)) :
    allocate rnd choicesDict totalBribe ourChoiceVotes votes ≠ [] := by
  have hkeys : ∀ v ∈ votes, (v.choice.map Prod.fst).Nodup := fun v hv => (hvalid v hv).2.1
  have hshares : (votes.filterMap (shareOf rnd t)).sum = V := by
    rw [getProp_tally_fin rnd t votes hkeys (weights_sum_ne_zero hvalid)] at hget
    split_ifs at hget
    simp only [Option.some.injEq] at hget
    injection hget
  have hex : ∃ s ∈ votes.filterMap (shareOf rnd t), s ≠ 0 := by
    by_contra hall
    push_neg at hall
    apply hV
    rw [← hshares]
    exact List.sum_eq_zero hall
  obtain ⟨s, hs, hs0⟩ := hex
  obtain ⟨v, hv, hsh⟩ := List.mem_filterMap.1 hs
  unfold shareOf at hsh
  cases hg : getProp t v.choice with
  | none => simp [hg] at hsh
  | some w =>
    simp only [hg, Option.map_some', Option.some.injEq] at hsh
    have hvp : v.vp ≠ 0 := by
      intro hz
      apply hs0
      rw [← hsh, hz]
      simp [h0]
    have hmem : v.voter ∈
        (allocate rnd choicesDict totalBribe ourChoiceVotes votes).map Prod.fst :=
      allocate_key_of_vote hv hvp (hproto v hv) (getProp_mem hg) ((ht t).2 rfl)
    exact fun hnil => by simp [hnil] at hmem

/-- Sums over the entries of `bribes` in a completed run with exact divisions on
valid votes: `n` and `w` are the shares, over the total of the bribed choice, of
the entries not clawed back and of the entries clawed back. -/
theorem exact_sums {choices : List String} {votes : List Vote} {out : Output} {t : ℕ} {V : ℚ}
    (hvalid : ∀ v ∈ votes, 0 ≤ v.vp ∧ (v.choice.map Prod.fst).Nodup ∧ v.choice ≠ [] ∧
      ∀ e ∈ v.choice, 0 < e.2)
    (ht : ∀ i, (getProposalChoices choices)[i]? = some OUR_BRIBED_CHOICE ↔ i = t)
    (hproto : ∀ v ∈ votes, v.voter ≠ "__proto__")
    (hmain : main id choices votes = .ok out)
    (hV : out.ourChoiceVotes = some (fin V)) (hV0 : V ≠ 0) :
    ∃ P c n w : ℚ, 0 < P ∧ 0 ≤ n ∧ 0 ≤ w ∧ n + w ≤ 1 ∧
      ((votes.map Vote.voter).Nodup → n + w = 1) ∧ c = P * w ∧
      out.totalBribe = fin P ∧ out.clawedBackWhaleBribeAmount = fin c ∧
      out.sumBribes = fin ((P + 0.2 * c) * n) ∧
      (∀ r ∈ out.bribes, ∃ f a, r.2.totalBribe = fin f ∧ 0 ≤ f ∧ r.2.whaleAdjust = fin a) ∧
      ((out.bribes.filter fun r => !shouldClawBackWhale r.1 r.2.voterVp).map
        fun r => r.2.whaleAdjust.toRat).sum = 0.2 * c * n := by
  have hnn : ∀ x : ℚ, 0 ≤ x → 0 ≤ id x := fun x h => h
  obtain ⟨T, _, hVpos, hVT, hocp, hP, ⟨x, hx, hx1, hxV⟩, hcb, hbr, hsb⟩ :=
    run_facts hnn hvalid hmain hV hV0
  simp only [id] at hocp hP
  have hTpos : 0 < T := lt_of_lt_of_le hVpos hVT
  have hPpos : (0 : ℚ) < V / T * 100 * 1000 := by positivity
  have hget : getProp t (tally id votes) = some (fin V) := by
    rw [← (ht x.1).1 hx1, ← hxV]
    exact getProp_tally_of_mem hx
  rw [hP, hV] at hcb hbr
  generalize hPdef : V / T * 100 * 1000 = P at hP hPpos hcb hbr
  generalize hLdef : allocate id (getProposalChoices choices) (fin P) (some (fin V)) votes = L
    at hcb hbr
  have hentry : ∀ b ∈ L, b.2.choicePerc = fin (b.2.choicePerc.toRat / 100 * 100) ∧
      b.2.bribeAmount = fin (P * (b.2.choicePerc.toRat / 100)) ∧
      0 ≤ b.2.choicePerc.toRat / 100 := by
    intro b hb
    rw [← hLdef] at hb
    obtain ⟨u, hu, h1, h2, _⟩ := allocate_entry hnn (le_of_lt hPpos) hVpos hvalid hb
    have hU : b.2.choicePerc.toRat / 100 = u := by
      rw [h1]
      simp [BigNumber.toRat]
    rw [hU]
    refine ⟨h1, ?_, hu⟩
    rw [h2]
    simp only [id]
    congr 1
    ring
  have hshares := allocate_shares_exact P V hVpos hvalid ht hproto hget
  rw [hLdef] at hshares
  have hLne : L ≠ [] := by
    rw [← hLdef]
    exact allocate_ne_nil (show (id : ℚ → ℚ) 0 = 0 from rfl) hV0 hvalid ht hproto hget
  -- the clawed-back amount
  have hc : out.clawedBackWhaleBribeAmount =
      fin (P * ((L.filter fun b => shouldClawBackWhale b.1 b.2.voterVp).map
        fun b => b.2.choicePerc.toRat / 100).sum) := by
    rw [hcb, clawBack_eq, sum_map_eq_fin _ (fun b => P * (b.2.choicePerc.toRat / 100)),
      List.sum_map_mul_left]
    intro b hb
    exact (hentry b (List.mem_of_mem_filter hb)).2.1
  generalize hcdef : P * ((L.filter fun b => shouldClawBackWhale b.1 b.2.voterVp).map
        fun b => b.2.choicePerc.toRat / 100).sum = c at hc
  rw [hc] at hbr
  have hadj : ∀ b ∈ L,
      (adjust id out.ourChoicePercentage (fin c) b.1 b.2).whaleAdjust =
          (if shouldClawBackWhale b.1 b.2.voterVp then fin (-(P * (b.2.choicePerc.toRat / 100)))
            else fin (0.2 * c * (b.2.choicePerc.toRat / 100))) ∧
        (adjust id out.ourChoicePercentage (fin c) b.1 b.2).totalBribe =
          (if shouldClawBackWhale b.1 b.2.voterVp then fin 0
            else fin ((P + 0.2 * c) * (b.2.choicePerc.toRat / 100))) := by
    intro b hb
    obtain ⟨h1, h3, _⟩ := hentry b hb
    obtain ⟨i, vp, cp, ba⟩ := b
    simp only at h1 h3 ⊢
    have h2 := adjust_fin id out.ourChoicePercentage c (cp.toRat / 100 * 100)
      (P * (cp.toRat / 100)) vp i
    rw [← h1, ← h3] at h2
    simp only [id] at h2
    constructor
    · rw [h2.1]
      split_ifs
      · rfl
      · congr 1
        ring
    · rw [h2.2]
      split_ifs
      · rfl
      · congr 1
        ring
  have hnw := sum_ite_add_ite (fun b : String × Bribe => shouldClawBackWhale b.1 b.2.voterVp)
    (fun b => b.2.choicePerc.toRat / 100) L
  have hn0 : 0 ≤ ((L.filter fun b => !shouldClawBackWhale b.1 b.2.voterVp).map
      fun b => b.2.choicePerc.toRat / 100).sum := by
    apply List.sum_nonneg
    intro y hy
    obtain ⟨b, hb, rfl⟩ := List.mem_map.1 hy
    exact (hentry b (List.mem_of_mem_filter hb)).2.2
  have hw0 : 0 ≤ ((L.filter fun b => shouldClawBackWhale b.1 b.2.voterVp).map
      fun b => b.2.choicePerc.toRat / 100).sum := by
    apply List.sum_nonneg
    intro y hy
    obtain ⟨b, hb, rfl⟩ := List.mem_map.1 hy
    exact (hentry b (List.mem_of_mem_filter hb)).2.2
  rw [← sum_filter_not_eq_ite, ← sum_filter_eq_ite] at hnw
  refine ⟨P, c, _, _, hPpos, hn0, hw0, ?_, ?_, hcdef.symm, hP, hc, ?_, ?_, ?_⟩
  · rw [hnw]
    exact hshares.1
  · intro hd
    rw [hnw]
    exact hshares.2 hd
  · -- the reported sum
    rw [hsb, hbr]
    unfold redistribute
    rw [List.map_map]
    cases hL : L with
    | nil => exact absurd hL hLne
    | cons b bs =>
      rw [← hL, ← List.sum_map_mul_left, sum_filter_not_eq_ite]
      have hsum : BigNumber.sum (L.map ((fun b : String × BribeRecord => b.2.totalBribe) ∘
          fun b => (b.1, adjust id out.ourChoicePercentage (fin c) b.1 b.2))) =
          (L.map ((fun b : String × BribeRecord => b.2.totalBribe) ∘
          fun b => (b.1, adjust id out.ourChoicePercentage (fin c) b.1 b.2))).sum := by
        rw [hL, List.map_cons, sum_cons]
      rw [hsum]
      apply sum_map_eq_fin
      intro y hy
      simp only [Function.comp]
      rw [(hadj y hy).2]
      split_ifs <;> rfl
  · intro r hr
    rw [hbr] at hr
    obtain ⟨b, hb, rfl⟩ := List.mem_map.1 hr
    simp only
    rw [(hadj b hb).1, (hadj b hb).2]
    have hu := (hentry b hb).2.2
    have hc0 : 0 ≤ c := by
      rw [← hcdef]
      exact mul_nonneg (le_of_lt hPpos) hw0
    split_ifs
    · exact ⟨_, _, rfl, le_refl _, rfl⟩
    · exact ⟨_, _, rfl, by positivity, rfl⟩
  · rw [hbr]
    unfold redistribute
    rw [List.filter_map, List.map_map, ← List.sum_map_mul_left]
    have hfilter : (L.filter ((fun r : String × BribeRecord =>
          !shouldClawBackWhale r.1 r.2.voterVp) ∘
        fun b => (b.1, adjust id out.ourChoicePercentage (fin c) b.1 b.2))) =
        L.filter fun b => !shouldClawBackWhale b.1 b.2.voterVp := rfl
    rw [hfilter]
    apply sum_map_congr
    intro b hb
    have hbL := List.mem_of_mem_filter hb
    have hnw : shouldClawBackWhale b.1 b.2.voterVp = false := by
      have := (List.mem_filter.1 hb).2
      simpa using this
    simp only [Function.comp]
    rw [(hadj b hbL).1, hnw]
    rfl

/-! ## Claim on the payout and the pool -/

/-- C19 as stated fails, with divisions exact.  On the two votes below, of
voting powers 100000 and 50000, the one voter of the bribed choice is
`__proto__`: the run completes with a pool of 200000/3 and no entry in `bribes`,
and the reported sum, `BigNumber.sum()` of no value, is `NaN`, not a number at
most the pool.  And on `protoVotes`, three votes of distinct addresses, the
reported sum is 0, while the pool minus the clawed-back amount plus the
adjustments of the entries not clawed back is 200000/9. -/
theorem payout_not_as_stated :
    main id scenarioChoices
        [Vote.mk "__proto__" 100000 [(2, 1)], Vote.mk "0x03" 50000 [(1, 1)]] =
      .ok (Output.mk [(1, fin 50000), (2, fin 100000)] (fin 150000)
        [TotalsRow.mk (some "A (Ethereum)") (fin 50000) (fin (100 / 3)),
          TotalsRow.mk (some "WBTC (Arbitrum)") (fin 100000) (fin (200 / 3))]
        [("Ethereum", fin (100 / 3)), ("Arbitrum", fin (200 / 3))]
        (some (fin 100000)) (some (fin (200 / 3))) (fin (200000 / 3)) (fin 0) [] nan) ∧
      (nan : BigNumber).isFinite = false ∧
      main id scenarioChoices protoVotes = .ok protoExactOutput ∧
      (protoVotes.map Vote.voter).Nodup ∧
      protoVotes.map Vote.voter = ["__proto__", "0x02", "0x03"] ∧
      protoExactOutput.ourChoiceVotes = some (fin 400000) ∧
      protoExactOutput.totalBribe = fin (800000 / 9) ∧
      protoExactOutput.clawedBackWhaleBribeAmount = fin (200000 / 3) ∧
      nonWhaleAdjustments protoExactOutput.bribes = 0 ∧
      protoExactOutput.sumBribes = fin 0 ∧
      (0 : ℚ) ≠ 800000 / 9 - 200000 / 3 + 0 := by
  refine ⟨by decide!, rfl, proto_exact_main, by decide, rfl, rfl, rfl, rfl, by decide!, rfl,
    by norm_num⟩

/-- C19, amended: with divisions exact, in a completed run on votes with voting
powers not below 0 and positive weights, no address being `__proto__`, for a
non-zero total of the bribed choice (`t` being the one choice id that carries
the bribed label), addresses repeated or not: every final bribe is a number not below 0, and the reported sum of the
final bribes is a number not above the pool.  When the addresses are pairwise
distinct the reported sum is the pool minus the clawed-back amount plus the sum
of the adjustments of the entries not clawed back. -/
theorem payout_within_pool (choices : List String) (votes : List Vote) (out : Output) (t : ℕ)
    (V : ℚ)
    (hvalid : ∀ v ∈ votes, 0 ≤ v.vp ∧ (v.choice.map Prod.fst).Nodup ∧ v.choice ≠ [] ∧
      ∀ e ∈ v.choice, 0 < e.2)
    (htracked : ∀ i, (getProposalChoices choices)[i]? = some OUR_BRIBED_CHOICE ↔ i = t)
    (hproto : ∀ v ∈ votes, v.voter ≠ "__proto__")
    (hmain : main id choices votes = .ok out)
    (hV : out.ourChoiceVotes = some (fin V)) (hV0 : V ≠ 0) :
    (∀ r ∈ out.bribes, ∃ f, r.2.totalBribe = fin f ∧ 0 ≤ f) ∧
      out.sumBribes = BigNumber.sum (out.bribes.map fun r => r.2.totalBribe) ∧
      (∃ s P, out.sumBribes = fin s ∧ out.totalBribe = fin P ∧ s ≤ P) ∧
      ((votes.map Vote.voter).Nodup →
        ∃ P c, out.totalBribe = fin P ∧ out.clawedBackWhaleBribeAmount = fin c ∧
          (∀ r ∈ out.bribes, r.2.whaleAdjust.isFinite = true) ∧
          out.sumBribes =
            fin (P - c +
              ((out.bribes.filter fun r => !shouldClawBackWhale r.1 r.2.voterVp).map
                fun r => r.2.whaleAdjust.toRat).sum)) := by
  obtain ⟨P, c, n, w, hP0, hn, hw, hnw, hdistinct, hc, hP, hcb, hs, hrec, hadj⟩ :=
    exact_sums hvalid htracked hproto hmain hV hV0
  obtain ⟨_, _, _, _, _, _, _, _, _, hsb⟩ :=
    run_facts (show ∀ x : ℚ, 0 ≤ x → 0 ≤ id x from fun x h => h) hvalid hmain hV hV0
  refine ⟨?_, hsb, ⟨_, P, hs, hP, ?_⟩, ?_⟩
  · intro r hr
    obtain ⟨f, _, hf, hf0, _⟩ := hrec r hr
    exact ⟨f, hf, hf0⟩
  · rw [hc]
    have h1 : n * (1 + 0.2 * w) ≤ 1 := by nlinarith
    have h2 : (P + 0.2 * (P * w)) * n = P * (n * (1 + 0.2 * w)) := by ring
    rw [h2]
    nlinarith
  · intro hd
    refine ⟨P, c, hP, hcb, ?_, ?_⟩
    · intro r hr
      obtain ⟨_, a, _, _, ha⟩ := hrec r hr
      rw [ha]
      rfl
    · rw [hs, hadj]
      have hn1 : n = 1 - w := by linarith [hdistinct hd]
      congr 1
      rw [hn1, hc]
      ring

/-- C19, amended, at the scenario with exact divisions: the reported sum, 230000/9, is
not above the pool, 800000/9. -/
theorem payout_within_pool_witness :
    exactOutput.sumBribes.toRat ≤ exactOutput.totalBribe.toRat := by
  obtain ⟨s, P, hs, hP, hle⟩ :=
    (payout_within_pool scenarioChoices scenarioVotes exactOutput 2 400000 scenario_valid
      scenario_tracked (by decide!) scenario_exact_main rfl (by norm_num)).2.2.1
  rw [hs, hP]
  exact hle

/-! ## Sums of rounded values -/

theorem sum_map_near {α : Type} (f g : α → ℚ) (e : ℚ) (l : List α)
    (h : ∀ x ∈ l, |f x - g x| ≤ e) :
    |(l.map f).sum - (l.map g).sum| ≤ (l.length : ℚ) * e := by
  induction l with
  | nil => simp
  | cons x xs ih =>
    have hx := h x (List.mem_cons_self _ _)
    have ih1 := ih fun y hy => h y (List.mem_cons_of_mem _ hy)
    rw [abs_le] at hx ih1 ⊢
    simp only [List.map_cons, List.sum_cons, List.length_cons, Nat.cast_add, Nat.cast_one]
    constructor <;> linarith [hx.1, hx.2, ih1.1, ih1.2]

/-- With pairwise distinct addresses the shares of the entries of `bribes`, each
rounded by `div`, add up to 1 within the rounding error of one division per
entry. -/
theorem allocate_shares_near {rnd : ℚ → ℚ} {ε : ℚ} (h0 : rnd 0 = 0)
    (herr : ∀ q, |rnd q - q| ≤ ε) {choicesDict : List String} {votes : List Vote} {t : ℕ}
    (P V : ℚ) (hV : V ≠ 0)
    (hvalid : ∀ v ∈ votes, 0 ≤ v.vp ∧ (v.choice.map Prod.fst).Nodup ∧ v.choice ≠ [] ∧
      ∀ e ∈ v.choice, 0 < e.2)
    (ht : ∀ i, choicesDict[i]? = some OUR_BRIBED_CHOICE ↔ i = t)
    (hvoters : (votes.map Vote.voter).Nodup)
    (hproto : ∀ v ∈ votes, v.voter ≠ "__proto__")
    (hget : getProp t (tally rnd votes) = some (fin V)) :
    |((allocate rnd choicesDict (fin P) (some (fin V)) votes).map
        fun b => b.2.choicePerc.toRat / 100).sum - 1| ≤
      ((allocate rnd choicesDict (fin P) (some (fin V)) votes).length : ℚ) * ε := by
  have hkeys : ∀ v ∈ votes, (v.choice.map Prod.fst).Nodup := fun v hv => (hvalid v hv).2.1
  have hne : ∀ v ∈ votes, v.choice ≠ [] := fun v hv => (hvalid v hv).2.2.1
  have hsum := weights_sum_ne_zero hvalid
  have hshares : (votes.filterMap (shareOf rnd t)).sum = V := by
    rw [getProp_tally_fin rnd t votes hkeys hsum] at hget
    split_ifs at hget
    simp only [Option.some.injEq] at hget
    injection hget
  rw [allocate_eq ht votes hkeys hvoters hproto]
  have hlen : (votes.filterMap (recordOf rnd (fin P) (some (fin V)) t)).length =
      (votes.filterMap fun v => if v.vp = 0 then none else shareOf rnd t v).length := by
    have := congrArg List.length (recordOf_shares rnd P V hV t votes hne hsum)
    simpa using this
  rw [recordOf_shares rnd P V hV t votes hne hsum, hlen]
  have hone : ((votes.filterMap fun v => if v.vp = 0 then none else shareOf rnd t v).map
      fun s => s / V).sum = 1 := by
    rw [sum_div_const, sum_shares_nonzero_vp_of h0, hshares, div_self hV]
  rw [← hone]
  exact sum_map_near _ _ ε _ fun s _ => herr (s / V)

/-- A pool other than 0 comes from a total of the bribed choice other than 0. -/
theorem tracked_total_of_pool {rnd : ℚ → ℚ} (hnn : ∀ q, 0 ≤ q → 0 ≤ rnd q) (h0 : rnd 0 = 0)
    {choices : List String} {votes : List Vote} {out : Output} {P : ℚ}
    (hvalid : ∀ v ∈ votes, 0 ≤ v.vp ∧ (v.choice.map Prod.fst).Nodup ∧ v.choice ≠ [] ∧
      ∀ e ∈ v.choice, 0 < e.2)
    (hmain : main rnd choices votes = .ok out)
    (hP : out.totalBribe = fin P) (hP0 : P ≠ 0) :
    ∃ V, out.ourChoiceVotes = some (fin V) ∧ V ≠ 0 := by
  obtain ⟨hvt, hours⟩ := ourChoiceVotes_of_main hmain
  obtain ⟨agg, hagg, _, hout⟩ := main_ok_inv hmain
  have hpool : out.totalBribe = totalBribeOf out.ourChoicePercentage := by
    rw [hout]
    rfl
  rcases hours with ⟨_, hnone, _⟩ | ⟨x, hx, _, hx2, hx3⟩
  · rw [hpool, hnone] at hP
    simp [totalBribeOf, ofUndefinable, BigNumber.times] at hP
  obtain ⟨V, hxV, _⟩ := tally_nonneg_of hnn votes hvalid x hx
  refine ⟨V, by rw [hx2, hxV], ?_⟩
  intro hz
  have htotal : out.totalVote = totalVoteOf (tally rnd votes) := by
    rw [hout]
    exact (aggregate_totalsArr hagg).2.1
  rw [hpool, hx3, htotal, totalVoteOf_eq rnd votes (weights_sum_ne_zero hvalid)
    (List.ne_nil_of_mem hx), hxV, hz] at hP
  simp only [totalBribeOf, ofUndefinable, percentageOf, BigNumber.div, QI_BRIBE_PER_ONE_PERCENT]
    at hP
  split_ifs at hP
  · simp [BigNumber.times] at hP
  · simp only [zero_div, h0, BigNumber.times, zero_mul] at hP
    injection hP with hP
    exact hP0 hP.symm

theorem rounded_twice_near {rnd : ℚ → ℚ} {ε : ℚ} (herr : ∀ q, |rnd q - q| ≤ ε) (u c : ℚ) :
    |rnd (rnd (u * 100 * c * 20 / 100) / 100) - 0.2 * c * u| ≤ 1.01 * ε := by
  have h1 := herr (u * 100 * c * 20 / 100)
  have h2 := herr (rnd (u * 100 * c * 20 / 100) / 100)
  rw [abs_le] at h1 h2 ⊢
  constructor <;> linarith [h1.1, h1.2, h2.1, h2.2]

theorem near_of_parts {S c P n w m ε : ℚ} (hP : 0 < P) (hc : 0 ≤ c)
    (ha : |S - 0.2 * c * n| ≤ m * (1.01 * ε)) (hb : |c - P * w| ≤ m * ε)
    (hd : |n + w - 1| ≤ m * ε) :
    |S - 0.2 * c * (1 - c / P)| ≤ m * ε * (0.2 * c * (1 + 1 / P) + 1.01) := by
  have hD : S - 0.2 * c * (1 - c / P) =
      (S - 0.2 * c * n) + 0.2 * c * (n + w - 1) + 0.2 * c * ((c - P * w) / P) := by
    field_simp
    ring
  have h1 : |0.2 * c * (n + w - 1)| ≤ 0.2 * c * (m * ε) := by
    rw [abs_mul, abs_of_nonneg (by positivity : (0 : ℚ) ≤ 0.2 * c)]
    exact mul_le_mul_of_nonneg_left hd (by positivity)
  have h2 : |0.2 * c * ((c - P * w) / P)| ≤ 0.2 * c * (m * ε / P) := by
    rw [abs_mul, abs_of_nonneg (by positivity : (0 : ℚ) ≤ 0.2 * c), abs_div, abs_of_pos hP]
    exact mul_le_mul_of_nonneg_left (div_le_div_of_nonneg_right hb (le_of_lt hP)) (by positivity)
  rw [hD]
  calc |(S - 0.2 * c * n) + 0.2 * c * (n + w - 1) + 0.2 * c * ((c - P * w) / P)|
      ≤ |S - 0.2 * c * n| + |0.2 * c * (n + w - 1)| + |0.2 * c * ((c - P * w) / P)| :=
        abs_add_three _ _ _
    _ ≤ m * (1.01 * ε) + 0.2 * c * (m * ε) + 0.2 * c * (m * ε / P) := by linarith
    _ = m * ε * (0.2 * c * (1 + 1 / P) + 1.01) := by
        field_simp
        ring

/-- The sum of the adjustments of the entries not clawed back, in a completed
run on valid votes with pairwise distinct addresses and a pool `P` other than 0,
for any rounding of `div` that keeps 0, keeps signs and errs by `ε` at most. -/
theorem redistribution_near {rnd : ℚ → ℚ} {ε : ℚ} (hnn : ∀ q, 0 ≤ q → 0 ≤ rnd q)
    (h0 : rnd 0 = 0) (herr : ∀ q, |rnd q - q| ≤ ε)
    {choices : List String} {votes : List Vote} {out : Output} {t : ℕ} {P : ℚ}
    (hvalid : ∀ v ∈ votes, 0 ≤ v.vp ∧ (v.choice.map Prod.fst).Nodup ∧ v.choice ≠ [] ∧
      ∀ e ∈ v.choice, 0 < e.2)
    (ht : ∀ i, (getProposalChoices choices)[i]? = some OUR_BRIBED_CHOICE ↔ i = t)
    (hvoters : (votes.map Vote.voter).Nodup)
    (hproto : ∀ v ∈ votes, v.voter ≠ "__proto__")
    (hmain : main rnd choices votes = .ok out)
    (hP : out.totalBribe = fin P) (hP0 : P ≠ 0) :
    ∃ c, out.clawedBackWhaleBribeAmount = fin c ∧ 0 ≤ c ∧ 0 < P ∧
      (∀ r ∈ out.bribes, r.2.whaleAdjust.isFinite = true) ∧
      |((out.bribes.filter fun r => !shouldClawBackWhale r.1 r.2.voterVp).map
          fun r => r.2.whaleAdjust.toRat).sum - 0.2 * c * (1 - c / P)| ≤
        (out.bribes.length : ℚ) * ε * (0.2 * c * (1 + 1 / P) + 1.01) := by
  obtain ⟨V, hV, hV0⟩ := tracked_total_of_pool hnn h0 hvalid hmain hP hP0
  obtain ⟨T, _, hVpos, hVT, hocp, hP2, ⟨x, hx, hx1, hxV⟩, hcb, hbr, _⟩ :=
    run_facts hnn hvalid hmain hV hV0
  have hTpos : 0 < T := lt_of_lt_of_le hVpos hVT
  have hPeq : P = rnd (V / T) * 100 * 1000 := by
    rw [hP2] at hP
    injection hP with hP
    exact hP.symm
  have hPpos : 0 < P := by
    have : 0 ≤ rnd (V / T) := hnn _ (by positivity)
    have : 0 ≤ P := by
      rw [hPeq]
      positivity
    exact lt_of_le_of_ne this (Ne.symm hP0)
  have hε : 0 ≤ ε := le_trans (abs_nonneg _) (herr 0)
  have hget : getProp t (tally rnd votes) = some (fin V) := by
    rw [← (ht x.1).1 hx1, ← hxV]
    exact getProp_tally_of_mem hx
  rw [hP2, ← hPeq, hV] at hcb hbr
  have hshares := allocate_shares_near h0 herr P V hV0 hvalid ht hvoters hproto hget
  generalize hLdef : allocate rnd (getProposalChoices choices) (fin P) (some (fin V)) votes = L
    at hcb hbr hshares
  have hentry : ∀ b ∈ L, b.2.choicePerc = fin (b.2.choicePerc.toRat / 100 * 100) ∧
      b.2.bribeAmount = fin b.2.bribeAmount.toRat ∧ 0 ≤ b.2.bribeAmount.toRat ∧
      |b.2.bribeAmount.toRat - P * (b.2.choicePerc.toRat / 100)| ≤ ε := by
    intro b hb
    rw [← hLdef] at hb
    obtain ⟨u, _, h1, h2, h3⟩ := allocate_entry hnn (le_of_lt hPpos) hVpos hvalid hb
    have hU : b.2.choicePerc.toRat / 100 = u := by
      rw [h1]
      simp [BigNumber.toRat]
    rw [hU]
    refine ⟨h1, ?_, ?_, ?_⟩
    · rw [h2]
      rfl
    · rw [h2]
      exact h3
    · rw [h2]
      have e : P * u = P * (u * 100) / 100 := by ring
      show |rnd (P * (u * 100) / 100) - P * u| ≤ ε
      rw [e]
      exact herr (P * (u * 100) / 100)
  -- the clawed-back amount
  have hc : out.clawedBackWhaleBribeAmount =
      fin ((L.filter fun b => shouldClawBackWhale b.1 b.2.voterVp).map
        fun b => b.2.bribeAmount.toRat).sum := by
    rw [hcb, clawBack_eq]
    apply sum_map_eq_fin
    intro b hb
    exact (hentry b (List.mem_of_mem_filter hb)).2.1
  have hc0 : 0 ≤ ((L.filter fun b => shouldClawBackWhale b.1 b.2.voterVp).map
      fun b => b.2.bribeAmount.toRat).sum := by
    apply List.sum_nonneg
    intro y hy
    obtain ⟨b, hb, rfl⟩ := List.mem_map.1 hy
    exact (hentry b (List.mem_of_mem_filter hb)).2.2.1
  have hcw : |((L.filter fun b => shouldClawBackWhale b.1 b.2.voterVp).map
        fun b => b.2.bribeAmount.toRat).sum -
      P * ((L.filter fun b => shouldClawBackWhale b.1 b.2.voterVp).map
        fun b => b.2.choicePerc.toRat / 100).sum| ≤ (L.length : ℚ) * ε := by
    rw [← List.sum_map_mul_left]
    refine le_trans (sum_map_near _ _ ε _ fun b hb =>
      (hentry b (List.mem_of_mem_filter hb)).2.2.2) ?_
    apply mul_le_mul_of_nonneg_right _ hε
    exact_mod_cast List.length_filter_le _ L
  generalize ((L.filter fun b => shouldClawBackWhale b.1 b.2.voterVp).map
    fun b => b.2.bribeAmount.toRat).sum = c at hc hc0 hcw
  rw [hc] at hbr
  have hadj : ∀ b ∈ L,
      (adjust rnd out.ourChoicePercentage (fin c) b.1 b.2).whaleAdjust =
        (if shouldClawBackWhale b.1 b.2.voterVp then fin (-b.2.bribeAmount.toRat)
          else fin (rnd (rnd (b.2.choicePerc.toRat / 100 * 100 * c * 20 / 100) / 100))) := by
    intro b hb
    obtain ⟨h1, h3, _, _⟩ := hentry b hb
    obtain ⟨i, vp, cp, ba⟩ := b
    simp only at h1 h3 ⊢
    have h2 := (adjust_fin rnd out.ourChoicePercentage c (cp.toRat / 100 * 100) ba.toRat vp i).1
    rw [← h1, ← h3] at h2
    exact h2
  have hsn : |((L.filter fun b => !shouldClawBackWhale b.1 b.2.voterVp).map
        fun b => (adjust rnd out.ourChoicePercentage (fin c) b.1 b.2).whaleAdjust.toRat).sum -
      0.2 * c * ((L.filter fun b => !shouldClawBackWhale b.1 b.2.voterVp).map
        fun b => b.2.choicePerc.toRat / 100).sum| ≤ (L.length : ℚ) * (1.01 * ε) := by
    rw [← List.sum_map_mul_left]
    refine le_trans (sum_map_near _ _ (1.01 * ε) _ fun b hb => ?_) ?_
    · have hnw : shouldClawBackWhale b.1 b.2.voterVp = false := by
        have := (List.mem_filter.1 hb).2
        simpa using this
      rw [hadj b (List.mem_of_mem_filter hb), hnw]
      exact rounded_twice_near herr _ c
    · apply mul_le_mul_of_nonneg_right _ (by positivity)
      exact_mod_cast List.length_filter_le _ L
  have hnw := sum_ite_add_ite (fun b : String × Bribe => shouldClawBackWhale b.1 b.2.voterVp)
    (fun b => b.2.choicePerc.toRat / 100) L
  rw [← sum_filter_not_eq_ite, ← sum_filter_eq_ite] at hnw
  rw [← hnw] at hshares
  refine ⟨c, hc, hc0, hPpos, ?_, ?_⟩
  · intro r hr
    rw [hbr] at hr
    obtain ⟨b, hb, rfl⟩ := List.mem_map.1 hr
    simp only
    rw [hadj b hb]
    split_ifs <;> rfl
  · rw [hbr]
    unfold redistribute
    rw [List.filter_map, List.map_map, List.length_map]
    have hfilter : (L.filter ((fun r : String × BribeRecord =>
          !shouldClawBackWhale r.1 r.2.voterVp) ∘
        fun b => (b.1, adjust rnd out.ourChoicePercentage (fin c) b.1 b.2))) =
        L.filter fun b => !shouldClawBackWhale b.1 b.2.voterVp := rfl
    rw [hfilter]
    exact near_of_parts hPpos hc0 hsn hcw hshares

/-! ## Claim on the redistributed amount -/

/-- C17 as stated fails on both counts.  For `smallShareVotes`, two votes of
distinct addresses, the run completes with a pool of about 3.33 and a
clawed-back amount of `3 * 10^-20`, more than 0; the adjustment of the one entry
not clawed back, rounded to 20 decimal places, is `10^-20`: this is not
`0.2 * c * (1 - c / P)` and it is more than 20 per cent of the clawed-back
amount.  And in `protoVotes`, three votes of distinct addresses, the voter
`__proto__` is the one voter of the bribed choice not clawed back and has no
entry in `bribes`: the adjustments add up to 0, while `0.2 * c * (1 - c / P)` is
about 3333.3. -/
theorem redistribution_not_as_stated :
    main rnd20 smallShareChoices smallShareVotes = .ok smallShareOutput ∧
      (smallShareVotes.map Vote.voter).Nodup ∧
      smallShareOutput.totalBribe = fin (1666611112962901 / 500000000000000) ∧
      smallShareOutput.clawedBackWhaleBribeAmount = fin (3 / 100000000000000000000) ∧
      nonWhaleAdjustments smallShareOutput.bribes = 1 / 100000000000000000000 ∧
      (1 / 100000000000000000000 : ℚ) ≠
        0.2 * (3 / 100000000000000000000) *
          (1 - 3 / 100000000000000000000 / (1666611112962901 / 500000000000000)) ∧
      ¬ (1 / 100000000000000000000 : ℚ) < 0.2 * (3 / 100000000000000000000) ∧
      main rnd20 scenarioChoices protoVotes = .ok protoOutput ∧
      (protoVotes.map Vote.voter).Nodup ∧
      protoVotes.map Vote.voter = ["__proto__", "0x02", "0x03"] ∧
      protoOutput.totalBribe = fin (88888888888888888889 / 1000000000000000) ∧
      protoOutput.clawedBackWhaleBribeAmount = fin (266666666666666666667 / 4000000000000000) ∧
      nonWhaleAdjustments protoOutput.bribes = 0 ∧
      ¬ |(0 : ℚ) - 0.2 * (266666666666666666667 / 4000000000000000) *
          (1 - 266666666666666666667 / 4000000000000000 /
            (88888888888888888889 / 1000000000000000))| ≤ 3333 := by
  refine ⟨small_share_main, by decide, rfl, rfl, by decide!, by norm_num, by norm_num,
    proto_main, by decide, rfl, rfl, rfl, by decide!, ?_⟩
  rw [abs_le]
  norm_num

theorem scenario_adjustments :
    nonWhaleAdjustments scenarioOutput.bribes = 266666666666666666667 / 80000000000000000 := by
  decide!

/-- C17, amended.  Take votes with voting powers not below 0 and positive
weights, pairwise distinct addresses, none of them `__proto__`, `t` being the
one choice id that carries the bribed label.  In a completed run with a pool `P` other than 0, the
clawed-back amount `c` is a number not below 0 and the sum of the adjustments of
the entries not clawed back lies within
`n * (0.2 * c * (1 + 1 / P) + 1.01) / (2 * 10^20)` of `0.2 * c * (1 - c / P)`,
for `n` entries.  With exact divisions the sum is `0.2 * c * (1 - c / P)`, and is
less than `0.2 * c` whenever `c` is more than 0.  In the scenario the sum differs
from 20 per cent of the clawed-back amount. -/
theorem redistribution_shortfall (choices : List String) (votes : List Vote) (t : ℕ)
    (hvalid : ∀ v ∈ votes, 0 ≤ v.vp ∧ (v.choice.map Prod.fst).Nodup ∧ v.choice ≠ [] ∧
      ∀ e ∈ v.choice, 0 < e.2)
    (htracked : ∀ i, (getProposalChoices choices)[i]? = some OUR_BRIBED_CHOICE ↔ i = t)
    (hvoters : (votes.map Vote.voter).Nodup)
    (hproto : ∀ v ∈ votes, v.voter ≠ "__proto__") :
    (∀ out P, main rnd20 choices votes = .ok out → out.totalBribe = fin P → P ≠ 0 →
      ∃ c, out.clawedBackWhaleBribeAmount = fin c ∧ 0 ≤ c ∧
        (∀ r ∈ out.bribes, r.2.whaleAdjust.isFinite = true) ∧
        |nonWhaleAdjustments out.bribes - 0.2 * c * (1 - c / P)| ≤
          (out.bribes.length : ℚ) * (0.2 * c * (1 + 1 / P) + 1.01) / (2 * 10 ^ 20)) ∧
    (∀ out P, main id choices votes = .ok out → out.totalBribe = fin P → P ≠ 0 →
      ∃ c, out.clawedBackWhaleBribeAmount = fin c ∧ 0 ≤ c ∧
        (∀ r ∈ out.bribes, r.2.whaleAdjust.isFinite = true) ∧
        nonWhaleAdjustments out.bribes = 0.2 * c * (1 - c / P) ∧
        (0 < c → nonWhaleAdjustments out.bribes < 0.2 * c)) ∧
    (main rnd20 scenarioChoices scenarioVotes = .ok scenarioOutput ∧
      nonWhaleAdjustments scenarioOutput.bribes ≠
        0.2 * scenarioOutput.clawedBackWhaleBribeAmount.toRat) := by
  refine ⟨?_, ?_, scenario_main, ?_⟩
  · intro out P hmain hP hP0
    obtain ⟨c, hc, hc0, _, hfin, hnear⟩ :=
      redistribution_near (fun q hq => rnd20_nonneg hq) rnd20_zero rnd20_error hvalid htracked
        hvoters hproto hmain hP hP0
    refine ⟨c, hc, hc0, hfin, ?_⟩
    have e : (out.bribes.length : ℚ) * (0.2 * c * (1 + 1 / P) + 1.01) / (2 * 10 ^ 20) =
        (out.bribes.length : ℚ) * (1 / (2 * 10 ^ 20)) * (0.2 * c * (1 + 1 / P) + 1.01) := by
      ring
    rw [e]
    exact hnear
  · intro out P hmain hP hP0
    obtain ⟨c, hc, hc0, hPpos, hfin, hnear⟩ :=
      redistribution_near (show ∀ q : ℚ, 0 ≤ q → 0 ≤ id q from fun q hq => hq) rfl
        (show ∀ q : ℚ, |id q - q| ≤ 0 from fun q => by simp) hvalid
        htracked hvoters hproto hmain hP hP0
    have heq : nonWhaleAdjustments out.bribes = 0.2 * c * (1 - c / P) := by
      have h0 : |nonWhaleAdjustments out.bribes - 0.2 * c * (1 - c / P)| ≤ 0 := by
        simpa using hnear
      have := abs_nonpos_iff.1 h0
      linarith
    refine ⟨c, hc, hc0, hfin, heq, ?_⟩
    intro hcpos
    rw [heq]
    have : 0 < c / P := div_pos hcpos hPpos
    nlinarith
  · rw [scenario_adjustments]
    simp only [scenarioOutput, BigNumber.toRat]
    norm_num

/-- C17, amended, at the scenario: the adjustment of V1 lies within the bound of
`0.2 * c * (1 - c / P)`. -/
theorem redistribution_shortfall_witness :
    |nonWhaleAdjustments scenarioOutput.bribes -
        0.2 * (266666666666666666667 / 4000000000000000) *
          (1 - 266666666666666666667 / 4000000000000000 /
            (88888888888888888889 / 1000000000000000))| ≤
      (scenarioOutput.bribes.length : ℚ) *
        (0.2 * (266666666666666666667 / 4000000000000000) *
          (1 + 1 / (88888888888888888889 / 1000000000000000)) + 1.01) / (2 * 10 ^ 20) := by
  obtain ⟨c, hc, _, _, hnear⟩ :=
    (redistribution_shortfall scenarioChoices scenarioVotes 2 scenario_valid scenario_tracked
      (by decide) (by decide!)).1 scenarioOutput (88888888888888888889 / 1000000000000000) scenario_main rfl
      (by norm_num)
  have hc2 : c = 266666666666666666667 / 4000000000000000 := by
    have h : fin (266666666666666666667 / 4000000000000000) = fin c := hc
    injection h with h
    exact h.symm
  rw [hc2] at hnear
  exact hnear

/-! ## Votes of voting power 0 -/

theorem foldl_filter_skip {α β : Type} (f : α → β → α) (p : β → Bool) (l : List β) (acc : α)
    (h : ∀ a x, p x = false → f a x = a) : (l.filter p).foldl f acc = l.foldl f acc := by
  induction l generalizing acc with
  | nil => rfl
  | cons x xs ih =>
    by_cases hx : p x = true
    · simp only [List.filter_cons, hx, if_true, List.foldl_cons]
      exact ih _
    · have hx2 : p x = false := by simpa using hx
      simp only [List.filter_cons, hx2, Bool.false_eq_true, if_false, List.foldl_cons,
        h acc x hx2]
      exact ih _

/-- A vote of voting power 0 writes no entry of `bribes`, new or old. -/
theorem allocate_filter (rnd : ℚ → ℚ) (choicesDict : List String) (totalBribe : BigNumber)
    (ourChoiceVotes : Option BigNumber) (votes : List Vote) :
    allocate rnd choicesDict totalBribe ourChoiceVotes (votes.filter fun v => v.vp ≠ 0) =
      allocate rnd choicesDict totalBribe ourChoiceVotes votes := by
  unfold allocate
  apply foldl_filter_skip
  intro a v hv
  have hvp : v.vp = 0 := by simpa using hv
  simp [bribeVote, hvp]

theorem sum_eq_zero_of_all {l : List BigNumber} (h : ∀ x ∈ l, x = fin 0) : l.sum = fin 0 := by
  induction l with
  | nil => rfl
  | cons x xs ih =>
    rw [List.sum_cons, h x (List.mem_cons_self _ _),
      ih fun y hy => h y (List.mem_cons_of_mem _ hy), ← zero_def, add_zero]

/-- The values added to the total of choice `c`, with and without the votes of
voting power 0: these add 0 each. -/
theorem contributions_filter {rnd : ℚ → ℚ} (h0 : rnd 0 = 0) (c : ℕ) (votes : List Vote)
    (hz : ∀ v ∈ votes, v.vp = 0 → (v.choice.map Prod.snd).sum ≠ 0) :
    (contributions rnd c votes).sum =
        (contributions rnd c (votes.filter fun v => v.vp ≠ 0)).sum ∧
      (contributions rnd c (votes.filter fun v => v.vp ≠ 0) = [] →
        ∀ x ∈ contributions rnd c votes, x = fin 0) ∧
      (contributions rnd c votes = [] →
        contributions rnd c (votes.filter fun v => v.vp ≠ 0) = []) := by
  induction votes with
  | nil => exact ⟨rfl, fun _ x hx => by simp [contributions] at hx, fun _ => rfl⟩
  | cons v vs ih =>
    obtain ⟨ih1, ih2, ih3⟩ := ih fun x hx => hz x (List.mem_cons_of_mem _ hx)
    by_cases hvp : v.vp = 0
    · have hs := hz v (List.mem_cons_self _ _) hvp
      have hblock : ∀ x ∈ (v.choice.filter fun e => e.1 = c).map fun e => choiceVote rnd v e.2,
          x = fin 0 := by
        intro x hx
        obtain ⟨e, he, rfl⟩ := List.mem_map.1 hx
        have hne : v.choice ≠ [] := List.ne_nil_of_mem (List.mem_of_mem_filter he)
        rw [choiceVote_eq rnd v e.2 hne hs, hvp]
        simp [h0]
      have hfilter : ((v :: vs).filter fun v => v.vp ≠ 0) = vs.filter fun v => v.vp ≠ 0 := by
        simp [List.filter_cons, hvp]
      rw [hfilter]
      refine ⟨?_, ?_, ?_⟩
      · rw [contributions, List.sum_append, sum_eq_zero_of_all hblock, ih1, ← zero_def,
          zero_add]
      · intro hnil x hx
        rw [contributions, List.mem_append] at hx
        rcases hx with hx | hx
        · exact hblock x hx
        · exact ih2 hnil x hx
      · intro hnil
        rw [contributions, List.append_eq_nil] at hnil
        exact ih3 hnil.2
    · have hfilter : ((v :: vs).filter fun v => v.vp ≠ 0) =
          v :: vs.filter fun v => v.vp ≠ 0 := by
        simp [List.filter_cons, hvp]
      rw [hfilter]
      refine ⟨?_, ?_, ?_⟩
      · rw [contributions, contributions, List.sum_append, List.sum_append, ih1]
      · intro hnil x hx
        rw [contributions, List.append_eq_nil] at hnil
        rw [contributions, hnil.1, List.nil_append] at hx
        exact ih2 hnil.2 x hx
      · intro hnil
        rw [contributions, List.append_eq_nil] at hnil
        rw [contributions, hnil.1, ih3 hnil.2]
        rfl

/-- The totals with and without the votes of voting power 0: a total of the run
without them is unchanged, a further total is 0. -/
theorem getProp_tally_filter {rnd : ℚ → ℚ} (h0 : rnd 0 = 0) (c : ℕ) (votes : List Vote)
    (hz : ∀ v ∈ votes, v.vp = 0 → (v.choice.map Prod.snd).sum ≠ 0) :
    (∀ x, getProp c (tally rnd (votes.filter fun v => v.vp ≠ 0)) = some x →
      getProp c (tally rnd votes) = some x) ∧
    (getProp c (tally rnd (votes.filter fun v => v.vp ≠ 0)) = none →
      getProp c (tally rnd votes) = none ∨ getProp c (tally rnd votes) = some (fin 0)) := by
  obtain ⟨h1, h2, h3⟩ := contributions_filter h0 c votes hz
  rw [getProp_tally, getProp_tally]
  unfold accumulate
  constructor
  · intro x hx
    by_cases hnil0 : contributions rnd c (votes.filter fun v => v.vp ≠ 0) = []
    · rw [if_pos hnil0] at hx
      exact absurd hx (by simp)
    · have hnil : contributions rnd c votes ≠ [] := fun h => hnil0 (h3 h)
      rw [if_neg hnil0] at hx
      rw [if_neg hnil, h1]
      exact hx
  · intro hx
    by_cases hnil0 : contributions rnd c (votes.filter fun v => v.vp ≠ 0) = []
    · by_cases hnil : contributions rnd c votes = []
      · left
        rw [if_pos hnil]
      · right
        rw [if_neg hnil, sum_eq_zero_of_all (h2 hnil0), ← zero_def, add_zero]
        rfl
    · rw [if_neg hnil0] at hx
      exact absurd hx (by simp)

theorem getProp_filter_key {α : Type} (p : ℕ → Bool) (l : List (ℕ × α)) (k : ℕ) :
    getProp k (l.filter fun x => p x.1) = if p k then getProp k l else none := by
  induction l with
  | nil => simp [getProp]
  | cons y t ih =>
    obtain ⟨k', v⟩ := y
    by_cases hk : k = k'
    · subst hk
      by_cases hp : p k = true
      · simp [List.filter_cons, hp, getProp]
      · simp [List.filter_cons, hp, getProp, ih]
    · by_cases hp : p k' = true
      · simp [List.filter_cons, hp, getProp, hk, ih]
      · simp [List.filter_cons, hp, getProp, hk, ih]

theorem sum_eq_listSum {l : List BigNumber} (h : l ≠ []) : BigNumber.sum l = l.sum := by
  cases l with
  | nil => exact absurd rfl h
  | cons x xs => exact sum_cons x xs

theorem sum_filter_of_zero {α : Type} (f : α → BigNumber) (p : α → Bool) (l : List α)
    (h : ∀ x ∈ l, p x = false → f x = fin 0) : ((l.filter p).map f).sum = (l.map f).sum := by
  induction l with
  | nil => rfl
  | cons x xs ih =>
    have ih1 := ih fun y hy => h y (List.mem_cons_of_mem _ hy)
    by_cases hx : p x = true
    · simp [List.filter_cons, hx, ih1]
    · have hx2 : p x = false := by simpa using hx
      simp only [List.filter_cons, hx2, Bool.false_eq_true, if_false, List.map_cons,
        List.sum_cons, ih1, h x (List.mem_cons_self _ _) hx2, ← zero_def, zero_add]

/-- The entries of `voteTotals` without the votes of voting power 0 are entries
with them, in the same order; an entry that goes with them holds the amount 0. -/
theorem tally_filter {rnd : ℚ → ℚ} (h0 : rnd 0 = 0) (votes : List Vote)
    (hz : ∀ v ∈ votes, v.vp = 0 → (v.choice.map Prod.snd).sum ≠ 0) :
    tally rnd (votes.filter fun v => v.vp ≠ 0) =
        (tally rnd votes).filter
          (fun x => (getProp x.1 (tally rnd (votes.filter fun v => v.vp ≠ 0))).isSome) ∧
      ∀ x ∈ tally rnd votes,
        (getProp x.1 (tally rnd (votes.filter fun v => v.vp ≠ 0))).isSome = false →
          x.2 = fin 0 := by
  constructor
  · apply eq_of_getProp_eq _ _ (tally_keys_sorted rnd _)
    · have hsub : ((tally rnd votes).filter
          (fun x => (getProp x.1 (tally rnd (votes.filter fun v => v.vp ≠ 0))).isSome)).map
            Prod.fst |>.Sublist ((tally rnd votes).map Prod.fst) :=
        (List.filter_sublist _).map Prod.fst
      exact (tally_keys_sorted rnd votes).sublist hsub
    · intro k
      rw [getProp_filter_key
        (fun k => (getProp k (tally rnd (votes.filter fun v => v.vp ≠ 0))).isSome)]
      cases hg : getProp k (tally rnd (votes.filter fun v => v.vp ≠ 0)) with
      | none => simp
      | some x =>
        simp only [Option.isSome_some, if_true]
        exact ((getProp_tally_filter h0 k votes hz).1 x hg).symm
  · intro x hx hnone
    have hget := getProp_tally_of_mem hx
    have hn : getProp x.1 (tally rnd (votes.filter fun v => v.vp ≠ 0)) = none := by
      cases hg : getProp x.1 (tally rnd (votes.filter fun v => v.vp ≠ 0)) with
      | none => rfl
      | some y =>
        rw [hg] at hnone
        exact absurd hnone (by simp)
    rcases (getProp_tally_filter h0 x.1 votes hz).2 hn with h | h
    · rw [h] at hget
      exact absurd hget (by simp)
    · rw [h] at hget
      exact (Option.some.inj hget).symm

theorem totalVoteOf_filter {rnd : ℚ → ℚ} (h0 : rnd 0 = 0) (votes : List Vote)
    (hz : ∀ v ∈ votes, v.vp = 0 → (v.choice.map Prod.snd).sum ≠ 0)
    (hne : tally rnd (votes.filter fun v => v.vp ≠ 0) ≠ []) :
    totalVoteOf (tally rnd (votes.filter fun v => v.vp ≠ 0)) = totalVoteOf (tally rnd votes) := by
  obtain ⟨h1, h2⟩ := tally_filter h0 votes hz
  have hne2 : tally rnd votes ≠ [] := by
    intro h
    rw [h] at h1
    exact hne (by simpa using h1)
  unfold totalVoteOf
  rw [sum_eq_listSum (by simpa using hne), sum_eq_listSum (by simpa using hne2)]
  conv_lhs => rw [h1]
  exact sum_filter_of_zero Prod.snd _ _ h2

theorem chainStep_of_chain {rnd : ℚ → ℚ} {choicesDict : List String} {totalVote : BigNumber}
    (st : ChainState) {x : ℕ × BigNumber} {chain : String}
    (h : choiceToChain choicesDict[x.1]? = .ok chain) :
    ∃ st1, chainStep rnd choicesDict totalVote st x = .ok st1 := by
  unfold chainStep
  simp only [h]
  exact ⟨_, rfl⟩

/-- The percentages by chain when entries that add 0 are left out: under a name
that is not inherited, a percentage of the shorter loop is unchanged and a
further one is 0. -/
theorem chainLoop_filter {rnd : ℚ → ℚ} {choicesDict : List String} {totalVote : BigNumber}
    (p : ℕ × BigNumber → Bool) (l : List (ℕ × BigNumber))
    (hzero : ∀ x ∈ l, p x = false → percentageOf rnd totalVote x.2 = fin 0)
    (st st' st1 : ChainState)
    (h : chainLoop rnd choicesDict totalVote l st = .ok st1)
    (hinv : ∀ ch, ch ∉ inheritedKeys true →
      (∀ y, getProp ch st'.percentagesByChain = some y →
        getProp ch st.percentagesByChain = some y) ∧
      (getProp ch st'.percentagesByChain = none →
        getProp ch st.percentagesByChain = none ∨
          getProp ch st.percentagesByChain = some (fin 0))) :
    ∃ st1', chainLoop rnd choicesDict totalVote (l.filter p) st' = .ok st1' ∧
      ∀ ch, ch ∉ inheritedKeys true →
        (∀ y, getProp ch st1'.percentagesByChain = some y →
          getProp ch st1.percentagesByChain = some y) ∧
        (getProp ch st1'.percentagesByChain = none →
          getProp ch st1.percentagesByChain = none ∨
            getProp ch st1.percentagesByChain = some (fin 0)) := by
  induction l generalizing st st' with
  | nil =>
    simp only [chainLoop, Except.ok.injEq] at h
    subst h
    exact ⟨st', rfl, hinv⟩
  | cons x xs ih =>
    unfold chainLoop at h
    split at h
    · exact absurd h (by simp)
    · next st2 hstep =>
      obtain ⟨chain, hchain, _, hother, hset⟩ := chainStep_ok hstep
      have hzero2 : ∀ y ∈ xs, p y = false → percentageOf rnd totalVote y.2 = fin 0 :=
        fun y hy => hzero y (List.mem_cons_of_mem _ hy)
      by_cases hp : p x = true
      · have hex : ∃ st1, chainStep rnd choicesDict totalVote st' x = .ok st1 :=
          chainStep_of_chain st' hchain
        obtain ⟨st2', hstep'⟩ := hex
        obtain ⟨chain', hchain', _, hother', hset'⟩ := chainStep_ok hstep'
        have hcc : chain' = chain := by
          rw [hchain] at hchain'
          injection hchain' with e
          exact e.symm
        subst hcc
        have hinv2 : ∀ ch, ch ∉ inheritedKeys true →
            (∀ y, getProp ch st2'.percentagesByChain = some y →
              getProp ch st2.percentagesByChain = some y) ∧
            (getProp ch st2'.percentagesByChain = none →
              getProp ch st2.percentagesByChain = none ∨
                getProp ch st2.percentagesByChain = some (fin 0)) := by
          intro ch hch
          by_cases hc : ch = chain'
          · subst hc
            have hpbc := (hset (not_mem_inheritedKeys _ hch)).1
            have hpbc' := (hset' (not_mem_inheritedKeys _ hch)).1
            have hold : (getProp ch st.percentagesByChain).getD 0 =
                (getProp ch st'.percentagesByChain).getD 0 := by
              cases hg : getProp ch st'.percentagesByChain with
              | none =>
                rcases (hinv ch hch).2 hg with e | e
                · rw [e]
                · rw [e]
                  rfl
              | some y => rw [(hinv ch hch).1 y hg]
            rw [hpbc, hpbc', getProp_setProp, getProp_setProp, hold]
            simp
          · rw [hother ch hc, hother' ch hc]
            exact hinv ch hch
        obtain ⟨st1', hloop, hres⟩ := ih hzero2 st2 st2' h hinv2
        refine ⟨st1', ?_, hres⟩
        simp only [List.filter_cons, hp, if_true]
        unfold chainLoop
        simp only [hstep']
        exact hloop
      · have hp2 : p x = false := by simpa using hp
        have hpct := hzero x (List.mem_cons_self _ _) hp2
        have hinv2 : ∀ ch, ch ∉ inheritedKeys true →
            (∀ y, getProp ch st'.percentagesByChain = some y →
              getProp ch st2.percentagesByChain = some y) ∧
            (getProp ch st'.percentagesByChain = none →
              getProp ch st2.percentagesByChain = none ∨
                getProp ch st2.percentagesByChain = some (fin 0)) := by
          intro ch hch
          by_cases hc : ch = chain
          · subst hc
            have hpbc := (hset (not_mem_inheritedKeys _ hch)).1
            rw [hpbc, getProp_setProp, hpct, ← zero_def, add_zero]
            simp only [if_true]
            constructor
            · intro y hy
              rw [(hinv ch hch).1 y hy]
              rfl
            · intro hn
              right
              rcases (hinv ch hch).2 hn with e | e
              · rw [e]
                rfl
              · rw [e]
                rfl
          · rw [hother ch hc]
            exact hinv ch hch
        obtain ⟨st1', hloop, hres⟩ := ih hzero2 st2 st' h hinv2
        refine ⟨st1', ?_, hres⟩
        simp only [List.filter_cons, hp2, Bool.false_eq_true, if_false]
        exact hloop

theorem ours_of_chainLoop {rnd : ℚ → ℚ} {choicesDict : List String} {totalVote : BigNumber}
    {l : List (ℕ × BigNumber)} {st1 : ChainState} {t : ℕ}
    (ht : ∀ i, choicesDict[i]? = some OUR_BRIBED_CHOICE ↔ i = t)
    (hkeys : (l.map Prod.fst).Nodup)
    (h : chainLoop rnd choicesDict totalVote l (ChainState.mk [] [] none none false) = .ok st1) :
    st1.ourChoiceVotes = getProp t l ∧
      st1.ourChoicePercentage = (getProp t l).map (percentageOf rnd totalVote) := by
  rcases chainLoop_ours h with ⟨h1, h2, h3⟩ | ⟨x, hx, hx1, hx2, hx3⟩
  · have hnone : getProp t l = none := by
      cases hg : getProp t l with
      | none => rfl
      | some y => exact absurd ((ht t).2 rfl) (h3 _ (getProp_mem hg))
    rw [h1, h2, hnone]
    exact ⟨rfl, rfl⟩
  · have hxt : x.1 = t := (ht x.1).1 hx1
    have hget : getProp t l = some x.2 := by
      rw [← hxt]
      exact getProp_of_mem_nodup hkeys hx
    rw [hx2, hx3, hget]
    exact ⟨rfl, rfl⟩

theorem allocate_nil {rnd : ℚ → ℚ} {choicesDict : List String} {totalBribe : BigNumber}
    {ourChoiceVotes : Option BigNumber} {votes : List Vote}
    (h : ∀ v ∈ votes, ∀ e ∈ v.choice, choicesDict[e.1]? ≠ some OUR_BRIBED_CHOICE) :
    allocate rnd choicesDict totalBribe ourChoiceVotes votes = [] := by
  cases hl : allocate rnd choicesDict totalBribe ourChoiceVotes votes with
  | nil => rfl
  | cons b bs =>
    have hb : b ∈ allocate rnd choicesDict totalBribe ourChoiceVotes votes := by
      rw [hl]
      exact List.mem_cons_self _ _
    obtain ⟨v, hv, e, he, _, hc, _⟩ := mem_allocate hb
    exact absurd hc (h v hv e he)

theorem percentage_of_zero {rnd : ℚ → ℚ} (h0 : rnd 0 = 0) {T : ℚ} (hT : T ≠ 0) :
    percentageOf rnd (fin T) (fin 0) = fin 0 := by
  rw [percentageOf_fin rnd T 0 hT, zero_div, h0, zero_mul]

theorem lt_zero_threshold : (fin 0).lt (fin 8.333) = true := by
  decide!

/-- The run without the votes of voting power 0, when the run with them
completes on a total vote other than 0: it completes as well, on the same total
vote, bribes, clawed-back amount and sum of bribes. -/
theorem zero_power_run {rnd : ℚ → ℚ} (h0 : rnd 0 = 0) {choices : List String}
    {votes : List Vote} {out : Output} {t : ℕ} {T : ℚ}
    (hz : ∀ v ∈ votes, v.vp = 0 → (v.choice.map Prod.snd).sum ≠ 0)
    (ht : ∀ i, (getProposalChoices choices)[i]? = some OUR_BRIBED_CHOICE ↔ i = t)
    (hmain : main rnd choices votes = .ok out)
    (hT : out.totalVote = fin T) (hT0 : T ≠ 0) :
    ∃ out0, main rnd choices (votes.filter fun v => v.vp ≠ 0) = .ok out0 ∧
      out0.voteTotals = tally rnd (votes.filter fun v => v.vp ≠ 0) ∧
      out.voteTotals = tally rnd votes ∧
      out0.totalVote = out.totalVote ∧
      (∀ ch, ch ∉ inheritedKeys true →
        (∀ y, getProp ch out0.percentagesByChain = some y →
          getProp ch out.percentagesByChain = some y) ∧
        (getProp ch out0.percentagesByChain = none →
          getProp ch out.percentagesByChain = none ∨
            getProp ch out.percentagesByChain = some (fin 0))) ∧
      out0.bribes = out.bribes ∧
      out0.clawedBackWhaleBribeAmount = out.clawedBackWhaleBribeAmount ∧
      out0.sumBribes = out.sumBribes ∧
      ((out0.ourChoiceVotes = out.ourChoiceVotes ∧
          out0.ourChoicePercentage = out.ourChoicePercentage ∧
          out0.totalBribe = out.totalBribe) ∨
        (out0.ourChoiceVotes = none ∧ out.ourChoiceVotes = some (fin 0) ∧
          out0.ourChoicePercentage = none ∧ out.ourChoicePercentage = some (fin 0) ∧
          out0.totalBribe = nan ∧ out.totalBribe = fin 0 ∧ out.bribes = [])) := by
  obtain ⟨agg, hagg, hgate, hout⟩ := main_ok_inv hmain
  simp only [aggregate] at hagg
  split at hagg
  · exact absurd hagg (by simp)
  next st hst =>
  simp only [Except.ok.injEq] at hagg
  subst hagg
  subst hout
  have hT1 : totalVoteOf (tally rnd votes) = fin T := hT
  simp only at hgate
  obtain ⟨hfilter, hdrop⟩ := tally_filter h0 votes hz
  have hne0 : tally rnd (votes.filter fun v => v.vp ≠ 0) ≠ [] := by
    intro hnil
    have hall : ∀ x ∈ (tally rnd votes).map Prod.snd, x = fin 0 := by
      intro y hy
      obtain ⟨x, hx, rfl⟩ := List.mem_map.1 hy
      apply hdrop x hx
      rw [hnil]
      rfl
    unfold totalVoteOf at hT1
    cases hl : (tally rnd votes).map Prod.snd with
    | nil =>
      rw [hl] at hT1
      exact absurd hT1 (by simp [BigNumber.sum])
    | cons y ys =>
      rw [sum_eq_listSum (by simp [hl]), sum_eq_zero_of_all hall] at hT1
      injection hT1 with hT1
      exact hT0 hT1.symm
  have hT2 : totalVoteOf (tally rnd (votes.filter fun v => v.vp ≠ 0)) = fin T :=
    (totalVoteOf_filter h0 votes hz hne0).trans hT1
  rw [hT1] at hst
  obtain ⟨st0, hst0, hpbc⟩ := chainLoop_filter
    (fun x => (getProp x.1 (tally rnd (votes.filter fun v => v.vp ≠ 0))).isSome)
    (tally rnd votes)
    (fun x hx hp => by
      rw [hdrop x hx hp]
      exact percentage_of_zero h0 hT0)
    (ChainState.mk [] [] none none false) (ChainState.mk [] [] none none false) st hst
    (fun ch _ => ⟨fun y hy => hy, fun hn => Or.inl hn⟩)
  rw [← hfilter] at hst0
  have hagg0 : aggregate rnd (getProposalChoices choices) (votes.filter fun v => v.vp ≠ 0) =
      .ok (Aggregated.mk (tally rnd (votes.filter fun v => v.vp ≠ 0)) (fin T) st0) := by
    simp only [aggregate, hT2, hst0]
  have harb : "Arbitrum" ∉ inheritedKeys true := by decide
  have hgate0 : gate st0.percentagesByChain = .ok () := by
    rw [gate_eq] at hgate ⊢
    cases hg : getProp "Arbitrum" st.percentagesByChain with
    | none =>
      rw [hg] at hgate
      exact absurd hgate (by simp)
    | some p =>
      rw [hg] at hgate
      simp only at hgate
      cases hg0 : getProp "Arbitrum" st0.percentagesByChain with
      | none =>
        rcases (hpbc "Arbitrum" harb).2 hg0 with e | e
        · rw [e] at hg
          exact absurd hg (by simp)
        · rw [e] at hg
          injection hg with hg
          rw [← hg, lt_zero_threshold] at hgate
          exact absurd hgate (by simp)
      | some y =>
        have := (hpbc "Arbitrum" harb).1 y hg0
        rw [hg] at this
        injection this with this
        rw [← this]
        exact hgate
  have hmain0 := main_eq_of_aggregate hagg0
  simp only [hgate0] at hmain0
  obtain ⟨ho1, ho2⟩ := ours_of_chainLoop ht
    ((tally_keys_sorted rnd votes).imp fun h => ne_of_lt h) hst
  obtain ⟨ho3, ho4⟩ := ours_of_chainLoop ht
    ((tally_keys_sorted rnd (votes.filter fun v => v.vp ≠ 0)).imp fun h => ne_of_lt h) hst0
  refine ⟨_, hmain0, rfl, rfl, hT1.symm, hpbc, ?_⟩
  cases hg0 : getProp t (tally rnd (votes.filter fun v => v.vp ≠ 0)) with
  | some x =>
    have hg := (getProp_tally_filter h0 t votes hz).1 x hg0
    have e1 : st0.ourChoiceVotes = st.ourChoiceVotes := by rw [ho1, ho3, hg, hg0]
    have e2 : st0.ourChoicePercentage = st.ourChoicePercentage := by rw [ho2, ho4, hg, hg0]
    refine ⟨?_, ?_, ?_, Or.inl ⟨e1, e2, ?_⟩⟩
    · simp only [distribute, e1, e2, allocate_filter]
    · simp only [distribute, e1, e2, allocate_filter]
    · simp only [distribute, e1, e2, allocate_filter]
    · show totalBribeOf st0.ourChoicePercentage = totalBribeOf st.ourChoicePercentage
      rw [e2]
  | none =>
    have hnil : ∀ (P : BigNumber) (ocv : Option BigNumber),
        allocate rnd (getProposalChoices choices) P ocv (votes.filter fun v => v.vp ≠ 0) = [] := by
      intro P ocv
      apply allocate_nil
      intro v hv e he hc
      obtain ⟨x, hx⟩ := mem_tally_of_entry rnd hv he
      have := getProp_tally_of_mem hx
      simp only at this
      rw [(ht e.1).1 hc, hg0] at this
      exact absurd this (by simp)
    have hnil2 : ∀ (P : BigNumber) (ocv : Option BigNumber),
        allocate rnd (getProposalChoices choices) P ocv votes = [] := by
      intro P ocv
      rw [← allocate_filter]
      exact hnil P ocv
    refine ⟨?_, ?_, ?_, ?_⟩
    · simp only [distribute, hnil, hnil2]
      rfl
    · simp only [distribute, hnil, hnil2]
    · simp only [distribute, hnil, hnil2]
      rfl
    rcases (getProp_tally_filter h0 t votes hz).2 hg0 with hg | hg
    · left
      have e1 : st0.ourChoiceVotes = st.ourChoiceVotes := by rw [ho1, ho3, hg, hg0]
      have e2 : st0.ourChoicePercentage = st.ourChoicePercentage := by rw [ho2, ho4, hg, hg0]
      refine ⟨e1, e2, ?_⟩
      show totalBribeOf st0.ourChoicePercentage = totalBribeOf st.ourChoicePercentage
      rw [e2]
    · right
      have e3 : st0.ourChoicePercentage = none := by
        rw [ho4, hg0]
        rfl
      have e4 : st.ourChoicePercentage = some (fin 0) := by
        rw [ho2, hg]
        show some (percentageOf rnd (fin T) (fin 0)) = some (fin 0)
        rw [percentage_of_zero h0 hT0]
      refine ⟨?_, ?_, e3, e4, ?_, ?_, ?_⟩
      · show st0.ourChoiceVotes = none
        rw [ho3, hg0]
      · show st.ourChoiceVotes = some (fin 0)
        rw [ho1, hg]
      · show totalBribeOf st0.ourChoicePercentage = nan
        rw [e3]
        rfl
      · show totalBribeOf st.ourChoicePercentage = fin 0
        rw [e4]
        simp [totalBribeOf, ofUndefinable, QI_BRIBE_PER_ONE_PERCENT, BigNumber.times]
      · simp only [distribute, hnil2]
        rfl

/-! ## Claim on the votes of voting power 0 -/

/-- C16 as stated fails.  On a single vote of voting power 0 for the bribed
choice the run completes: the total vote is 0, the percentages are `0 / 0`, and
`NaN` is not below the threshold.  Without that vote there is no vote at all and
the run stops at the threshold check.  And where a vote of voting power 0 is
the one vote for a choice labelled `A (constructor)`, the percentages by chain
hold `NaN` under `constructor` with that vote and nothing without it: an entry
that is not 0. -/
theorem zero_power_votes_only :
    main rnd20 scenarioChoices [Vote.mk "0x01" 0 [(2, 1)]] =
        .ok (Output.mk [(2, fin 0)] (fin 0)
          [TotalsRow.mk (some "WBTC (Arbitrum)") (fin 0) nan] [("Arbitrum", nan)]
          (some (fin 0)) (some nan) nan (fin 0) [] nan) ∧
      main rnd20 scenarioChoices ([Vote.mk "0x01" 0 [(2, 1)]].filter fun v => v.vp ≠ 0) =
        .error .typeError ∧
      main rnd20 ["A (constructor)", "WBTC (Arbitrum)"]
          [Vote.mk "0x0a" 0 [(1, 1)], Vote.mk "0x0b" 3 [(2, 1)]] =
        .ok (Output.mk [(1, fin 0), (2, fin 3)] (fin 3)
          [TotalsRow.mk (some "A (constructor)") (fin 0) (fin 0),
            TotalsRow.mk (some "WBTC (Arbitrum)") (fin 3) (fin 100)]
          [("constructor", nan), ("Arbitrum", fin 100)]
          (some (fin 3)) (some (fin 100)) (fin 100000) (fin 0)
          [("0x0b", BribeRecord.mk 3 (fin 100) (fin 100000) (fin 0) (fin 100000) (fin 1000))]
          (fin 100000)) ∧
      main rnd20 ["A (constructor)", "WBTC (Arbitrum)"]
          ([Vote.mk "0x0a" 0 [(1, 1)], Vote.mk "0x0b" 3 [(2, 1)]].filter fun v => v.vp ≠ 0) =
        .ok (Output.mk [(2, fin 3)] (fin 3)
          [TotalsRow.mk (some "WBTC (Arbitrum)") (fin 3) (fin 100)]
          [("Arbitrum", fin 100)]
          (some (fin 3)) (some (fin 100)) (fin 100000) (fin 0)
          [("0x0b", BribeRecord.mk 3 (fin 100) (fin 100000) (fin 0) (fin 100000) (fin 1000))]
          (fin 100000)) ∧
      (nan : BigNumber) ≠ fin 0 := by
  decide!

theorem zero_power_main : main rnd20 scenarioChoices zeroPowerVotes = .ok zeroPowerOutput := by
  decide!

/-- C16, amended.  Let every vote of voting power 0 have weights of non-zero
sum, and let `t` be the one choice id that carries the bribed label.  Such a
vote adds 0 to every choice it names: a total of the votes of non-zero power is
unchanged by the votes of power 0, and a further total is 0.  It writes no entry
of `bribes`: the loop of lines 222-239 leaves `bribes` as it would without these
votes.  And when the run completes on a total vote other than 0, the run without
the votes of voting power 0 completes as well, on the same total vote, the same
`bribes`, clawed-back amount and sum of bribes, and, for every chain whose name
is not inherited from `Object.prototype` or `BigNumber.prototype`, on the same
percentage by chain but for entries that are 0 with these votes and missing
without them; the total and the percentage of the bribed choice and the pool
are the same too, unless only votes of voting power 0 name the bribed choice:
then the total and the percentage are 0 and the pool is 0 with these votes, and
they are undefined, undefined and `NaN` without, and there is no bribe. -/
theorem zero_power_votes (choices : List String) (votes : List Vote) (t : ℕ)
    (hz : ∀ v ∈ votes, v.vp = 0 → (v.choice.map Prod.snd).sum ≠ 0)
    (htracked : ∀ i, (getProposalChoices choices)[i]? = some OUR_BRIBED_CHOICE ↔ i = t) :
    (∀ c, (∀ x, getProp c (tally rnd20 (votes.filter fun v => v.vp ≠ 0)) = some x →
          getProp c (tally rnd20 votes) = some x) ∧
        (getProp c (tally rnd20 (votes.filter fun v => v.vp ≠ 0)) = none →
          getProp c (tally rnd20 votes) = none ∨
            getProp c (tally rnd20 votes) = some (fin 0))) ∧
    (∀ P ocv, allocate rnd20 (getProposalChoices choices) P ocv votes =
      allocate rnd20 (getProposalChoices choices) P ocv (votes.filter fun v => v.vp ≠ 0)) ∧
    (∀ out T, main rnd20 choices votes = .ok out → out.totalVote = fin T → T ≠ 0 →
      ∃ out0, main rnd20 choices (votes.filter fun v => v.vp ≠ 0) = .ok out0 ∧
        out0.voteTotals = tally rnd20 (votes.filter fun v => v.vp ≠ 0) ∧
        out.voteTotals = tally rnd20 votes ∧
        out0.totalVote = out.totalVote ∧
        (∀ ch, ch ∉ inheritedKeys true →
          (∀ y, getProp ch out0.percentagesByChain = some y →
            getProp ch out.percentagesByChain = some y) ∧
          (getProp ch out0.percentagesByChain = none →
            getProp ch out.percentagesByChain = none ∨
              getProp ch out.percentagesByChain = some (fin 0))) ∧
        out0.bribes = out.bribes ∧
        out0.clawedBackWhaleBribeAmount = out.clawedBackWhaleBribeAmount ∧
        out0.sumBribes = out.sumBribes ∧
        ((out0.ourChoiceVotes = out.ourChoiceVotes ∧
            out0.ourChoicePercentage = out.ourChoicePercentage ∧
            out0.totalBribe = out.totalBribe) ∨
          (out0.ourChoiceVotes = none ∧ out.ourChoiceVotes = some (fin 0) ∧
            out0.ourChoicePercentage = none ∧ out.ourChoicePercentage = some (fin 0) ∧
            out0.totalBribe = nan ∧ out.totalBribe = fin 0 ∧ out.bribes = []))) :=
  ⟨fun c => getProp_tally_filter rnd20_zero c votes hz,
    fun P ocv => (allocate_filter rnd20 (getProposalChoices choices) P ocv votes).symm,
    fun _ _ hmain hT hT0 => zero_power_run rnd20_zero hz htracked hmain hT hT0⟩

/-- C16, amended, at the scenario with a further vote of voting power 0 on
choice 3: the bribes and their sum are those of the scenario. -/
theorem zero_power_votes_witness :
    scenarioOutput.bribes = zeroPowerOutput.bribes ∧
      scenarioOutput.sumBribes = zeroPowerOutput.sumBribes := by
  obtain ⟨out0, hmain0, _, _, _, _, hb, _, hs, _⟩ :=
    (zero_power_votes scenarioChoices zeroPowerVotes 2 (by decide!) scenario_tracked).2.2
      zeroPowerOutput 450000 zero_power_main rfl (by norm_num)
  have hf : (zeroPowerVotes.filter fun v => v.vp ≠ 0) = scenarioVotes := by
    simp [zeroPowerVotes, scenarioVotes, List.filter_cons]
  rw [hf, scenario_main] at hmain0
  injection hmain0 with hmain0
  rw [hmain0]
  exact ⟨hb, hs⟩

end QiBribes
